import Mathlib

/-!
# SingleLinkedList (single-linked-list.h, main.cpp)

A shallow embedding of the singly linked list container and a verification of
its contract.

## Memory model

* `Node*` is `Option Nat`: `none` is `nullptr`, `some a` is the address `a`.
* A `World` holds every `Node` that is alive, keyed by address (`cells`).  The
  sentinel `head_` embedded in a list object living at address `l` is the node
  `cells l`; the `size_` member of that object is `sizes l`.  So a list object
  is named by its address, exactly as `this` names it in the source.
* `new` hands out the address `brk` and bumps it, `delete` empties the cell.
  Addresses are never reused.  Memory is unbounded, and accordingly the
  `size_t` counter `size_` is a `Nat`: a chain of `2^64` distinct nodes does
  not fit a 64-bit address space, so `++size_` cannot wrap.  The `int`
  counter of `InitializeByIterators` is 32 bits wide and is modelled with its
  wrap-around (`toInt32`).
* `env` is the part of the program state the element type's copy constructor
  reads and writes (the countdown of `ThrowOnCopy` in the tests).
* Running the destructor of an element on `delete` is not modelled.

Functions of the source that may throw, trip an `assert`, dereference a null
or dangling pointer, or loop forever on an ill-formed chain return a `Res`.
Loops over a chain take a `fuel` argument; `Res.fault` is returned when it
runs out.
-/

namespace SLL

/-- The `struct Node` of the source: `value` and `next_node`. -/
structure Node (α : Type) where
  value : α
  next_node : Option Nat

/-- Program state: live nodes, `size_` members, allocation pointer, and the
state `env` seen by the element copy constructor. -/
structure World (σ α : Type) where
  cells : Nat → Option (Node α)
  sizes : Nat → Option Nat
  brk : Nat
  env : σ

/-- Outcome of running a piece of the source. -/
inductive Res (S R : Type) where
  /-- normal return with the final state and the returned value -/
  | ret (s : S) (r : R)
  /-- an exception leaves the function; `s` is the state it leaves behind -/
  | threw (s : S)
  /-- failed `assert`, undefined behaviour, or exhausted fuel -/
  | fault

/-- Computations over the `World`. -/
def M (σ α R : Type) : Type := World σ α → Res (World σ α) R

/-- Sequencing: an exception or undefined behaviour of the first part skips
the second. -/
def M.bind {σ α R Q : Type} (x : M σ α R) (f : R → M σ α Q) : M σ α Q := fun w =>
  match x w with
  | .ret w1 r => f r w1
  | .threw w1 => .threw w1
  | .fault => .fault

/-- Return a value, state untouched. -/
def M.pure {σ α R : Type} (r : R) : M σ α R := fun w => .ret w r

instance instMonadM {σ α : Type} : Monad (M σ α) where
  pure := M.pure
  bind := M.bind

/-- Undefined behaviour / failed assertion. -/
def fault {σ α R : Type} : M σ α R := fun _ => .fault

/-- The copy constructor of the element type: from the state `env` and the
source value it gives the new `env` and the copy, or `none` when it throws. -/
abbrev CopyCtor (σ α : Type) : Type := σ → α → σ × Option α

/-- A copy constructor that never throws and copies faithfully (`int`). -/
def plainCopy {σ α : Type} : CopyCtor σ α := fun e v => (e, some v)

/-! ## Primitive memory accesses -/

/-- Read the node `*p`; null or dangling `p` is undefined behaviour. -/
def load {σ α : Type} (p : Option Nat) : M σ α (Node α) := fun w =>
  match p with
  | none => .fault
  | some a =>
    match w.cells a with
    | none => .fault
    | some nd => .ret w nd

/-- Assign `p->next_node = q`. -/
def storeNext {σ α : Type} (p : Option Nat) (q : Option Nat) : M σ α Unit := fun w =>
  match p with
  | none => .fault
  | some a =>
    match w.cells a with
    | none => .fault
    | some nd =>
      .ret { w with cells := Function.update w.cells a (some { nd with next_node := q }) } ()

/-- Evaluate `new Node(val, next)`: copy-construct the value, then place the
node at a fresh address.  When the copy throws no node stays allocated. -/
def newNode {σ α : Type} (cp : CopyCtor σ α) (val : α) (next : Option Nat) : M σ α Nat := fun w =>
  match cp w.env val with
  | (e, none) => .threw { w with env := e }
  | (e, some v) =>
    .ret { w with cells := Function.update w.cells w.brk (some ⟨v, next⟩),
                  brk := w.brk + 1, env := e } w.brk

/-- Evaluate `delete p`. -/
def deleteNode {σ α : Type} (p : Option Nat) : M σ α Unit := fun w =>
  match p with
  | none => .ret w ()
  | some a =>
    match w.cells a with
    | none => .fault
    | some _ => .ret { w with cells := Function.update w.cells a none } ()

/-- Read `size_` of the list object at `self`. -/
def loadSize {σ α : Type} (self : Nat) : M σ α Nat := fun w =>
  match w.sizes self with
  | none => .fault
  | some n => .ret w n

/-- Assign `size_ = n` in the list object at `self`. -/
def storeSize {σ α : Type} (self : Nat) (n : Nat) : M σ α Unit := fun w =>
  match w.sizes self with
  | none => .fault
  | some _ => .ret { w with sizes := Function.update w.sizes self (some n) } ()

/-! ## BasicIterator -/

/-- The class `BasicIterator`: one member, `node_`. -/
structure BasicIterator where
  node_ : Option Nat
deriving DecidableEq

/-- `BasicIterator::operator==`. -/
def BasicIterator.eq (it rhs : BasicIterator) : Bool :=
  if (rhs.node_ = none ∧ it.node_ = none) ∨ it.node_ = rhs.node_ then true else false

/-- `BasicIterator::operator!=`. -/
def BasicIterator.ne (it rhs : BasicIterator) : Bool :=
  if (rhs.node_ = none ∧ it.node_ = none) ∨ it.node_ = rhs.node_ then false else true

/-- `BasicIterator::operator++()`: `assert(node_ != nullptr)`, then step. -/
def BasicIterator.incr {σ α : Type} (it : BasicIterator) : M σ α BasicIterator := do
  let nd ← load it.node_
  pure ⟨nd.next_node⟩

/-- `BasicIterator::operator*()`: `assert(node_ != nullptr)`, then `node_->value`. -/
def BasicIterator.deref {σ α : Type} (it : BasicIterator) : M σ α α := do
  let nd ← load it.node_
  pure nd.value

/-! ## SingleLinkedList: members of single-linked-list.h -/

/-- `SingleLinkedList() : head_(), size_(0)`: a list object at a fresh address. -/
def default_ctor {σ α : Type} [Inhabited α] : M σ α Nat := fun w =>
  .ret { w with cells := Function.update w.cells w.brk (some ⟨default, none⟩),
                sizes := Function.update w.sizes w.brk (some 0),
                brk := w.brk + 1 } w.brk

/-- `PushFront`. -/
def PushFront {σ α : Type} (cp : CopyCtor σ α) (self : Nat) (value : α) : M σ α Unit := do
  let head ← load (some self)
  let p ← newNode cp value head.next_node
  storeNext (some self) (some p)
  let n ← loadSize self
  storeSize self (n + 1)

/-- `GetSize`. -/
def GetSize {σ α : Type} (self : Nat) : M σ α Nat :=
  loadSize self

/-- `IsEmpty`. -/
def IsEmpty {σ α : Type} (self : Nat) : M σ α Bool := do
  let n ← loadSize self
  pure (if n = 0 then true else false)

/-- `begin()` / `cbegin()`. -/
def begin_ {σ α : Type} (self : Nat) : M σ α BasicIterator := do
  let head ← load (some self)
  pure ⟨head.next_node⟩

/-- `end()` / `cend()`. -/
def end_ : BasicIterator := ⟨none⟩

/-- `before_begin()` / `cbefore_begin()`. -/
def before_begin (self : Nat) : BasicIterator := ⟨some self⟩

/-- The loop `for (it = first; it != last; ++it) yield *it`. -/
def iterate {σ α : Type} (last : BasicIterator) : Nat → BasicIterator → M σ α (List α)
  | 0, _ => fault
  | fuel + 1, it =>
    if it.ne last then do
      let v ← it.deref
      let nxt ← it.incr
      let rest ← iterate last fuel nxt
      pure (v :: rest)
    else pure []

/-- The macro `assert(b)`. -/
def assert_ {σ α : Type} (b : Bool) : M σ α Unit :=
  if b then pure () else fault

/-- The loop of `Clear`: `while (head_.next_node != nullptr) { ... }`. -/
def ClearLoop {σ α : Type} (self : Nat) : Nat → M σ α Unit
  | 0 => fault
  | fuel + 1 => do
    let head ← load (some self)
    if head.next_node ≠ none then do
      let first ← load head.next_node
      let new_node := first.next_node
      deleteNode head.next_node
      storeNext (some self) new_node
      ClearLoop self fuel
    else pure ()

/-- `Clear`. -/
def Clear {σ α : Type} (fuel : Nat) (self : Nat) : M σ α Unit := do
  ClearLoop self fuel
  storeSize self 0

/-- `~SingleLinkedList()`: `Clear()`, after which the storage of the object
(its `head_` and `size_`) is gone. -/
def dtor {σ α : Type} (fuel : Nat) (self : Nat) : M σ α Unit := do
  Clear fuel self
  fun w => .ret { w with cells := Function.update w.cells self none,
                         sizes := Function.update w.sizes self none } ()

/-- `swap(other)`: `std::swap` of the two `head_.next_node`, then of the two
`size_`; each `std::swap(a, b)` is `t = a; a = b; b = t`. -/
def swap {σ α : Type} (self other : Nat) : M σ α Unit := do
  let o ← load (some other)
  let t := o.next_node
  let h ← load (some self)
  storeNext (some other) h.next_node
  storeNext (some self) t
  let tn ← loadSize other
  let n ← loadSize self
  storeSize other n
  storeSize self tn

/-- `InsertAfter(pos, value)`. -/
def InsertAfter {σ α : Type} (cp : CopyCtor σ α) (self : Nat) (pos : BasicIterator) (value : α) :
    M σ α BasicIterator := do
  let at_pos ← load pos.node_
  let new_node := at_pos.next_node
  let p ← newNode cp value new_node
  storeNext pos.node_ (some p)
  let n ← loadSize self
  storeSize self (n + 1)
  let at_pos ← load pos.node_
  pure ⟨at_pos.next_node⟩

/-- `PopFront()`.  After the `assert`, `--size_` does not wrap. -/
def PopFront {σ α : Type} (self : Nat) : M σ α Unit := do
  let e ← IsEmpty self
  assert_ (!e)
  let head ← load (some self)
  let first ← load head.next_node
  let current_node := first.next_node
  deleteNode head.next_node
  let n ← loadSize self
  storeSize self (n - 1)
  storeNext (some self) current_node

/-- `EraseAfter(pos)`.  After the `assert`, `--size_` does not wrap. -/
def EraseAfter {σ α : Type} (self : Nat) (pos : BasicIterator) : M σ α BasicIterator := do
  let e ← IsEmpty self
  assert_ (!e)
  let at_pos ← load pos.node_
  let victim ← load at_pos.next_node
  let my_node := victim.next_node
  deleteNode at_pos.next_node
  let n ← loadSize self
  storeSize self (n - 1)
  storeNext pos.node_ my_node
  let at_pos ← load pos.node_
  pure ⟨at_pos.next_node⟩

/-- Leaving the scope of a local object: `cleanup` (its destructor) runs
whether `body` returns or throws, and an exception keeps propagating. -/
def withCleanup {σ α R : Type} (body : M σ α R) (cleanup : M σ α Unit) : M σ α R := fun w =>
  match body w with
  | .ret w1 r =>
    match cleanup w1 with
    | .ret w2 _ => .ret w2 r
    | .threw w2 => .threw w2
    | .fault => .fault
  | .threw w1 =>
    match cleanup w1 with
    | .ret w2 _ => .threw w2
    | .threw w2 => .threw w2
    | .fault => .fault
  | .fault => .fault

/-- The operations `InitializeByIterators` needs of its iterator type `I`:
`std::distance(first, last)`, `std::advance(it, n)` and `*it`. -/
structure IterOps (σ α ι : Type) where
  distance : ι → ι → M σ α Int
  advance : ι → Nat → M σ α ι
  deref : ι → M σ α α

/-- `static_cast<int>` of a `ptrdiff_t`: reduction modulo `2^32` into
`[-2^31, 2^31)` (the rule of C++20, and what GCC, Clang and MSVC do under the
older standards, where the result is implementation-defined). -/
def toInt32 (n : Int) : Int :=
  (n + 2147483648) % 4294967296 - 2147483648

/-- The body of the loop `for (int i = ...; i >= 0; --i)` of
`InitializeByIterators`, run for `i = k - 1, ..., 0`. -/
def InitLoop {σ α ι : Type} (cp : CopyCtor σ α) (ops : IterOps σ α ι) (input_begin : ι)
    (tmp : Nat) : Nat → M σ α Unit
  | 0 => pure ()
  | i + 1 => do
    let it ← ops.advance input_begin i
    let v ← ops.deref it
    PushFront cp tmp v
    InitLoop cp ops input_begin tmp i

/-- `InitializeByIterators(begin, end)`.  `size - 1` overflows `int` when
`size` is `INT_MIN`, which is undefined. -/
def InitializeByIterators {σ α ι : Type} [Inhabited α] (cp : CopyCtor σ α) (ops : IterOps σ α ι)
    (fuel : Nat) (self : Nat) (first last : ι) : M σ α Unit := do
  let tmp ← default_ctor
  withCleanup
    (do
      let d ← ops.distance first last
      let size := toInt32 d
      if size = -2147483648 then fault
      else do
        InitLoop cp ops first tmp size.toNat
        swap self tmp)
    (dtor fuel tmp)

/-- Storage for a list object whose constructor has no member initialisers:
`head_` is default-initialised (`next_node = nullptr`) and `size_` holds an
indeterminate value `junk`. -/
def rawObject {σ α : Type} [Inhabited α] (junk : Nat) : M σ α Nat := fun w =>
  .ret { w with cells := Function.update w.cells w.brk (some ⟨default, none⟩),
                sizes := Function.update w.sizes w.brk (some junk),
                brk := w.brk + 1 } w.brk

/-- Give back the storage of an object whose constructor threw. -/
def dropObject {σ α : Type} (self : Nat) : M σ α Unit := fun w =>
  .ret { w with cells := Function.update w.cells self none,
                sizes := Function.update w.sizes self none } ()

/-- A constructor body `body` run on fresh storage: when the body throws, the
storage is given back and the exception propagates. -/
def construct {σ α : Type} [Inhabited α] (junk : Nat) (body : Nat → M σ α Unit) : M σ α Nat := fun w =>
  match rawObject junk w with
  | .ret w1 self =>
    match body self w1 with
    | .ret w2 _ => .ret w2 self
    | .threw w2 =>
      match dropObject self w2 with
      | .ret w3 _ => .threw w3
      | _ => .fault
    | .fault => .fault
  | _ => .fault

/-- Iterators of a `std::initializer_list` over the array `values`: pointers
into the array, here indices. -/
def arrayOps {σ α : Type} (values : List α) : IterOps σ α Nat where
  distance := fun first last => pure ((last : Int) - (first : Int))
  advance := fun it n => pure (it + n)
  deref := fun it =>
    match values.get? it with
    | some v => pure v
    | none => fault

/-- `std::advance(it, n)` for a forward iterator: `n` times `++it`. -/
def advance {σ α : Type} (it : BasicIterator) : Nat → M σ α BasicIterator
  | 0 => pure it
  | n + 1 => do
    let nxt ← it.incr
    advance nxt n

/-- `std::distance(first, last)` for a forward iterator: count the `++first`
until `first == last`. -/
def distance {σ α : Type} (last : BasicIterator) : Nat → BasicIterator → M σ α Int
  | 0, _ => fault
  | fuel + 1, first =>
    if first.ne last then do
      let nxt ← first.incr
      let n ← distance last fuel nxt
      pure (n + 1)
    else pure 0

/-- Iterators of the list itself (`ConstIterator`). -/
def listOps {σ α : Type} (fuel : Nat) : IterOps σ α BasicIterator where
  distance := fun first last => distance last fuel first
  advance := fun it n => advance it n
  deref := fun it => it.deref

/-- `SingleLinkedList(std::initializer_list<Type> values)`. -/
def init_list_ctor {σ α : Type} [Inhabited α] (cp : CopyCtor σ α) (fuel junk : Nat)
    (values : List α) : M σ α Nat :=
  construct junk fun self =>
    InitializeByIterators cp (arrayOps values) fuel self 0 values.length

/-- `SingleLinkedList(const SingleLinkedList &other)`. -/
def copy_ctor {σ α : Type} [Inhabited α] (cp : CopyCtor σ α) (fuel junk : Nat)
    (other : Nat) : M σ α Nat :=
  construct junk fun self => do
    let b ← begin_ other
    InitializeByIterators cp (listOps fuel) fuel self b end_

/-- `operator=(const SingleLinkedList &rhs)`. -/
def assign {σ α : Type} [Inhabited α] (cp : CopyCtor σ α) (fuel junk : Nat)
    (self rhs : Nat) : M σ α Unit :=
  if self ≠ rhs then do
    let tmp ← copy_ctor cp fuel junk rhs
    withCleanup (swap self tmp) (dtor fuel tmp)
  else pure ()

/-- The four-iterator `std::equal` on forward iterators. -/
def std_equal {σ α : Type} [BEq α] (last1 last2 : BasicIterator) :
    Nat → BasicIterator → BasicIterator → M σ α Bool
  | 0, _, _ => fault
  | fuel + 1, first1, first2 =>
    if first1.ne last1 && first2.ne last2 then do
      let a ← first1.deref
      let b ← first2.deref
      if !(a == b) then pure false
      else do
        let n1 ← first1.incr
        let n2 ← first2.incr
        std_equal last1 last2 fuel n1 n2
    else pure (first1.eq last1 && first2.eq last2)

/-- The algorithm `std::lexicographical_compare`. -/
def std_lexicographical_compare {σ α : Type} [LT α] [DecidableRel (α := α) (· < ·)]
    (last1 last2 : BasicIterator) : Nat → BasicIterator → BasicIterator → M σ α Bool
  | 0, _, _ => fault
  | fuel + 1, first1, first2 =>
    if first1.ne last1 && first2.ne last2 then do
      let a ← first1.deref
      let b ← first2.deref
      if a < b then pure true
      else if b < a then pure false
      else do
        let n1 ← first1.incr
        let n2 ← first2.incr
        std_lexicographical_compare last1 last2 fuel n1 n2
    else pure (first1.eq last1 && first2.ne last2)

/-- `operator==(lhs, rhs)`; the fourth argument is `lhs.end()`, as in the source. -/
def op_eq {σ α : Type} [BEq α] (fuel : Nat) (lhs rhs : Nat) : M σ α Bool := do
  let b1 ← begin_ lhs
  let b2 ← begin_ rhs
  std_equal end_ end_ fuel b1 b2

/-- `operator!=(lhs, rhs)`. -/
def op_ne {σ α : Type} [BEq α] (fuel : Nat) (lhs rhs : Nat) : M σ α Bool := do
  let r ← op_eq fuel lhs rhs
  pure (!r)

/-- `operator<(lhs, rhs)`. -/
def op_lt {σ α : Type} [LT α] [DecidableRel (α := α) (· < ·)] (fuel : Nat) (lhs rhs : Nat) :
    M σ α Bool := do
  let b1 ← begin_ lhs
  let b2 ← begin_ rhs
  std_lexicographical_compare end_ end_ fuel b1 b2

/-- Forward iteration over the whole list: from `begin()` to `end()`. -/
def toList {σ α : Type} (fuel : Nat) (self : Nat) : M σ α (List α) := do
  let b ← begin_ self
  iterate end_ fuel b

/-- The value a computation returns, if it returns. -/
def Res.val? {S R : Type} : Res S R → Option R
  | .ret _ r => some r
  | _ => none

/-- The state a computation returns in, if it returns. -/
def Res.state? {S R : Type} : Res S R → Option S
  | .ret s _ => some s
  | _ => none

/-- The empty memory. -/
def World.empty {σ α : Type} (e : σ) : World σ α :=
  { cells := fun _ => none, sizes := fun _ => none, brk := 0, env := e }

end SLL


/-! ## Well-formed lists -/

namespace SLL

variable {σ α : Type}

/-- List segment: starting at pointer `p`, the cells hold the nodes `ns`
(address and value, in order), and the last of them points to `q`. -/
def Lseg (c : Nat → Option (Node α)) : Option Nat → List (Nat × α) → Option Nat → Prop
  | p, [], q => p = q
  | p, n :: rest, q => p = some n.1 ∧ ∃ nx, c n.1 = some ⟨n.2, nx⟩ ∧ Lseg c nx rest q

/-- The list object at address `l` holds exactly the nodes `ns` and its
`size_` member holds `n`: the sentinel is alive and heads a null-terminated
chain through `ns`, no address occurs twice (the chain is acyclic), and
nothing lives at or above the allocation pointer. -/
structure Shaped (w : World σ α) (l : Nat) (ns : List (Nat × α)) (n : Nat) : Prop where
  head : ∃ sv nx, w.cells l = some ⟨sv, nx⟩ ∧ Lseg w.cells nx ns none
  nodup : (l :: ns.map Prod.fst).Nodup
  size : w.sizes l = some n
  alloc : ∀ a, w.brk ≤ a → w.cells a = none

/-- The list object at address `l` is in a valid state and holds exactly the
nodes `ns`: it is `Shaped` and `size_` is the number of nodes. -/
abbrev Valid (w : World σ α) (l : Nat) (ns : List (Nat × α)) : Prop :=
  Shaped w l ns ns.length

/-- What an operation leaves alone: `w2` agrees with `w` on every old address
outside `S`, and the allocation pointer did not move back. -/
structure Frame (S : List Nat) (w w2 : World σ α) : Prop where
  brk : w.brk ≤ w2.brk
  cells : ∀ a, a < w.brk → a ∉ S → w2.cells a = w.cells a
  sizes : ∀ a, a < w.brk → a ∉ S → w2.sizes a = w.sizes a

/-- Address of the first node of `ns`, or null. -/
def hd (ns : List (Nat × α)) : Option Nat := ns.head?.map Prod.fst

/-- Nothing lives at or above the allocation pointer. -/
def WellAlloc (w : World σ α) : Prop := ∀ a, w.brk ≤ a → w.cells a = none

/-- The copy constructor never throws and the copy equals the original. -/
def Faithful (cp : CopyCtor σ α) : Prop := ∀ e v, (cp e v).2 = some v

/-- Copy the values `vs` one after the other, threading the state of the copy
constructor: the copies, or `none` as soon as one copy throws. -/
def copyAll (cp : CopyCtor σ α) : σ → List α → σ × Option (List α)
  | e, [] => (e, some [])
  | e, v :: vs =>
    match cp e v with
    | (e1, none) => (e1, none)
    | (e1, some c) =>
      match copyAll cp e1 vs with
      | (e2, none) => (e2, none)
      | (e2, some cs) => (e2, some (c :: cs))

/-- Copying the first `k` of `vals` from the last to the first, as
`InitializeByIterators` does, starting in state `e`, succeeds, and `cs` are
the copies (listed in the order of `vals`). -/
def Copied (cp : CopyCtor σ α) (e : σ) (vals : List α) (k : Nat) (cs : List α) : Prop :=
  (copyAll cp e (vals.take k).reverse).2 = some cs.reverse

/-- Copying the first `k` of `vals` from the last to the first, starting in
state `e`, runs into a copy that throws. -/
def CopyFails (cp : CopyCtor σ α) (e : σ) (vals : List α) (k : Nat) : Prop :=
  (copyAll cp e (vals.take k).reverse).2 = none

/-- What a caller sees of a list: the sequence forward iteration produces
and the result of `GetSize()`. -/
def observe (fuel : Nat) (l : Nat) : M σ α (List α × Nat) := do
  let xs ← toList fuel l
  let n ← GetSize l
  pure (xs, n)

/-- A memory holding the list `{1, 2, 3}` at address `0` (nodes at `4, 3, 2`)
and the list `{1, 2, 4, 8}` at address `5` (nodes at `9, 8, 7, 6`): the state
after `SingleLinkedList<int> a{1, 2, 3}, b{1, 2, 4, 8};`. -/
def demoWorld : World Unit Nat where
  cells := fun a =>
    if a = 0 then some ⟨0, some 4⟩
    else if a = 4 then some ⟨1, some 3⟩
    else if a = 3 then some ⟨2, some 2⟩
    else if a = 2 then some ⟨3, none⟩
    else if a = 5 then some ⟨0, some 9⟩
    else if a = 9 then some ⟨1, some 8⟩
    else if a = 8 then some ⟨2, some 7⟩
    else if a = 7 then some ⟨4, some 6⟩
    else if a = 6 then some ⟨8, none⟩
    else none
  sizes := fun a => if a = 0 then some 3 else if a = 5 then some 4 else none
  brk := 10
  env := ()

/-- Nodes at consecutive addresses from `k` on, holding `vals`. -/
def nodesFrom (k : Nat) : List α → List (Nat × α)
  | [] => []
  | v :: vs => (k, v) :: nodesFrom (k + 1) vs

/-- A memory holding one list, at address `0`, with the values `vals` in
nodes at the addresses `1, 2, ...`. -/
def listWorld [Inhabited α] (e : σ) (vals : List α) : World σ α where
  cells := fun a =>
    if a = 0 then some ⟨default, if vals.length = 0 then none else some 1⟩
    else
      match vals[a - 1]? with
      | some v => some ⟨v, if a < vals.length then some (a + 1) else none⟩
      | none => none
  sizes := fun a => if a = 0 then some vals.length else none
  brk := vals.length + 1
  env := e

/-- The iterator to the `k`-th element, counted from 0: `std::next(begin(), k)`. -/
def nth (self k : Nat) : M σ α BasicIterator := do
  let b ← begin_ self
  advance b k

/-- The block `try { body } catch (const std::bad_alloc&) { }` of the test:
the result is `none` when `body` threw. -/
def tryCatch {R : Type} (body : M σ α R) : M σ α (Option R) := fun w =>
  match body w with
  | .ret w1 r => .ret w1 (some r)
  | .threw w1 => .ret w1 none
  | .fault => .fault

/-- The test helper `ThrowOnCopy`: `countdown_ptr` is either null (`false`) or
the address of the counter `copy_counter` (`true`), which is the `env` of the
world. -/
structure ThrowOnCopy where
  countdown_ptr : Bool
deriving DecidableEq

instance instInhabitedThrowOnCopy : Inhabited ThrowOnCopy := ⟨⟨false⟩⟩

/-- The copy constructor `ThrowOnCopy(const ThrowOnCopy& other)`: with a
counter attached it throws when the counter is `0` and decrements it
otherwise. -/
def ThrowOnCopy.copy : CopyCtor Int ThrowOnCopy := fun counter other =>
  if other.countdown_ptr then
    if counter = 0 then (counter, none) else (counter - 1, some ⟨other.countdown_ptr⟩)
  else (counter, some ⟨other.countdown_ptr⟩)

/-- The spec's equality of two sequences: equal size and pairwise-equal
elements in iteration order. -/
def seqEqual [BEq α] (xs ys : List α) : Bool :=
  decide (xs.length = ys.length) && (xs.zip ys).all (fun p => p.1 == p.2)

/-- Strict lexicographic comparison decided element by element, the first
pair that is ordered either way deciding; a sequence that runs out first is
smaller. -/
def lexLess [LT α] [DecidableRel (α := α) (· < ·)] : List α → List α → Bool
  | [], [] => false
  | [], _ :: _ => true
  | _ :: _, [] => false
  | x :: xs, y :: ys => if x < y then true else if y < x then false else lexLess xs ys

/-- The spec's strict lexicographic order: `xs` is a proper prefix of `ys`, or
after a common prefix the first differing element of `xs` is less than that
of `ys`. -/
def Precedes [LT α] (xs ys : List α) : Prop :=
  (∃ y t, ys = xs ++ y :: t) ∨
  (∃ p x s y t, xs = p ++ x :: s ∧ ys = p ++ y :: t ∧ x ≠ y ∧ x < y)

/-- `pos` is a valid position of the list `l`: `before_begin()` advanced some
number of times (`0` times: `before_begin()` itself; `k + 1` times: the
iterator to the `k`-th element), and not `end()`. -/
def ValidPos (w : World σ α) (l : Nat) (pos : BasicIterator) : Prop :=
  ∃ k, advance (before_begin l) k w = .ret w pos ∧ pos.ne end_ = true

/-- The valid position `pos` has a successor: `++pos` is not `end()`. -/
def HasNext (w : World σ α) (l : Nat) (pos : BasicIterator) : Prop :=
  ValidPos w l pos ∧ ∃ nxt, pos.incr w = .ret w nxt ∧ nxt.ne end_ = true

/-- `GetSize()` of `l` is below `fuel`: the loops over `l` have enough fuel. -/
def Fueled (w : World σ α) (l : Nat) (fuel : Nat) : Prop :=
  ∃ n, GetSize l w = .ret w n ∧ n < fuel

/-- All lists of `L` are valid and no two of them share a node. -/
def Inv (w : World σ α) (L : List Nat) : Prop :=
  WellAlloc w ∧ ∃ F : Nat → List (Nat × α),
    (∀ l ∈ L, Valid w l (F l)) ∧
    (∀ l ∈ L, ∀ k ∈ L, l ≠ k → ∀ x ∈ l :: (F l).map Prod.fst, x ∉ k :: (F k).map Prod.fst)

/-- One in-contract operation on the lists `L` that are alive, taking the
program from `(w, L)` to the state on the right.  A constructor that returns
adds its list; an operation that throws (the element copy failed) leaves the
set of lists as it was. -/
inductive Step [Inhabited α] (cp : CopyCtor σ α) :
    World σ α × List Nat → World σ α × List Nat → Prop where
  | default_ctor {w w2 : World σ α} {L : List Nat} {l : Nat} :
      default_ctor w = .ret w2 l → Step cp (w, L) (w2, l :: L)
  | init_list {w w2 : World σ α} {L : List Nat} {l : Nat} (fuel junk : Nat) (vals : List α) :
      vals.length < fuel → init_list_ctor cp fuel junk vals w = .ret w2 l →
      Step cp (w, L) (w2, l :: L)
  | init_list_threw {w w2 : World σ α} {L : List Nat} (fuel junk : Nat) (vals : List α) :
      vals.length < fuel → init_list_ctor cp fuel junk vals w = .threw w2 →
      Step cp (w, L) (w2, L)
  | copy {w w2 : World σ α} {L : List Nat} {l : Nat} (fuel junk other : Nat) :
      other ∈ L → Fueled w other fuel → copy_ctor cp fuel junk other w = .ret w2 l →
      Step cp (w, L) (w2, l :: L)
  | copy_threw {w w2 : World σ α} {L : List Nat} (fuel junk other : Nat) :
      other ∈ L → Fueled w other fuel → copy_ctor cp fuel junk other w = .threw w2 →
      Step cp (w, L) (w2, L)
  | push {w w2 : World σ α} {L : List Nat} (l : Nat) (v : α) :
      l ∈ L → PushFront cp l v w = .ret w2 () → Step cp (w, L) (w2, L)
  | push_threw {w w2 : World σ α} {L : List Nat} (l : Nat) (v : α) :
      l ∈ L → PushFront cp l v w = .threw w2 → Step cp (w, L) (w2, L)
  | pop {w w2 : World σ α} {L : List Nat} (l : Nat) :
      l ∈ L → IsEmpty l w = .ret w false → PopFront l w = .ret w2 () → Step cp (w, L) (w2, L)
  | insert {w w2 : World σ α} {L : List Nat} (l : Nat) (pos it : BasicIterator) (v : α) :
      l ∈ L → ValidPos w l pos → InsertAfter cp l pos v w = .ret w2 it → Step cp (w, L) (w2, L)
  | insert_threw {w w2 : World σ α} {L : List Nat} (l : Nat) (pos : BasicIterator) (v : α) :
      l ∈ L → ValidPos w l pos → InsertAfter cp l pos v w = .threw w2 → Step cp (w, L) (w2, L)
  | erase {w w2 : World σ α} {L : List Nat} (l : Nat) (pos it : BasicIterator) :
      l ∈ L → HasNext w l pos → EraseAfter l pos w = .ret w2 it → Step cp (w, L) (w2, L)
  | clear {w w2 : World σ α} {L : List Nat} (fuel l : Nat) :
      l ∈ L → Fueled w l fuel → Clear fuel l w = .ret w2 () → Step cp (w, L) (w2, L)
  | swap {w w2 : World σ α} {L : List Nat} (a b : Nat) :
      a ∈ L → b ∈ L → swap a b w = .ret w2 () → Step cp (w, L) (w2, L)
  | assign {w w2 : World σ α} {L : List Nat} (fuel junk a b : Nat) :
      a ∈ L → b ∈ L → Fueled w a fuel → Fueled w b fuel →
      assign cp fuel junk a b w = .ret w2 () → Step cp (w, L) (w2, L)
  | assign_threw {w w2 : World σ α} {L : List Nat} (fuel junk a b : Nat) :
      a ∈ L → b ∈ L → Fueled w a fuel → Fueled w b fuel →
      assign cp fuel junk a b w = .threw w2 → Step cp (w, L) (w2, L)

/-- The states a program reaches from the empty memory by constructing lists
and applying in-contract operations to them. -/
inductive Reachable [Inhabited α] (cp : CopyCtor σ α) (e : σ) :
    World σ α × List Nat → Prop where
  | start : Reachable cp e (World.empty e, [])
  | step {s s2 : World σ α × List Nat} : Reachable cp e s → Step cp s s2 → Reachable cp e s2

/-- The memory after `SingleLinkedList<int> l; l.PushFront(5);`, run from the
empty memory. -/
def pushedWorld : World Unit Nat :=
  match (default_ctor >>= fun l => PushFront plainCopy l 5) (World.empty ()) with
  | .ret w _ => w
  | _ => World.empty ()

/-- A copy constructor that always throws. -/
def neverCopy : CopyCtor σ α := fun e _ => (e, none)

/-- `cbefore_begin()` and the `const` overload of `before_begin()`. -/
def cbefore_begin (self : Nat) : BasicIterator := ⟨some self⟩

/-- `cbegin()` and the `const` overload of `begin()`. -/
def cbegin (self : Nat) : M σ α BasicIterator := do
  let head ← load (some self)
  pure ⟨head.next_node⟩

/-- The free function `swap(lhs, rhs)`. -/
def swap_free (lhs rhs : Nat) : M σ α Unit :=
  swap lhs rhs

/-- `operator<=(lhs, rhs)`: `!(rhs < lhs)`. -/
def op_le [LT α] [DecidableRel (α := α) (· < ·)] (fuel : Nat) (lhs rhs : Nat) : M σ α Bool := do
  let r ← op_lt fuel rhs lhs
  pure (!r)

/-- `operator>(lhs, rhs)`: `rhs < lhs`. -/
def op_gt [LT α] [DecidableRel (α := α) (· < ·)] (fuel : Nat) (lhs rhs : Nat) : M σ α Bool :=
  op_lt fuel rhs lhs

/-- `operator>=(lhs, rhs)`: `!(lhs < rhs)`. -/
def op_ge [LT α] [DecidableRel (α := α) (· < ·)] (fuel : Nat) (lhs rhs : Nat) : M σ α Bool := do
  let r ← op_lt fuel lhs rhs
  pure (!r)

/-! ## The copy of the class in main.cpp: the members that differ -/

/-- main.cpp `PopFront()`: the body is guarded by `if (!IsEmpty())`. -/
def Main.PopFront (self : Nat) : M σ α Unit := do
  let e ← IsEmpty self
  if !e then do
    let head ← load (some self)
    let first ← load head.next_node
    let current_node := first.next_node
    deleteNode head.next_node
    let n ← loadSize self
    storeSize self (n - 1)
    storeNext (some self) current_node
  else pure ()

/-- main.cpp `EraseAfter(pos)`: the removal is guarded by `if (!IsEmpty())`,
the `return Iterator{pos.node_->next_node}` is not. -/
def Main.EraseAfter (self : Nat) (pos : BasicIterator) : M σ α BasicIterator := do
  let e ← IsEmpty self
  if !e then do
    let at_pos ← load pos.node_
    let victim ← load at_pos.next_node
    let my_node := victim.next_node
    deleteNode at_pos.next_node
    let n ← loadSize self
    storeSize self (n - 1)
    storeNext pos.node_ my_node
  else pure ()
  let at_pos ← load pos.node_
  pure ⟨at_pos.next_node⟩

/-- The loop `for (auto a = values.begin(); a != values.end(); ++a)
l1.PushFront(*a);` of main.cpp over an array. -/
def Main.pushArray (cp : CopyCtor σ α) (l1 : Nat) : List α → M σ α Unit
  | [] => pure ()
  | v :: vs => do
    PushFront cp l1 v
    Main.pushArray cp l1 vs

/-- The loop `for (auto a = first; a != l.end(); ++a) l2.PushFront(*a);` of
main.cpp over a list. -/
def Main.pushList (cp : CopyCtor σ α) (l2 : Nat) : Nat → BasicIterator → M σ α Unit
  | 0, _ => fault
  | fuel + 1, a =>
    if a.ne end_ then do
      let v ← a.deref
      PushFront cp l2 v
      let nxt ← a.incr
      Main.pushList cp l2 fuel nxt
    else pure ()

/-- main.cpp `SingleLinkedList(std::initializer_list<Type> values)`: push
every value onto `l1`, push every element of `l1` onto `l2`, swap with `l2`.
The locals are destroyed in reverse order when the scope is left. -/
def Main.init_list_ctor [Inhabited α] (cp : CopyCtor σ α) (fuel junk : Nat) (values : List α) :
    M σ α Nat :=
  construct junk fun self => do
    let l1 ← default_ctor
    withCleanup
      (do
        let l2 ← default_ctor
        withCleanup
          (do
            Main.pushArray cp l1 values
            let b ← begin_ l1
            Main.pushList cp l2 fuel b
            swap self l2)
          (dtor fuel l2))
      (dtor fuel l1)

/-- main.cpp `SingleLinkedList(const SingleLinkedList& other)`. -/
def Main.copy_ctor [Inhabited α] (cp : CopyCtor σ α) (fuel junk : Nat) (other : Nat) :
    M σ α Nat :=
  construct junk fun self => do
    let l1 ← default_ctor
    withCleanup
      (do
        let l2 ← default_ctor
        withCleanup
          (do
            let a ← begin_ other
            Main.pushList cp l1 fuel a
            let b ← begin_ l1
            Main.pushList cp l2 fuel b
            swap self l2)
          (dtor fuel l2))
      (dtor fuel l1)

/-- main.cpp `operator!=`: `!std::equal(...)` written out. -/
def Main.op_ne [BEq α] (fuel : Nat) (lhs rhs : Nat) : M σ α Bool := do
  let b1 ← begin_ lhs
  let b2 ← begin_ rhs
  let r ← std_equal end_ end_ fuel b1 b2
  pure (!r)

/-- main.cpp `operator>`: `std::lexicographical_compare` with the arguments
exchanged, written out. -/
def Main.op_gt [LT α] [DecidableRel (α := α) (· < ·)] (fuel : Nat) (lhs rhs : Nat) :
    M σ α Bool := do
  let b1 ← begin_ rhs
  let b2 ← begin_ lhs
  std_lexicographical_compare end_ end_ fuel b1 b2

/-- The computation returned normally. -/
def Res.isRet {S R : Type} : Res S R → Bool
  | .ret _ _ => true
  | _ => false

/-- Forget the value a computation returns. -/
def discard {R : Type} (x : M σ α R) : M σ α Unit := do
  let _ ← x
  pure ()

end SLL

/-! ## Basic lemmas -/

namespace SLL

variable {σ α : Type}

theorem bind_ret {R Q : Type} {x : M σ α R} {f : R → M σ α Q} {w w1 : World σ α} {r : R}
    (h : x w = .ret w1 r) : (x >>= f) w = f r w1 := by
  show M.bind x f w = _
  simp [M.bind, h]

theorem bind_threw {R Q : Type} {x : M σ α R} {f : R → M σ α Q} {w w1 : World σ α}
    (h : x w = .threw w1) : (x >>= f) w = .threw w1 := by
  show M.bind x f w = _
  simp [M.bind, h]

theorem bind_fault {R Q : Type} {x : M σ α R} {f : R → M σ α Q} {w : World σ α}
    (h : x w = .fault) : (x >>= f) w = .fault := by
  show M.bind x f w = _
  simp [M.bind, h]

@[simp] theorem pure_apply {R : Type} (r : R) (w : World σ α) :
    (pure r : M σ α R) w = .ret w r := rfl

theorem load_some {w : World σ α} {a : Nat} {nd : Node α} (h : w.cells a = some nd) :
    load (some a) w = .ret w nd := by
  simp [load, h]

theorem storeNext_some {w : World σ α} {a : Nat} {nd : Node α} (q : Option Nat)
    (h : w.cells a = some nd) :
    storeNext (some a) q w =
      .ret { w with cells := Function.update w.cells a (some ⟨nd.value, q⟩) } () := by
  simp [storeNext, h]

theorem loadSize_some {w : World σ α} {a n : Nat} (h : w.sizes a = some n) :
    loadSize a w = .ret w n := by
  simp [loadSize, h]

theorem storeSize_some {w : World σ α} {a n : Nat} (m : Nat) (h : w.sizes a = some n) :
    storeSize a m w = .ret { w with sizes := Function.update w.sizes a (some m) } () := by
  simp [storeSize, h]

theorem Lseg_congr {c c2 : Nat → Option (Node α)} {ns : List (Nat × α)} :
    ∀ {p q : Option Nat}, (∀ a ∈ ns.map Prod.fst, c2 a = c a) → Lseg c p ns q → Lseg c2 p ns q := by
  induction ns with
  | nil => intro p q _ h; exact h
  | cons n rest ih =>
    intro p q hag h
    obtain ⟨hp, nx, hc, hr⟩ := h
    refine ⟨hp, nx, ?_, ih (fun a ha => hag a (by simp [ha])) hr⟩
    rw [hag n.1 (by simp), hc]

theorem Lseg_alive {c : Nat → Option (Node α)} {ns : List (Nat × α)} :
    ∀ {p q : Option Nat}, Lseg c p ns q → ∀ a ∈ ns.map Prod.fst, c a ≠ none := by
  induction ns with
  | nil => intro p q _ a ha; simp at ha
  | cons n rest ih =>
    intro p q h a ha
    obtain ⟨_, nx, hc, hr⟩ := h
    simp only [List.map_cons, List.mem_cons] at ha
    rcases ha with rfl | ha
    · simp [hc]
    · exact ih hr a ha

theorem Shaped.lt_brk {w : World σ α} {l n : Nat} {ns : List (Nat × α)} (h : Shaped w l ns n) :
    ∀ a ∈ l :: ns.map Prod.fst, a < w.brk := by
  intro a ha
  by_contra hge
  have hnone := h.alloc a (Nat.le_of_not_lt hge)
  obtain ⟨sv, nx, hc, hs⟩ := h.head
  simp only [List.mem_cons] at ha
  rcases ha with rfl | ha
  · simp [hc] at hnone
  · exact Lseg_alive hs a ha hnone

theorem bind_apply {R Q : Type} (x : M σ α R) (f : R → M σ α Q) (w : World σ α) :
    (x >>= f) w = M.bind x f w := rfl

theorem PushFront_eq {cp : CopyCtor σ α} {w : World σ α} {l : Nat} {sv : α} {nx : Option Nat}
    {n : Nat} {v v2 : α} {e : σ} (hcell : w.cells l = some ⟨sv, nx⟩) (hn : w.sizes l = some n)
    (hne : l ≠ w.brk) (hc : cp w.env v = (e, some v2)) :
    PushFront cp l v w = .ret
      { cells := Function.update (Function.update w.cells w.brk (some ⟨v2, nx⟩)) l
          (some ⟨sv, some w.brk⟩),
        sizes := Function.update w.sizes l (some (n + 1)),
        brk := w.brk + 1, env := e } () := by
  simp [PushFront, bind_apply, M.bind, load, newNode, storeNext, loadSize, storeSize, hcell, hc,
    hn, Function.update, hne]

theorem Lseg_hd {c : Nat → Option (Node α)} {ns : List (Nat × α)} {p : Option Nat}
    (h : Lseg c p ns none) : p = hd ns := by
  cases ns with
  | nil => exact h
  | cons n rest => exact h.1

theorem Lseg_append {c : Nat → Option (Node α)} {A B : List (Nat × α)} :
    ∀ {p q : Option Nat}, Lseg c p (A ++ B) q ↔ ∃ m, Lseg c p A m ∧ Lseg c m B q := by
  induction A with
  | nil =>
    intro p q
    constructor
    · intro h; exact ⟨p, rfl, h⟩
    · rintro ⟨m, hm, h⟩
      have : p = m := hm
      subst this; exact h
  | cons n rest ih =>
    intro p q
    constructor
    · rintro ⟨hp, nx, hc, hr⟩
      obtain ⟨m, h1, h2⟩ := ih.mp hr
      exact ⟨m, ⟨hp, nx, hc, h1⟩, h2⟩
    · rintro ⟨m, ⟨hp, nx, hc, h1⟩, h2⟩
      exact ⟨hp, nx, hc, ih.mpr ⟨m, h1, h2⟩⟩

theorem Lseg_update {c : Nat → Option (Node α)} {ns : List (Nat × α)} {p q : Option Nat}
    {a : Nat} {x : Option (Node α)} (ha : a ∉ ns.map Prod.fst) (h : Lseg c p ns q) :
    Lseg (Function.update c a x) p ns q := by
  refine Lseg_congr (fun b hb => ?_) h
  have : b ≠ a := fun hba => ha (hba ▸ hb)
  simp [Function.update, this]

/-- The extended chain: sentinel first. -/
theorem Valid.chain {w : World σ α} {l : Nat} {ns : List (Nat × α)} (h : Valid w l ns) :
    ∃ sv, Lseg w.cells (some l) ((l, sv) :: ns) none := by
  obtain ⟨sv, nx, hc, hs⟩ := h.head
  exact ⟨sv, rfl, nx, hc, hs⟩

theorem Valid.of_chain {w : World σ α} {l : Nat} {ns : List (Nat × α)} {s : α}
    (hch : Lseg w.cells (some l) ((l, s) :: ns) none)
    (hnd : (l :: ns.map Prod.fst).Nodup) (hsz : w.sizes l = some ns.length)
    (hal : ∀ a, w.brk ≤ a → w.cells a = none) : Valid w l ns := by
  obtain ⟨_, nx, hc, hs⟩ := hch
  exact ⟨⟨s, nx, hc, hs⟩, hnd, hsz, hal⟩

/-- Splicing a fresh node `b` in after the node `a` of a chain. -/
theorem Lseg_insert {c : Nat → Option (Node α)} {A post : List (Nat × α)} {p : Option Nat}
    {a b : Nat} {x v : α}
    (h : Lseg c p (A ++ (a, x) :: post) none)
    (hnd : ((A ++ (a, x) :: post).map Prod.fst).Nodup)
    (hb : b ∉ (A ++ (a, x) :: post).map Prod.fst) :
    Lseg (Function.update (Function.update c b (some ⟨v, hd post⟩)) a (some ⟨x, some b⟩)) p
      (A ++ (a, x) :: (b, v) :: post) none := by
  obtain ⟨m, hA, hm, nx, hca, hpost⟩ := Lseg_append.mp h
  have hnx := Lseg_hd hpost
  subst hnx
  simp only [List.map_append, List.map_cons, List.nodup_append, List.nodup_cons,
    List.mem_append, List.mem_cons, not_or] at hnd hb
  have hab : a ≠ b := fun hab => hb.2.1 hab.symm
  refine Lseg_append.mpr ⟨m, ?_, hm, some b, by simp [Function.update], rfl, hd post, ?_, ?_⟩
  · refine Lseg_update ?_ (Lseg_update hb.1 hA)
    intro ha
    exact hnd.2.2 ha (by simp)
  · simp [Function.update, hab.symm]
  · refine Lseg_update hnd.2.1.1 (Lseg_update hb.2.2 hpost)

/-- Unlinking the node `b` that follows the node `a` of a chain. -/
theorem Lseg_erase {c : Nat → Option (Node α)} {A post : List (Nat × α)} {p : Option Nat}
    {a b : Nat} {x y : α}
    (h : Lseg c p (A ++ (a, x) :: (b, y) :: post) none)
    (hnd : ((A ++ (a, x) :: (b, y) :: post).map Prod.fst).Nodup) :
    Lseg (Function.update (Function.update c b none) a (some ⟨x, hd post⟩)) p
      (A ++ (a, x) :: post) none := by
  obtain ⟨m, hA, hm, nx, hca, hb, nx2, hcb, hpost⟩ := Lseg_append.mp h
  have hnx := Lseg_hd hpost
  subst hnx
  simp only [List.map_append, List.map_cons, List.nodup_append, List.nodup_cons,
    List.mem_append, List.mem_cons, not_or] at hnd
  refine Lseg_append.mpr ⟨m, ?_, hm, hd post, by simp [Function.update], ?_⟩
  · refine Lseg_update ?_ (Lseg_update ?_ hA)
    · intro ha; exact hnd.2.2 ha (by simp)
    · intro hb2; exact hnd.2.2 hb2 (by simp)
  · refine Lseg_update hnd.2.1.1.2 (Lseg_update hnd.2.1.2.1 hpost)

theorem InsertAfter_eq {cp : CopyCtor σ α} {w : World σ α} {l a : Nat} {x : α}
    {nx : Option Nat} {n : Nat} {v v2 : α} {e : σ} (hcell : w.cells a = some ⟨x, nx⟩)
    (hn : w.sizes l = some n) (hne : a ≠ w.brk) (hc : cp w.env v = (e, some v2)) :
    InsertAfter cp l ⟨some a⟩ v w = .ret
      { cells := Function.update (Function.update w.cells w.brk (some ⟨v2, nx⟩)) a
          (some ⟨x, some w.brk⟩),
        sizes := Function.update w.sizes l (some (n + 1)),
        brk := w.brk + 1, env := e } ⟨some w.brk⟩ := by
  simp [InsertAfter, bind_apply, M.bind, load, newNode, storeNext, loadSize, storeSize, hcell, hc,
    hn, Function.update, hne]

theorem InsertAfter_threw {cp : CopyCtor σ α} {w : World σ α} {l a : Nat} {nd : Node α}
    {v : α} {e : σ} (hcell : w.cells a = some nd) (hc : cp w.env v = (e, none)) :
    InsertAfter cp l ⟨some a⟩ v w = .threw { w with env := e } := by
  simp [InsertAfter, bind_apply, M.bind, load, newNode, hcell, hc]

theorem EraseAfter_eq {w : World σ α} {l a b : Nat} {x y : α} {nx : Option Nat} {n : Nat}
    (hcell : w.cells a = some ⟨x, some b⟩) (hb : w.cells b = some ⟨y, nx⟩)
    (hn : w.sizes l = some n) (hpos : n ≠ 0) (hne : a ≠ b) :
    EraseAfter l ⟨some a⟩ w = .ret
      { w with cells := Function.update (Function.update w.cells b none) a (some ⟨x, nx⟩),
               sizes := Function.update w.sizes l (some (n - 1)) } ⟨nx⟩ := by
  simp [EraseAfter, IsEmpty, assert_, bind_apply, M.bind, load, deleteNode, storeNext, loadSize,
    storeSize, hcell, hb, hn, Function.update, hne, hpos]

theorem PopFront_eq {w : World σ α} {l b : Nat} {x y : α} {nx : Option Nat} {n : Nat}
    (hcell : w.cells l = some ⟨x, some b⟩) (hb : w.cells b = some ⟨y, nx⟩)
    (hn : w.sizes l = some n) (hpos : n ≠ 0) (hne : l ≠ b) :
    PopFront l w = .ret
      { w with cells := Function.update (Function.update w.cells b none) l (some ⟨x, nx⟩),
               sizes := Function.update w.sizes l (some (n - 1)) } () := by
  simp [PopFront, IsEmpty, assert_, bind_apply, M.bind, load, deleteNode, storeNext, loadSize,
    storeSize, hcell, hb, hn, Function.update, hne, hpos]

theorem InsertAfter_core {cp : CopyCtor σ α} {w : World σ α} {l a : Nat}
    {ns A post : List (Nat × α)} {sv x v v2 : α} {e : σ} (hv : Valid w l ns)
    (hch : Lseg w.cells (some l) ((l, sv) :: ns) none)
    (hE : (l, sv) :: ns = A ++ (a, x) :: post) (hc : cp w.env v = (e, some v2)) :
    ∃ w2 ns2, InsertAfter cp l ⟨some a⟩ v w = .ret w2 ⟨some w.brk⟩ ∧
      (l, sv) :: ns2 = A ++ (a, x) :: (w.brk, v2) :: post ∧ Valid w2 l ns2 ∧
      Frame [l, a] w w2 ∧ w2.env = e := by
  have haddr : l :: ns.map Prod.fst = (A ++ (a, x) :: post).map Prod.fst := by
    have := congrArg (List.map Prod.fst) hE
    simpa using this
  have hlt := hv.lt_brk
  have hnd := hv.nodup
  rw [haddr] at hlt hnd
  have hbrk : w.brk ∉ (A ++ (a, x) :: post).map Prod.fst := fun h => Nat.lt_irrefl _ (hlt _ h)
  have ha : a < w.brk := hlt a (by simp)
  rw [hE] at hch
  obtain ⟨m, hA, hm, nx, hca, hpost⟩ := Lseg_append.mp hch
  have hnx := Lseg_hd hpost
  subst hnx
  have hins := Lseg_insert (v := v2) hch hnd hbrk
  refine ⟨_, (A ++ (a, x) :: (w.brk, v2) :: post).tail,
    InsertAfter_eq hca hv.size (Nat.ne_of_lt ha) hc, ?_, ?_, ?_, rfl⟩
  · cases A with
    | nil => simp at hE ⊢; exact hE.1
    | cons n A2 => simp at hE ⊢; exact hE.1
  · have hE2 : (l, sv) :: (A ++ (a, x) :: (w.brk, v2) :: post).tail
        = A ++ (a, x) :: (w.brk, v2) :: post := by
      cases A with
      | nil => simp at hE ⊢; exact hE.1
      | cons n A2 => simp at hE ⊢; exact hE.1
    have hlen : ((l, sv) :: (A ++ (a, x) :: (w.brk, v2) :: post).tail).length
        = ((l, sv) :: ns).length + 1 := by
      rw [hE2, hE]; simp; omega
    refine Valid.of_chain (s := sv) ?_ ?_ ?_ ?_
    · rw [hE2]; exact hins
    · have : l :: ((A ++ (a, x) :: (w.brk, v2) :: post).tail).map Prod.fst
          = (A ++ (a, x) :: (w.brk, v2) :: post).map Prod.fst := by
        have := congrArg (List.map Prod.fst) hE2
        simpa using this
      rw [this]
      simp only [List.map_append, List.map_cons, List.nodup_append, List.nodup_cons,
        List.mem_append, List.mem_cons, not_or] at hnd hbrk ⊢
      refine ⟨hnd.1, ⟨?_, ?_, hnd.2.1.2⟩, ?_⟩
      · exact ⟨fun h => hbrk.2.1 h.symm, hnd.2.1.1⟩
      · exact hbrk.2.2
      · intro b hb1 hb2
        simp only [List.mem_cons] at hb2
        rcases hb2 with hb2 | hb2 | hb2
        · exact hnd.2.2 hb1 (List.mem_cons.mpr (Or.inl hb2))
        · exact hbrk.1 (hb2 ▸ hb1)
        · exact hnd.2.2 hb1 (List.mem_cons.mpr (Or.inr hb2))
    · simp only [List.length_cons] at hlen
      simp [Function.update, Nat.add_right_cancel hlen]
    · intro b hb
      have h1 : b ≠ a := by
        intro h; subst h
        simp only at hb; omega
      have h2 : b ≠ w.brk := by
        intro h; subst h
        simp only at hb; omega
      simp only [Function.update, h1, h2, dite_false, eq_rec_constant]
      exact hv.alloc b (by simp only at hb; omega)
  · refine ⟨Nat.le_succ _, ?_, ?_⟩
    · intro b hb hbn
      have h1 : b ≠ a := by
        intro h; subst h
        exact hbn (by simp)
      have h2 : b ≠ w.brk := Nat.ne_of_lt hb
      simp [Function.update, h1, h2]
    · intro b hb hbn
      have h1 : b ≠ l := by
        intro h; subst h
        exact hbn (by simp)
      simp [Function.update, h1]

theorem EraseAfter_core {w : World σ α} {l a b : Nat}
    {ns A post : List (Nat × α)} {sv x y : α} (hv : Valid w l ns)
    (hch : Lseg w.cells (some l) ((l, sv) :: ns) none)
    (hE : (l, sv) :: ns = A ++ (a, x) :: (b, y) :: post) :
    ∃ w2 ns2, EraseAfter l ⟨some a⟩ w = .ret w2 ⟨hd post⟩ ∧
      (l, sv) :: ns2 = A ++ (a, x) :: post ∧ Valid w2 l ns2 ∧
      Frame (l :: ns.map Prod.fst) w w2 ∧ w2.env = w.env ∧ w2.brk = w.brk := by
  have haddr : l :: ns.map Prod.fst = (A ++ (a, x) :: (b, y) :: post).map Prod.fst := by
    have := congrArg (List.map Prod.fst) hE
    simpa using this
  have hlt := hv.lt_brk
  have hnd := hv.nodup
  rw [haddr] at hlt hnd
  have ha : a < w.brk := hlt a (by simp)
  have hb : b < w.brk := hlt b (by simp)
  rw [hE] at hch
  obtain ⟨m, hA, hm, nx, hca, hb1, nx2, hcb, hpost⟩ := Lseg_append.mp hch
  have hnx := Lseg_hd hpost
  subst hnx
  have hnxb : nx = some b := hb1
  subst hnxb
  have hers := Lseg_erase hch hnd
  have hlen : ((l, sv) :: ns).length = (A ++ (a, x) :: post).length + 1 := by
    rw [hE]; simp; omega
  have hab : a ≠ b := by
    intro h
    simp only [List.map_append, List.map_cons, List.nodup_append, List.nodup_cons,
      List.mem_cons, not_or] at hnd
    exact hnd.2.1.1.1 h
  have hE2 : (l, sv) :: (A ++ (a, x) :: post).tail = A ++ (a, x) :: post := by
    cases A with
    | nil => simp at hE ⊢; exact hE.1
    | cons n A2 => simp at hE ⊢; exact hE.1
  have hn0 : ns.length ≠ 0 := by
    have := congrArg List.length hE
    simp at this; omega
  refine ⟨_, (A ++ (a, x) :: post).tail, EraseAfter_eq hca hcb hv.size hn0 hab, hE2, ?_, ?_,
    rfl, rfl⟩
  · refine Valid.of_chain (s := sv) ?_ ?_ ?_ ?_
    · rw [hE2]; exact hers
    · have : l :: ((A ++ (a, x) :: post).tail).map Prod.fst
          = (A ++ (a, x) :: post).map Prod.fst := by
        have := congrArg (List.map Prod.fst) hE2
        simpa using this
      rw [this]
      simp only [List.map_append, List.map_cons, List.nodup_append, List.nodup_cons,
        List.mem_append, List.mem_cons, not_or] at hnd ⊢
      refine ⟨hnd.1, ⟨hnd.2.1.1.2, hnd.2.1.2.2⟩, ?_⟩
      intro c hc1 hc2
      simp only [List.mem_cons] at hc2
      rcases hc2 with hc2 | hc2
      · exact hnd.2.2 hc1 (List.mem_cons.mpr (Or.inl hc2))
      · exact hnd.2.2 hc1 (List.mem_cons.mpr (Or.inr (List.mem_cons.mpr (Or.inr hc2))))
    · have hl2 := congrArg List.length hE2
      simp only [List.length_cons] at hlen hl2
      have : (A ++ (a, x) :: post).tail.length = ns.length - 1 := by omega
      simp [Function.update, this]
    · intro c hc
      have h1 : c ≠ a := by
        intro h; subst h
        simp only at hc; omega
      have h2 : c ≠ b := by
        intro h; subst h
        simp only at hc; omega
      simp only [Function.update, h1, h2, dite_false, eq_rec_constant]
      exact hv.alloc c hc
  · refine ⟨Nat.le_refl _, ?_, ?_⟩
    · intro c hc hcn
      have h1 : c ≠ a := by
        intro h; subst h
        exact hcn (by rw [haddr]; simp)
      have h2 : c ≠ b := by
        intro h; subst h
        exact hcn (by rw [haddr]; simp)
      simp [Function.update, h1, h2]
    · intro c hc hcn
      have h1 : c ≠ l := by
        intro h; subst h
        exact hcn (by simp)
      simp [Function.update, h1]

theorem incr_some {w : World σ α} {a : Nat} {nd : Node α} (h : w.cells a = some nd) :
    BasicIterator.incr ⟨some a⟩ w = .ret w ⟨nd.next_node⟩ := by
  simp [BasicIterator.incr, bind_apply, M.bind, load, h]

theorem deref_some {w : World σ α} {a : Nat} {nd : Node α} (h : w.cells a = some nd) :
    BasicIterator.deref ⟨some a⟩ w = .ret w nd.value := by
  simp [BasicIterator.deref, bind_apply, M.bind, load, h]

@[simp] theorem ne_end_some (a : Nat) : BasicIterator.ne ⟨some a⟩ end_ = true := by
  simp [BasicIterator.ne, end_]

@[simp] theorem ne_end_none : BasicIterator.ne ⟨none⟩ end_ = false := by
  simp [BasicIterator.ne, end_]

@[simp] theorem eq_end_some (a : Nat) : BasicIterator.eq ⟨some a⟩ end_ = false := by
  simp [BasicIterator.eq, end_]

@[simp] theorem eq_end_none : BasicIterator.eq ⟨none⟩ end_ = true := by
  simp [BasicIterator.eq, end_]

theorem iterate_Lseg {w : World σ α} {ns : List (Nat × α)} :
    ∀ {p : Option Nat} {fuel : Nat}, Lseg w.cells p ns none → ns.length < fuel →
      iterate end_ fuel ⟨p⟩ w = .ret w (ns.map Prod.snd) := by
  induction ns with
  | nil =>
    intro p fuel h hf
    have hp : p = none := h
    subst hp
    cases fuel with
    | zero => omega
    | succ f => simp [iterate]
  | cons n rest ih =>
    intro p fuel h hf
    obtain ⟨hp, nx, hc, hr⟩ := h
    subst hp
    cases fuel with
    | zero => omega
    | succ f =>
      have hf2 : rest.length < f := by simp at hf; omega
      simp [iterate, bind_apply, M.bind, deref_some hc, incr_some hc, ih hr hf2]

theorem toList_valid {w : World σ α} {l : Nat} {ns : List (Nat × α)} {fuel : Nat}
    (hv : Valid w l ns) (hf : ns.length < fuel) :
    toList fuel l w = .ret w (ns.map Prod.snd) := by
  obtain ⟨sv, nx, hc, hs⟩ := hv.head
  simp [toList, begin_, bind_apply, M.bind, load, hc, iterate_Lseg hs hf]

theorem GetSize_valid {w : World σ α} {l : Nat} {ns : List (Nat × α)} (hv : Valid w l ns) :
    GetSize l w = .ret w ns.length := by
  simp [GetSize, loadSize, hv.size]

theorem IsEmpty_valid {w : World σ α} {l : Nat} {ns : List (Nat × α)} (hv : Valid w l ns) :
    IsEmpty l w = .ret w (decide (ns.length = 0)) := by
  by_cases h : ns.length = 0 <;> simp [IsEmpty, bind_apply, M.bind, loadSize, hv.size, h]

theorem begin_valid {w : World σ α} {l : Nat} {ns : List (Nat × α)} (hv : Valid w l ns) :
    begin_ l w = .ret w ⟨hd ns⟩ := by
  obtain ⟨sv, nx, hc, hs⟩ := hv.head
  have := Lseg_hd hs
  subst this
  simp [begin_, bind_apply, M.bind, load, hc]

theorem advance_Lseg {w : World σ α} {ns : List (Nat × α)} :
    ∀ {p : Option Nat} {k : Nat}, Lseg w.cells p ns none → k ≤ ns.length →
      advance ⟨p⟩ k w = .ret w ⟨hd (ns.drop k)⟩ := by
  induction ns with
  | nil =>
    intro p k h hk
    have hp : p = none := h
    subst hp
    have : k = 0 := by simpa using hk
    subst this
    simp [advance, hd]
  | cons n rest ih =>
    intro p k h hk
    obtain ⟨hp, nx, hc, hr⟩ := h
    subst hp
    cases k with
    | zero => simp [advance, hd]
    | succ j =>
      have hj : j ≤ rest.length := by simp at hk; omega
      simp [advance, bind_apply, M.bind, incr_some hc, ih hr hj]

theorem distance_Lseg {w : World σ α} {ns : List (Nat × α)} :
    ∀ {p : Option Nat} {fuel : Nat}, Lseg w.cells p ns none → ns.length < fuel →
      distance end_ fuel ⟨p⟩ w = .ret w (ns.length : Int) := by
  induction ns with
  | nil =>
    intro p fuel h hf
    have hp : p = none := h
    subst hp
    cases fuel with
    | zero => omega
    | succ f => simp [distance]
  | cons n rest ih =>
    intro p fuel h hf
    obtain ⟨hp, nx, hc, hr⟩ := h
    subst hp
    cases fuel with
    | zero => omega
    | succ f =>
      have hf2 : rest.length < f := by simp at hf; omega
      simp [distance, bind_apply, M.bind, incr_some hc, ih hr hf2]

/-- A valid list that an operation left alone is still valid. -/
theorem Shaped.frame {w w2 : World σ α} {k n : Nat} {ms : List (Nat × α)} {S : List Nat}
    (hv : Shaped w k ms n) (hf : Frame S w w2) (hd : ∀ a ∈ k :: ms.map Prod.fst, a ∉ S)
    (hal : ∀ a, w2.brk ≤ a → w2.cells a = none) : Shaped w2 k ms n := by
  have hlt := hv.lt_brk
  obtain ⟨sv, nx, hc, hs⟩ := hv.head
  refine ⟨⟨sv, nx, ?_, ?_⟩, hv.nodup, ?_, hal⟩
  · rw [hf.cells k (hlt k (by simp)) (hd k (by simp)), hc]
  · refine Lseg_congr (fun a ha => ?_) hs
    exact hf.cells a (hlt a (by simp [ha])) (hd a (by simp [ha]))
  · rw [hf.sizes k (hlt k (by simp)) (hd k (by simp)), hv.size]

theorem Frame.refl (S : List Nat) (w : World σ α) : Frame S w w :=
  ⟨Nat.le_refl _, fun _ _ _ => rfl, fun _ _ _ => rfl⟩

theorem Frame.trans {S : List Nat} {w w2 w3 : World σ α} (h1 : Frame S w w2)
    (h2 : Frame S w2 w3) : Frame S w w3 := by
  refine ⟨Nat.le_trans h1.brk h2.brk, ?_, ?_⟩
  · intro a ha hn
    rw [h2.cells a (Nat.lt_of_lt_of_le ha h1.brk) hn, h1.cells a ha hn]
  · intro a ha hn
    rw [h2.sizes a (Nat.lt_of_lt_of_le ha h1.brk) hn, h1.sizes a ha hn]

theorem Frame.mono {S T : List Nat} {w w2 : World σ α} (h : Frame S w w2)
    (hst : ∀ a ∈ S, a ∈ T) : Frame T w w2 :=
  ⟨h.brk, fun a ha hn => h.cells a ha (fun hs => hn (hst a hs)),
    fun a ha hn => h.sizes a ha (fun hs => hn (hst a hs))⟩

theorem ClearLoop_spec {l : Nat} {sv : α} {ns : List (Nat × α)} :
    ∀ {w : World σ α} {fuel : Nat}, w.cells l = some ⟨sv, hd ns⟩ → Lseg w.cells (hd ns) ns none →
      (l :: ns.map Prod.fst).Nodup → ns.length < fuel →
      ∃ w2, ClearLoop l fuel w = .ret w2 () ∧ w2.cells l = some ⟨sv, none⟩ ∧
        (∀ a ∈ ns.map Prod.fst, w2.cells a = none) ∧
        (∀ a, a ∉ l :: ns.map Prod.fst → w2.cells a = w.cells a) ∧
        w2.sizes = w.sizes ∧ w2.brk = w.brk ∧ w2.env = w.env := by
  induction ns with
  | nil =>
    intro w fuel hc _ _ hf
    cases fuel with
    | zero => omega
    | succ f =>
      refine ⟨w, ?_, hc, by simp, fun _ _ => rfl, rfl, rfl, rfl⟩
      simp [ClearLoop, bind_apply, M.bind, load, hc, hd]
  | cons n rest ih =>
    intro w fuel hc hs hnd hf
    obtain ⟨b, y⟩ := n
    obtain ⟨_, nx, hcb, hr⟩ := hs
    have hnx := Lseg_hd hr
    subst hnx
    simp only [List.map_cons, List.nodup_cons, List.mem_cons, not_or] at hnd
    cases fuel with
    | zero => omega
    | succ f =>
      have hf2 : rest.length < f := by simp at hf; omega
      have hlb : l ≠ b := hnd.1.1
      obtain ⟨w2, hrun, h1, h2, h3, h4, h5, h6⟩ := ih
        (w := ⟨Function.update (Function.update w.cells b none) l (some ⟨sv, hd rest⟩),
          w.sizes, w.brk, w.env⟩)
        (by simp [Function.update]) (Lseg_update hnd.1.2 (Lseg_update hnd.2.1 hr))
        (by simp [hnd.1.2, hnd.2.2]) hf2
      refine ⟨w2, ?_, h1, ?_, ?_, h4, h5, h6⟩
      · simp only at hcb
        simp [ClearLoop, bind_apply, M.bind, load, deleteNode, storeNext, hc, hcb, hd,
          Function.update, hlb]
        simpa [Function.update, hd] using hrun
      · intro a ha
        simp only [List.map_cons, List.mem_cons] at ha
        rcases ha with rfl | ha
        · rw [h3 a (by simp [hnd.2.1, Ne.symm hlb])]
          simp [Function.update, Ne.symm hlb]
        · exact h2 a ha
      · intro a ha
        simp only [List.map_cons, List.mem_cons, not_or] at ha
        rw [h3 a (by simp [ha.1, ha.2.2])]
        simp [Function.update, ha.1, ha.2.1]

theorem PushFront_threw {cp : CopyCtor σ α} {w : World σ α} {l : Nat} {nd : Node α}
    {v : α} {e : σ} (hcell : w.cells l = some nd) (hc : cp w.env v = (e, none)) :
    PushFront cp l v w = .threw { w with env := e } := by
  simp [PushFront, bind_apply, M.bind, load, newNode, hcell, hc]

theorem PushFront_spec {cp : CopyCtor σ α} {w : World σ α} {l : Nat} {ns : List (Nat × α)}
    {v v2 : α} {e : σ} (hv : Valid w l ns) (hc : cp w.env v = (e, some v2)) :
    ∃ w2, PushFront cp l v w = .ret w2 () ∧ Valid w2 l ((w.brk, v2) :: ns) ∧
      Frame [l] w w2 ∧ w2.env = e ∧ w2.brk = w.brk + 1 := by
  obtain ⟨sv, hch⟩ := hv.chain
  have hE0 : (l, sv) :: ns = [] ++ (l, sv) :: ns := rfl
  obtain ⟨w2, ns2, hrun, hE, hv2, hfr, henv⟩ := InsertAfter_core hv hch hE0 hc
  obtain ⟨_, nx, hcell, _⟩ := hch
  have hl : l ≠ w.brk := Nat.ne_of_lt (hv.lt_brk l (by simp))
  have hns2 : ns2 = (w.brk, v2) :: ns := by simpa using hE
  subst hns2
  rw [InsertAfter_eq hcell hv.size hl hc] at hrun
  injection hrun with hw _
  subst hw
  exact ⟨_, PushFront_eq hcell hv.size hl hc, hv2, hfr.mono (by simp), henv, rfl⟩

theorem Clear_spec {w : World σ α} {l n : Nat} {ns : List (Nat × α)} {fuel : Nat}
    (hv : Shaped w l ns n) (hf : ns.length < fuel) :
    ∃ w2, Clear fuel l w = .ret w2 () ∧ Valid w2 l [] ∧
      Frame (l :: ns.map Prod.fst) w w2 ∧ w2.env = w.env ∧ w2.brk = w.brk := by
  obtain ⟨sv, nx, hc, hs⟩ := hv.head
  have hnx := Lseg_hd hs
  subst hnx
  obtain ⟨w1, hrun, h1, h2, h3, h4, h5, h6⟩ := ClearLoop_spec hc hs hv.nodup hf
  have hsz : w1.sizes l = some n := by rw [h4]; exact hv.size
  refine ⟨{ w1 with sizes := Function.update w1.sizes l (some 0) }, ?_, ?_, ?_, h6, h5⟩
  · simp [Clear, bind_apply, M.bind, hrun, storeSize, hsz]
  · refine ⟨⟨sv, none, h1, rfl⟩, by simp, by simp [Function.update], ?_⟩
    intro a ha
    simp only at ha ⊢
    by_cases hm : a ∈ l :: ns.map Prod.fst
    · have := hv.lt_brk a hm
      omega
    · rw [h3 a hm]
      exact hv.alloc a (h5 ▸ ha)
  · refine ⟨Nat.le_of_eq h5.symm, fun a _ hn => h3 a hn, ?_⟩
    intro a _ hn
    have : a ≠ l := fun h => hn (by simp [h])
    simp [Function.update, this, h4]

theorem dtor_spec {w : World σ α} {l n : Nat} {ns : List (Nat × α)} {fuel : Nat}
    (hv : Shaped w l ns n) (hf : ns.length < fuel) :
    ∃ w2, dtor fuel l w = .ret w2 () ∧ (∀ a, w2.brk ≤ a → w2.cells a = none) ∧
      Frame (l :: ns.map Prod.fst) w w2 ∧ w2.env = w.env ∧ w2.brk = w.brk := by
  obtain ⟨w1, hrun, hv1, hfr, henv, hbrk⟩ := Clear_spec hv hf
  refine ⟨{ w1 with cells := Function.update w1.cells l none,
                    sizes := Function.update w1.sizes l none }, ?_, ?_, ?_, henv, hbrk⟩
  · simp [dtor, bind_apply, M.bind, hrun]
  · intro a ha
    simp only at ha ⊢
    by_cases h : a = l
    · simp [Function.update, h]
    · simp only [Function.update, h, dite_false]
      exact hv1.alloc a ha
  · refine ⟨hfr.brk, ?_, ?_⟩
    · intro a ha hn
      have : a ≠ l := fun h => hn (by simp [h])
      simp only [Function.update, this, dite_false]
      exact hfr.cells a ha hn
    · intro a ha hn
      have : a ≠ l := fun h => hn (by simp [h])
      simp only [Function.update, this, dite_false]
      exact hfr.sizes a ha hn

theorem default_ctor_spec [Inhabited α] {w : World σ α} (hw : WellAlloc w) :
    ∃ w2, default_ctor w = .ret w2 w.brk ∧ Valid w2 w.brk [] ∧ Frame [] w w2 ∧
      w2.env = w.env ∧ w2.brk = w.brk + 1 := by
  refine ⟨_, rfl, ⟨⟨default, none, by simp [Function.update], rfl⟩, by simp,
    by simp [Function.update], ?_⟩, ⟨Nat.le_succ _, ?_, ?_⟩, rfl, rfl⟩
  · intro a ha
    simp only at ha
    have : a ≠ w.brk := by omega
    simp only [Function.update, this, dite_false]
    exact hw a (by omega)
  · intro a ha _
    have : a ≠ w.brk := by omega
    simp [Function.update, this]
  · intro a ha _
    have : a ≠ w.brk := by omega
    simp [Function.update, this]

theorem swap_eq {w : World σ α} {a b : Nat} {sa sb : α} {na nb : Option Nat} {n m : Nat}
    (hca : w.cells a = some ⟨sa, na⟩) (hcb : w.cells b = some ⟨sb, nb⟩)
    (hn : w.sizes a = some n) (hm : w.sizes b = some m) (hab : a ≠ b) :
    swap a b w = .ret
      { w with cells := Function.update (Function.update w.cells b (some ⟨sb, na⟩)) a
                 (some ⟨sa, nb⟩),
               sizes := Function.update (Function.update w.sizes b (some n)) a (some m) } () := by
  simp [swap, bind_apply, M.bind, load, storeNext, loadSize, storeSize, hca, hcb, hn, hm,
    Function.update, hab, Ne.symm hab]

theorem swap_spec {w : World σ α} {a b n m : Nat} {ns ms : List (Nat × α)}
    (ha : Shaped w a ns n) (hb : Shaped w b ms m)
    (hdis : ∀ x ∈ a :: ns.map Prod.fst, x ∉ b :: ms.map Prod.fst) :
    ∃ w2, swap a b w = .ret w2 () ∧ Shaped w2 a ms m ∧ Shaped w2 b ns n ∧
      Frame [a, b] w w2 ∧ w2.env = w.env ∧ w2.brk = w.brk := by
  obtain ⟨sa, na, hca, hsa⟩ := ha.head
  obtain ⟨sb, nb, hcb, hsb⟩ := hb.head
  have hab : a ≠ b := fun h => hdis a (by simp) (by simp [h])
  have hnda := ha.nodup
  have hndb := hb.nodup
  simp only [List.nodup_cons] at hnda hndb
  have hal : ∀ x, w.brk ≤ x → Function.update (Function.update w.cells b (some ⟨sb, na⟩)) a
      (some ⟨sa, nb⟩) x = none := by
    intro x hx
    have h1 : x ≠ a := by
      intro h; subst h
      have := ha.lt_brk x (by simp); omega
    have h2 : x ≠ b := by
      intro h; subst h
      have := hb.lt_brk x (by simp); omega
    simp only [Function.update, h1, h2, dite_false]
    exact ha.alloc x hx
  refine ⟨_, swap_eq hca hcb ha.size hb.size hab, ?_, ?_, ?_, rfl, rfl⟩
  · refine ⟨⟨sa, nb, by simp [Function.update], ?_⟩, ?_, by simp [Function.update], hal⟩
    · refine Lseg_update ?_ (Lseg_update hndb.1 hsb)
      intro h
      exact hdis a (by simp) (by simp [h])
    · simp only [List.nodup_cons]
      refine ⟨?_, hndb.2⟩
      intro h
      exact hdis a (by simp) (by simp [h])
  · refine ⟨⟨sb, na, by simp [Function.update, Ne.symm hab], ?_⟩, ?_,
      by simp [Function.update, Ne.symm hab], hal⟩
    · refine Lseg_update hnda.1 (Lseg_update ?_ hsa)
      intro h
      exact hdis b (by simp [h]) (by simp)
    · simp only [List.nodup_cons]
      refine ⟨?_, hnda.2⟩
      intro h
      exact hdis b (by simp [h]) (by simp)
  · refine ⟨Nat.le_refl _, ?_, ?_⟩
    · intro x _ hx
      simp only [List.mem_cons, List.mem_singleton, not_or, List.not_mem_nil, or_false] at hx
      simp [Function.update, hx.1, hx.2]
    · intro x _ hx
      simp only [List.mem_cons, List.mem_singleton, not_or, List.not_mem_nil, or_false] at hx
      simp [Function.update, hx.1, hx.2]

theorem copyAll_faithful {cp : CopyCtor σ α} (hf : Faithful cp) (e : σ) (vs : List α) :
    (copyAll cp e vs).2 = some vs := by
  induction vs generalizing e with
  | nil => rfl
  | cons v vs ih =>
    have h1 := hf e v
    rcases hcp : cp e v with ⟨e1, _ | c⟩
    · rw [hcp] at h1
      cases h1
    · rw [hcp] at h1
      have hc : c = v := Option.some.inj h1
      subst hc
      have h2 := ih e1
      rcases hall : copyAll cp e1 vs with ⟨e2, _ | cs⟩
      · rw [hall] at h2
        cases h2
      · rw [hall] at h2
        have : cs = vs := Option.some.inj h2
        subst this
        simp [copyAll, hcp, hall]

theorem Copied.faithful {cp : CopyCtor σ α} {e : σ} {vals cs : List α} {k : Nat}
    (h : Copied cp e vals k cs) (hf : Faithful cp) : cs = vals.take k := by
  unfold Copied at h
  rw [copyAll_faithful hf] at h
  exact (List.reverse_injective (Option.some.inj h)).symm

theorem CopyFails.not_faithful {cp : CopyCtor σ α} {e : σ} {vals : List α} {k : Nat}
    (h : CopyFails cp e vals k) : ¬ Faithful cp := by
  intro hf
  unfold CopyFails at h
  rw [copyAll_faithful hf] at h
  cases h

theorem take_succ_reverse {vals : List α} {k : Nat} (hk : k < vals.length) :
    (vals.take (k + 1)).reverse = vals[k] :: (vals.take k).reverse := by
  rw [List.take_succ, List.getElem?_eq_getElem hk]
  simp

theorem Copied.step {cp : CopyCtor σ α} {e e1 : σ} {vals cs : List α} {k : Nat} {c : α}
    (hk : k < vals.length) (hcp : cp e vals[k] = (e1, some c)) (h : Copied cp e1 vals k cs) :
    Copied cp e vals (k + 1) (cs ++ [c]) := by
  unfold Copied at h ⊢
  rw [take_succ_reverse hk]
  rcases hall : copyAll cp e1 (vals.take k).reverse with ⟨e2, _ | r⟩
  · rw [hall] at h
    cases h
  · rw [hall] at h
    have hr : r = cs.reverse := Option.some.inj h
    subst hr
    simp [copyAll, hcp, hall]

theorem CopyFails.now {cp : CopyCtor σ α} {e e1 : σ} {vals : List α} {k : Nat}
    (hk : k < vals.length) (hcp : cp e vals[k] = (e1, none)) : CopyFails cp e vals (k + 1) := by
  unfold CopyFails
  rw [take_succ_reverse hk]
  simp [copyAll, hcp]

theorem CopyFails.later {cp : CopyCtor σ α} {e e1 : σ} {vals : List α} {k : Nat} {c : α}
    (hk : k < vals.length) (hcp : cp e vals[k] = (e1, some c)) (h : CopyFails cp e1 vals k) :
    CopyFails cp e vals (k + 1) := by
  unfold CopyFails at h ⊢
  rw [take_succ_reverse hk]
  rcases hall : copyAll cp e1 (vals.take k).reverse with ⟨e2, _ | r⟩
  · simp [copyAll, hcp, hall]
  · rw [hall] at h
    cases h

theorem InitLoop_spec {ι : Type} (cp : CopyCtor σ α) {ops : IterOps σ α ι} {first : ι}
    {tmp : Nat} {vals : List α} {Q : World σ α → Prop}
    (hQ : ∀ w w2, Q w → Frame [tmp] w w2 → WellAlloc w2 → Q w2)
    (hops : ∀ w i v, Q w → vals[i]? = some v →
      ∃ it, ops.advance first i w = .ret w it ∧ ops.deref it w = .ret w v) :
    ∀ (k : Nat), k ≤ vals.length → ∀ (w : World σ α) (ms : List (Nat × α)),
      Valid w tmp ms → Q w →
      ∃ w2 ms2, Valid w2 tmp (ms2 ++ ms) ∧ Frame [tmp] w w2 ∧ ms2.length ≤ k ∧
        (∀ a ∈ ms2.map Prod.fst, w.brk ≤ a) ∧
        ((InitLoop cp ops first tmp k w = .ret w2 () ∧ ms2.length = k ∧
            Copied cp w.env vals k (ms2.map Prod.snd)) ∨
         (InitLoop cp ops first tmp k w = .threw w2 ∧ CopyFails cp w.env vals k)) := by
  intro k
  induction k with
  | zero =>
    intro _ w ms hv _
    exact ⟨w, [], hv, Frame.refl _ _, Nat.le_refl _, by simp,
      Or.inl ⟨rfl, rfl, by simp [Copied, copyAll]⟩⟩
  | succ k ih =>
    intro hk w ms hv hq
    have hklt : k < vals.length := hk
    obtain ⟨it, hadv, hder⟩ := hops w k vals[k] hq (List.getElem?_eq_getElem hklt)
    have hunf : InitLoop cp ops first tmp (k + 1) w
        = (PushFront cp tmp vals[k] >>= fun _ => InitLoop cp ops first tmp k) w := by
      show (ops.advance first k >>= fun it => ops.deref it >>= fun v =>
        PushFront cp tmp v >>= fun _ => InitLoop cp ops first tmp k) w = _
      rw [bind_ret hadv, bind_ret hder]
    rcases hcp : cp w.env vals[k] with ⟨e, _ | v2⟩
    · obtain ⟨sv, nx, hcell, hs⟩ := hv.head
      refine ⟨{ w with env := e }, [], ⟨⟨sv, nx, hcell, hs⟩, hv.nodup, hv.size, hv.alloc⟩,
        ⟨Nat.le_refl _, fun _ _ _ => rfl, fun _ _ _ => rfl⟩, Nat.zero_le _, by simp, Or.inr ⟨?_, ?_⟩⟩
      · rw [hunf, bind_threw (PushFront_threw hcell hcp)]
      · exact CopyFails.now hklt hcp
    · obtain ⟨w1, hrun, hv1, hfr1, henv1, hbrk1⟩ := PushFront_spec hv hcp
      have hq1 : Q w1 := hQ w w1 hq hfr1 hv1.alloc
      obtain ⟨w2, ms2, hv2, hfr2, hlen, hfresh, hres⟩ := ih (Nat.le_of_lt hklt) w1 _ hv1 hq1
      refine ⟨w2, ms2 ++ [(w.brk, v2)], by simpa using hv2, hfr1.trans hfr2,
        by simp; omega, ?_, ?_⟩
      · intro a ha
        simp only [List.map_append, List.map_cons, List.map_nil, List.mem_append,
          List.mem_singleton] at ha
        rcases ha with ha | ha
        · have := hfresh a ha
          omega
        · omega
      · rw [henv1] at hres
        rcases hres with ⟨hr, hl, hfa⟩ | ⟨hr, hnf⟩
        · refine Or.inl ⟨?_, by simp [hl], ?_⟩
          · rw [hunf, bind_ret hrun, hr]
          · have := Copied.step hklt hcp hfa
            simpa using this
        · exact Or.inr ⟨by rw [hunf, bind_ret hrun, hr], CopyFails.later hklt hcp hnf⟩

theorem Frame.comp {S T U : List Nat} {w w2 w3 : World σ α} (h1 : Frame S w w2)
    (h2 : Frame T w2 w3) (hS : ∀ a ∈ S, a ∈ U) (hT : ∀ a ∈ T, a < w.brk → a ∈ U) :
    Frame U w w3 := by
  refine ⟨Nat.le_trans h1.brk h2.brk, ?_, ?_⟩
  · intro a ha hn
    rw [h2.cells a (Nat.lt_of_lt_of_le ha h1.brk) (fun h => hn (hT a h ha)),
      h1.cells a ha (fun h => hn (hS a h))]
  · intro a ha hn
    rw [h2.sizes a (Nat.lt_of_lt_of_le ha h1.brk) (fun h => hn (hT a h ha)),
      h1.sizes a ha (fun h => hn (hS a h))]

theorem toInt32_toNat_le (n : Nat) : (toInt32 (n : Int)).toNat ≤ n := by
  unfold toInt32
  omega

theorem toInt32_small {n : Nat} (h : n < 2147483648) : toInt32 (n : Int) = n := by
  unfold toInt32
  omega

theorem withCleanup_ret {R : Type} {body : M σ α R} {cleanup : M σ α Unit}
    {w w1 w2 : World σ α} {r : R} (hb : body w = .ret w1 r) (hc : cleanup w1 = .ret w2 ()) :
    withCleanup body cleanup w = .ret w2 r := by
  simp [withCleanup, hb, hc]

theorem withCleanup_threw {R : Type} {body : M σ α R} {cleanup : M σ α Unit}
    {w w1 w2 : World σ α} (hb : body w = .threw w1) (hc : cleanup w1 = .ret w2 ()) :
    withCleanup body cleanup w = .threw w2 := by
  simp [withCleanup, hb, hc]

theorem InitializeByIterators_spec [Inhabited α] {ι : Type} (cp : CopyCtor σ α)
    {ops : IterOps σ α ι} {first last : ι} {vals : List α} {Q : World σ α → Prop}
    {w : World σ α} {self n : Nat} (fuel : Nat) {ss : List (Nat × α)}
    (hself : Shaped w self ss n) (hQw : Q w)
    (hQ : ∀ w1 w2, Q w1 → Frame [w.brk] w1 w2 → WellAlloc w2 → Q w2)
    (hdist : ∀ w1, Q w1 → ops.distance first last w1 = .ret w1 (vals.length : Int))
    (hops : ∀ w1 i v, Q w1 → vals[i]? = some v →
      ∃ it, ops.advance first i w1 = .ret w1 it ∧ ops.deref it w1 = .ret w1 v)
    (hsize : toInt32 (vals.length : Int) ≠ -2147483648)
    (hf1 : ss.length < fuel) (hf2 : vals.length < fuel) :
    ∃ w2, WellAlloc w2 ∧ Frame (self :: ss.map Prod.fst) w w2 ∧
      ((InitializeByIterators cp ops fuel self first last w = .ret w2 () ∧
          ∃ ms, Valid w2 self ms ∧ ms.length = (toInt32 (vals.length : Int)).toNat ∧
            (∀ a ∈ ms.map Prod.fst, w.brk ≤ a) ∧
            Copied cp w.env vals ms.length (ms.map Prod.snd)) ∨
       (InitializeByIterators cp ops fuel self first last w = .threw w2 ∧
          Shaped w2 self ss n ∧
          CopyFails cp w.env vals (toInt32 (vals.length : Int)).toNat)) := by
  obtain ⟨w1, hctor, hv1, hfr1, henv1, hbrk1⟩ := default_ctor_spec (α := α) hself.alloc
  have hlt := hself.lt_brk
  have hs1 : Shaped w1 self ss n := hself.frame hfr1 (by simp) hv1.alloc
  have hq1 : Q w1 := hQ w w1 hQw (hfr1.mono (by simp)) hv1.alloc
  have hk := toInt32_toNat_le vals.length
  obtain ⟨w2, ms2, hv2, hfr2, hlen, hfresh, hres⟩ :=
    InitLoop_spec cp hQ hops _ hk w1 [] hv1 hq1
  rw [List.append_nil] at hv2
  have hntmp : ∀ a ∈ self :: ss.map Prod.fst, a ∉ [w.brk] := by
    intro a ha h
    have := hlt a ha
    simp at h; omega
  have hs2 : Shaped w2 self ss n := hs1.frame hfr2 hntmp hv2.alloc
  have hfr12 : Frame (self :: ss.map Prod.fst) w w2 :=
    hfr1.comp hfr2 (by simp) (by intro a ha hl; simp at ha; omega)
  have hunf : InitializeByIterators cp ops fuel self first last w
      = withCleanup (do
          let d ← ops.distance first last
          let size := toInt32 d
          if size = -2147483648 then fault
          else do
            InitLoop cp ops first w.brk size.toNat
            swap self w.brk) (dtor fuel w.brk) w1 := by
    unfold InitializeByIterators
    rw [bind_ret hctor]
  have hbody_ret : ∀ w2 w3 : World σ α,
      InitLoop cp ops first w.brk (toInt32 (vals.length : Int)).toNat w1 = .ret w2 () →
      swap self w.brk w2 = .ret w3 () →
      (do
          let d ← ops.distance first last
          let size := toInt32 d
          if size = -2147483648 then fault
          else do
            InitLoop cp ops first w.brk size.toNat
            swap self w.brk : M σ α Unit) w1 = .ret w3 () := by
    intro w2 w3 hr hsw
    rw [bind_ret (hdist w1 hq1), if_neg hsize, bind_ret hr]
    exact hsw
  have hbody_threw : ∀ w2 : World σ α,
      InitLoop cp ops first w.brk (toInt32 (vals.length : Int)).toNat w1 = .threw w2 →
      (do
          let d ← ops.distance first last
          let size := toInt32 d
          if size = -2147483648 then fault
          else do
            InitLoop cp ops first w.brk size.toNat
            swap self w.brk : M σ α Unit) w1 = .threw w2 := by
    intro w2 hr
    rw [bind_ret (hdist w1 hq1), if_neg hsize, bind_threw hr]
  rw [henv1] at hres
  rcases hres with ⟨hr, hl, hfa⟩ | ⟨hr, hnf⟩
  · have hdis : ∀ x ∈ self :: ss.map Prod.fst, x ∉ w.brk :: ms2.map Prod.fst := by
      intro x hx h
      have h1 := hlt x hx
      simp only [List.mem_cons] at h
      rcases h with h | h
      · omega
      · have := hfresh x h
        omega
    obtain ⟨w3, hsw, ha3, hb3, hfr3, _, hbrk3⟩ := swap_spec hs2 hv2 hdis
    obtain ⟨w4, hdt, hal4, hfr4, _, hbrk4⟩ := dtor_spec hb3 hf1
    have hv4 : Valid w4 self ms2 := by
      refine ha3.frame hfr4 ?_ hal4
      intro a ha h
      have hnd := hself.nodup
      simp only [List.nodup_cons] at hnd
      simp only [List.mem_cons] at ha h
      rcases ha with ha | ha
      · subst ha
        rcases h with h | h
        · have := hlt a (by simp); omega
        · exact hnd.1 h
      · have h1 := hfresh a ha
        rcases h with h | h
        · omega
        · have := hlt a (by simp [h]); omega
    refine ⟨w4, hal4, ?_, Or.inl ⟨?_, ms2, hv4, hl, ?_, ?_⟩⟩
    · have hfr34 : Frame (self :: w.brk :: ss.map Prod.fst) w2 w4 := by
        refine hfr3.comp hfr4 ?_ ?_
        · intro a ha
          simp only [List.mem_cons, List.mem_singleton, List.not_mem_nil, or_false] at ha ⊢
          rcases ha with ha | ha
          · exact Or.inl ha
          · exact Or.inr (Or.inl ha)
        · intro a ha _
          exact List.mem_cons_of_mem _ ha
      refine hfr12.comp hfr34 (fun a ha => ha) ?_
      intro a ha hl2
      simp only [List.mem_cons] at ha ⊢
      rcases ha with ha | ha | ha
      · exact Or.inl ha
      · omega
      · exact Or.inr ha
    · rw [hunf]
      exact withCleanup_ret (hbody_ret w2 w3 hr hsw) hdt
    · intro a ha
      have := hfresh a ha
      omega
    · rw [hl]
      exact hfa
  · obtain ⟨w4, hdt, hal4, hfr4, _, hbrk4⟩ :=
      dtor_spec hv2 (Nat.lt_of_le_of_lt (Nat.le_trans hlen hk) hf2)
    have hs4 : Shaped w4 self ss n := by
      refine hs2.frame hfr4 ?_ hal4
      intro a ha h
      have h1 := hlt a ha
      simp only [List.mem_cons] at h
      rcases h with h | h
      · omega
      · have := hfresh a h
        omega
    refine ⟨w4, hal4, ?_, Or.inr ⟨?_, hs4, hnf⟩⟩
    · refine hfr12.comp hfr4 (by simp) ?_
      intro a ha hl2
      simp only [List.mem_cons] at ha
      rcases ha with ha | ha
      · omega
      · have := hfresh a ha
        omega
    · rw [hunf]
      exact withCleanup_threw (hbody_threw w2 hr) hdt

theorem rawObject_spec [Inhabited α] {w : World σ α} (junk : Nat) (hw : WellAlloc w) :
    ∃ w2, rawObject junk w = .ret w2 w.brk ∧ Shaped w2 w.brk [] junk ∧ Frame [] w w2 ∧
      w2.env = w.env ∧ w2.brk = w.brk + 1 := by
  refine ⟨_, rfl, ⟨⟨default, none, by simp [Function.update], rfl⟩, by simp,
    by simp [Function.update], ?_⟩, ⟨Nat.le_succ _, ?_, ?_⟩, rfl, rfl⟩
  · intro a ha
    simp only at ha
    have : a ≠ w.brk := by omega
    simp only [Function.update, this, dite_false]
    exact hw a (by omega)
  · intro a ha _
    have : a ≠ w.brk := by omega
    simp [Function.update, this]
  · intro a ha _
    have : a ≠ w.brk := by omega
    simp [Function.update, this]

theorem construct_ret [Inhabited α] {junk : Nat} {body : Nat → M σ α Unit}
    {w w1 w2 : World σ α} {self : Nat} (h1 : rawObject junk w = .ret w1 self)
    (h2 : body self w1 = .ret w2 ()) : construct junk body w = .ret w2 self := by
  simp [construct, h1, h2]

theorem construct_threw [Inhabited α] {junk : Nat} {body : Nat → M σ α Unit}
    {w w1 w2 : World σ α} {self : Nat} (h1 : rawObject junk w = .ret w1 self)
    (h2 : body self w1 = .threw w2) :
    construct junk body w = .threw { w2 with cells := Function.update w2.cells self none,
                                             sizes := Function.update w2.sizes self none } := by
  simp [construct, h1, h2, dropObject]

/-- Outcome of a constructor that builds its list through
`InitializeByIterators` from the values `vals`. -/
theorem construct_init_spec [Inhabited α] {ι : Type} (cp : CopyCtor σ α)
    (ops : IterOps σ α ι) (first last : ι) (vals : List α) {Q : World σ α → Prop}
    {w : World σ α} (fuel junk : Nat) (body : Nat → M σ α Unit)
    (hw : WellAlloc w) (hQw : Q w)
    (hbody : ∀ self w1, Q w1 →
      body self w1 = InitializeByIterators cp ops fuel self first last w1)
    (hQ : ∀ w1 w2, Q w1 → Frame [w.brk + 1] w1 w2 → WellAlloc w2 → Q w2)
    (hQ0 : ∀ w1 w2, Q w1 → Frame [] w1 w2 → WellAlloc w2 → Q w2)
    (hdist : ∀ w1, Q w1 → ops.distance first last w1 = .ret w1 (vals.length : Int))
    (hops : ∀ w1 i v, Q w1 → vals[i]? = some v →
      ∃ it, ops.advance first i w1 = .ret w1 it ∧ ops.deref it w1 = .ret w1 v)
    (hsize : toInt32 (vals.length : Int) ≠ -2147483648) (hf : vals.length < fuel) :
    ∃ w2, WellAlloc w2 ∧ Frame [] w w2 ∧
      ((construct junk body w = .ret w2 w.brk ∧
          ∃ ms, Valid w2 w.brk ms ∧ ms.length = (toInt32 (vals.length : Int)).toNat ∧
            (∀ a ∈ ms.map Prod.fst, w.brk < a) ∧
            Copied cp w.env vals ms.length (ms.map Prod.snd)) ∨
       (construct junk body w = .threw w2 ∧
          CopyFails cp w.env vals (toInt32 (vals.length : Int)).toNat)) := by
  obtain ⟨w1, hraw, hs1, hfr1, henv1, hbrk1⟩ := rawObject_spec (α := α) junk hw
  have hq1 : Q w1 := hQ0 w w1 hQw hfr1 hs1.alloc
  obtain ⟨w2, hal2, hfr2, hres⟩ := InitializeByIterators_spec cp fuel hs1 hq1
    (by rw [hbrk1]; exact hQ) hdist hops hsize (by simp; omega) hf
  have hfr : Frame [] w w2 := by
    refine hfr1.comp hfr2 (fun a ha => ha) ?_
    intro a ha hl
    simp at ha; omega
  rw [← hbody w.brk w1 hq1, henv1] at hres
  rcases hres with ⟨hr, ms, hv, hlen, hfresh, hfa⟩ | ⟨hr, hs2, hnf⟩
  · refine ⟨w2, hal2, hfr, Or.inl ⟨construct_ret hraw hr, ms, hv, hlen, ?_, hfa⟩⟩
    intro a ha
    have := hfresh a ha
    omega
  · refine ⟨_, ?_, ?_, Or.inr ⟨construct_threw hraw hr, hnf⟩⟩
    · intro a ha
      simp only at ha ⊢
      by_cases h : a = w.brk
      · simp [Function.update, h]
      · simp only [Function.update, h, dite_false]
        exact hal2 a ha
    · refine ⟨hfr.brk, ?_, ?_⟩
      · intro a ha _
        have : a ≠ w.brk := by omega
        simp only [Function.update, this, dite_false]
        exact hfr.cells a ha (by simp)
      · intro a ha _
        have : a ≠ w.brk := by omega
        simp only [Function.update, this, dite_false]
        exact hfr.sizes a ha (by simp)

theorem init_list_ctor_spec [Inhabited α] (cp : CopyCtor σ α) (vals : List α)
    {w : World σ α} (fuel junk : Nat) (hw : WellAlloc w)
    (hsize : toInt32 (vals.length : Int) ≠ -2147483648) (hf : vals.length < fuel) :
    ∃ w2, WellAlloc w2 ∧ Frame [] w w2 ∧
      ((init_list_ctor cp fuel junk vals w = .ret w2 w.brk ∧
          ∃ ms, Valid w2 w.brk ms ∧ ms.length = (toInt32 (vals.length : Int)).toNat ∧
            (∀ a ∈ ms.map Prod.fst, w.brk < a) ∧
            Copied cp w.env vals ms.length (ms.map Prod.snd)) ∨
       (init_list_ctor cp fuel junk vals w = .threw w2 ∧
          CopyFails cp w.env vals (toInt32 (vals.length : Int)).toNat)) := by
  refine construct_init_spec cp _ _ _ vals fuel junk _ (Q := fun _ => True) hw trivial
    (fun _ _ _ => rfl)
    (fun _ _ _ _ _ => trivial) (fun _ _ _ _ _ => trivial) ?_ ?_ hsize hf
  · intro w1 _
    simp [arrayOps]
  · intro w1 i v _ hv
    refine ⟨0 + i, rfl, ?_⟩
    simp [arrayOps, hv]

theorem Lseg_getElem {c : Nat → Option (Node α)} {ns : List (Nat × α)} {p : Option Nat}
    (h : Lseg c p ns none) {i : Nat} (hi : i < ns.length) :
    c ns[i].1 = some ⟨ns[i].2, hd (ns.drop (i + 1))⟩ ∧ hd (ns.drop i) = some ns[i].1 := by
  have hsplit : ns = ns.take i ++ ns[i] :: ns.drop (i + 1) := by
    rw [List.getElem_cons_drop, List.take_append_drop]
  rw [hsplit] at h
  obtain ⟨m, _, _, nx, hc, hr⟩ := Lseg_append.mp h
  have := Lseg_hd hr
  subst this
  refine ⟨hc, ?_⟩
  rw [List.drop_eq_getElem_cons hi]
  rfl

theorem copy_ctor_spec [Inhabited α] (cp : CopyCtor σ α) {w : World σ α} {other : Nat}
    {ns : List (Nat × α)} (fuel junk : Nat) (ho : Valid w other ns)
    (hsize : toInt32 (ns.length : Int) ≠ -2147483648) (hf : ns.length < fuel) :
    ∃ w2, WellAlloc w2 ∧ Frame [] w w2 ∧ Valid w2 other ns ∧
      ((copy_ctor cp fuel junk other w = .ret w2 w.brk ∧
          ∃ ms, Valid w2 w.brk ms ∧ ms.length = (toInt32 (ns.length : Int)).toNat ∧
            (∀ a ∈ ms.map Prod.fst, w.brk < a) ∧
            Copied cp w.env (ns.map Prod.snd) ms.length (ms.map Prod.snd)) ∨
       (copy_ctor cp fuel junk other w = .threw w2 ∧
          CopyFails cp w.env (ns.map Prod.snd) (toInt32 (ns.length : Int)).toNat)) := by
  have hlt := ho.lt_brk
  have hpres : ∀ (S : List Nat), (∀ a ∈ S, w.brk ≤ a) → ∀ w1 w2 : World σ α,
      (w.brk ≤ w1.brk ∧ Valid w1 other ns) → Frame S w1 w2 → WellAlloc w2 →
      (w.brk ≤ w2.brk ∧ Valid w2 other ns) := by
    intro S hS w1 w2 hq hfr hal
    refine ⟨Nat.le_trans hq.1 hfr.brk, hq.2.frame hfr ?_ hal⟩
    intro a ha h
    have := hlt a ha
    have := hS a h
    omega
  have hlen : ((ns.map Prod.snd).length : Int) = (ns.length : Int) := by simp
  have hmain := construct_init_spec cp (listOps fuel) ⟨hd ns⟩ end_ (ns.map Prod.snd) fuel junk
    (fun self => do
      let b ← begin_ other
      InitializeByIterators cp (listOps fuel) fuel self b end_)
    (Q := fun w1 => w.brk ≤ w1.brk ∧ Valid w1 other ns)
    ho.alloc ⟨Nat.le_refl _, ho⟩ ?_ (hpres _ (by simp)) (hpres _ (by simp)) ?_ ?_
    (by rw [hlen]; exact hsize) (by simpa using hf)
  · obtain ⟨w2, hal, hfr, hres⟩ := hmain
    refine ⟨w2, hal, hfr, ho.frame hfr (by simp) hal, ?_⟩
    simpa [copy_ctor] using hres
  · intro self w1 hq
    show (begin_ other >>= fun b =>
      InitializeByIterators cp (listOps fuel) fuel self b end_) w1 = _
    rw [bind_ret (begin_valid hq.2)]
  · intro w1 hq
    obtain ⟨sv, nx, hc, hs⟩ := hq.2.head
    have := Lseg_hd hs
    subst this
    simpa [listOps] using distance_Lseg hs hf
  · intro w1 i v hq hv
    obtain ⟨sv, nx, hc, hs⟩ := hq.2.head
    have := Lseg_hd hs
    subst this
    have hi : i < ns.length := by
      have := (List.getElem?_eq_some.mp hv).1
      simpa using this
    have hvi : v = ns[i].2 := by
      have := (List.getElem?_eq_some.mp hv).2
      simpa using this.symm
    obtain ⟨hcell, hptr⟩ := Lseg_getElem hs hi
    refine ⟨⟨hd (ns.drop i)⟩, ?_, ?_⟩
    · simpa [listOps] using advance_Lseg hs (Nat.le_of_lt hi)
    · rw [hptr, hvi]
      simpa [listOps] using deref_some hcell

theorem assign_spec [Inhabited α] (cp : CopyCtor σ α) {w : World σ α} {self rhs : Nat}
    {ss ns : List (Nat × α)} (fuel junk : Nat) (hs : Valid w self ss) (hr : Valid w rhs ns)
    (hdis : ∀ x ∈ self :: ss.map Prod.fst, x ∉ rhs :: ns.map Prod.fst)
    (hsize : toInt32 (ns.length : Int) ≠ -2147483648) (hf : ns.length < fuel)
    (hf2 : ss.length < fuel) :
    ∃ w2, WellAlloc w2 ∧ Frame (self :: ss.map Prod.fst) w w2 ∧ Valid w2 rhs ns ∧
      ((assign cp fuel junk self rhs w = .ret w2 () ∧
          ∃ ms, Valid w2 self ms ∧ ms.length = (toInt32 (ns.length : Int)).toNat ∧
            (∀ a ∈ ms.map Prod.fst, w.brk < a) ∧
            Copied cp w.env (ns.map Prod.snd) ms.length (ms.map Prod.snd)) ∨
       (assign cp fuel junk self rhs w = .threw w2 ∧ Valid w2 self ss ∧
          CopyFails cp w.env (ns.map Prod.snd) (toInt32 (ns.length : Int)).toNat)) := by
  have hne : self ≠ rhs := fun h => hdis self (by simp) (by simp [h])
  have hlts := hs.lt_brk
  have hltr := hr.lt_brk
  obtain ⟨w1, hal1, hfr1, hr1, hres⟩ := copy_ctor_spec cp fuel junk hr hsize hf
  have hs1 : Valid w1 self ss := hs.frame hfr1 (by simp) hal1
  have hunf : assign cp fuel junk self rhs w
      = (copy_ctor cp fuel junk rhs >>= fun tmp =>
          withCleanup (swap self tmp) (dtor fuel tmp)) w := by
    unfold assign
    rw [if_pos hne]
  rcases hres with ⟨hrun, ms, hv, hlen, hfresh, hfa⟩ | ⟨hrun, hnf⟩
  · have hd1 : ∀ x ∈ self :: ss.map Prod.fst, x ∉ w.brk :: ms.map Prod.fst := by
      intro x hx h
      have h1 := hlts x hx
      simp only [List.mem_cons] at h
      rcases h with h | h
      · omega
      · have := hfresh x h
        omega
    obtain ⟨w2, hsw, ha2, hb2, hfr2, _, _⟩ := swap_spec hs1 hv hd1
    obtain ⟨w3, hdt, hal3, hfr3, _, _⟩ := dtor_spec hb2 hf2
    have hfr23 : Frame (self :: w.brk :: ss.map Prod.fst) w1 w3 := by
      refine hfr2.comp hfr3 ?_ ?_
      · intro a ha
        simp only [List.mem_cons, List.mem_singleton, List.not_mem_nil, or_false] at ha ⊢
        rcases ha with ha | ha
        · exact Or.inl ha
        · exact Or.inr (Or.inl ha)
      · intro a ha _
        exact List.mem_cons_of_mem _ ha
    have hfr : Frame (self :: ss.map Prod.fst) w w3 := by
      refine hfr1.comp hfr23 (by simp) ?_
      intro a ha hl
      simp only [List.mem_cons] at ha ⊢
      rcases ha with ha | ha | ha
      · exact Or.inl ha
      · omega
      · exact Or.inr ha
    have hnds := hs.nodup
    simp only [List.nodup_cons] at hnds
    have hv3 : Valid w3 self ms := by
      refine ha2.frame hfr3 ?_ hal3
      intro a ha h
      simp only [List.mem_cons] at ha h
      rcases ha with ha | ha
      · subst ha
        rcases h with h | h
        · have := hlts a (by simp); omega
        · exact hnds.1 h
      · have h1 := hfresh a ha
        rcases h with h | h
        · omega
        · have := hlts a (by simp [h]); omega
    have hr3 : Valid w3 rhs ns := by
      refine hr1.frame hfr23 ?_ hal3
      intro a ha h
      simp only [List.mem_cons] at h
      rcases h with h | h | h
      · exact hdis self (by simp) (h ▸ ha)
      · have := hltr a ha; omega
      · exact hdis a (by simp [h]) ha
    refine ⟨w3, hal3, hfr, hr3, Or.inl ⟨?_, ms, hv3, hlen, hfresh, hfa⟩⟩
    rw [hunf, bind_ret hrun]
    exact withCleanup_ret hsw hdt
  · refine ⟨w1, hal1, hfr1.mono (by simp), hr1, Or.inr ⟨?_, hs1, hnf⟩⟩
    rw [hunf, bind_threw hrun]

theorem assign_self [Inhabited α] (cp : CopyCtor σ α) (fuel junk self : Nat) (w : World σ α) :
    assign cp fuel junk self self w = .ret w () := by
  simp [assign]

theorem observe_valid {w : World σ α} {l : Nat} {ns : List (Nat × α)} {fuel : Nat}
    (hv : Valid w l ns) (hf : ns.length < fuel) :
    observe fuel l w = .ret w (ns.map Prod.snd, ns.length) := by
  unfold observe
  rw [bind_ret (toList_valid hv hf), bind_ret (GetSize_valid hv)]
  rfl

theorem demoWorld_alloc : WellAlloc demoWorld := by
  intro a ha
  have h : 10 ≤ a := ha
  have h0 : a ≠ 0 := by omega
  have h1 : a ≠ 4 := by omega
  have h2 : a ≠ 3 := by omega
  have h3 : a ≠ 2 := by omega
  have h4 : a ≠ 5 := by omega
  have h5 : a ≠ 9 := by omega
  have h6 : a ≠ 8 := by omega
  have h7 : a ≠ 7 := by omega
  have h8 : a ≠ 6 := by omega
  simp only [demoWorld, h0, h1, h2, h3, h4, h5, h6, h7, h8, if_false]

theorem demoWorld_valid_a : Valid demoWorld 0 [(4, 1), (3, 2), (2, 3)] :=
  ⟨⟨0, some 4, rfl, rfl, _, rfl, rfl, _, rfl, rfl, _, rfl, rfl⟩, by decide, rfl, demoWorld_alloc⟩

theorem demoWorld_valid_b : Valid demoWorld 5 [(9, 1), (8, 2), (7, 4), (6, 8)] :=
  ⟨⟨0, some 9, rfl, rfl, _, rfl, rfl, _, rfl, rfl, _, rfl, rfl, _, rfl, rfl⟩, by decide, rfl,
    demoWorld_alloc⟩

theorem plainCopy_faithful : Faithful (plainCopy : CopyCtor σ α) := fun _ _ => rfl

theorem WellAlloc_empty (e : σ) : WellAlloc (World.empty e : World σ α) := fun _ _ => rfl

/-- Within the range of `int` the initializer-list constructor is right: for a
copy constructor that copies faithfully and at most `2^31 - 1` values it
returns a valid list holding exactly the values, in order. -/
theorem init_list_ctor_correct [Inhabited α] {cp : CopyCtor σ α} {vals : List α}
    {w : World σ α} {fuel : Nat} (junk : Nat) (hfa : Faithful cp) (hw : WellAlloc w)
    (hn : vals.length < 2147483648) (hf : vals.length < fuel) :
    ∃ w2 ms, init_list_ctor cp fuel junk vals w = .ret w2 w.brk ∧ Valid w2 w.brk ms ∧
      ms.map Prod.snd = vals ∧ Frame [] w w2 ∧ (∀ a ∈ ms.map Prod.fst, w.brk < a) := by
  have h32 := toInt32_small hn
  obtain ⟨w2, _, hfr, hres⟩ := init_list_ctor_spec cp vals fuel junk hw
    (by rw [h32]; omega) hf
  rcases hres with ⟨hrun, ms, hv, hlen, hfresh, hvals⟩ | ⟨_, hnf⟩
  · refine ⟨w2, ms, hrun, hv, ?_, hfr, hfresh⟩
    rw [h32] at hlen
    rw [hvals.faithful hfa, hlen]
    simp
  · exact absurd hfa hnf.not_faithful

/-- C1 (failing input): the initializer-list constructor of the header, given
`2^31 + 1` values, returns a list whose iteration yields nothing and whose
`GetSize()` is `0`: `static_cast<int>` turns the distance into a negative
`size`, and the loop that pushes the values never runs. -/
theorem C1_init_list_ctor_truncates :
    ((init_list_ctor plainCopy 2147483650 0 (List.replicate 2147483649 (7 : Nat)) >>=
        fun l => observe 1 l) (World.empty () : World Unit Nat)).val? = some ([], 0) := by
  have h32 : toInt32 ((List.replicate 2147483649 (7 : Nat)).length : Int) = -2147483647 := by
    rw [List.length_replicate]
    unfold toInt32
    omega
  obtain ⟨w2, _, _, hres⟩ := init_list_ctor_spec (plainCopy : CopyCtor Unit Nat)
    (List.replicate 2147483649 (7 : Nat)) 2147483650 0
    (WellAlloc_empty ()) (by rw [h32]; omega) (by rw [List.length_replicate]; omega)
  rcases hres with ⟨hrun, ms, hv, hlen, _, _⟩ | ⟨_, hnf⟩
  · rw [h32] at hlen
    have hms : ms = [] := List.length_eq_zero.mp (by simpa using hlen)
    subst hms
    rw [bind_ret hrun, observe_valid hv (by simp)]
    rfl
  · exact absurd plainCopy_faithful hnf.not_faithful

theorem nodesFrom_snd (k : Nat) (vals : List α) : (nodesFrom k vals).map Prod.snd = vals := by
  induction vals generalizing k with
  | nil => rfl
  | cons v vs ih => simp [nodesFrom, ih]

theorem nodesFrom_length (k : Nat) (vals : List α) : (nodesFrom k vals).length = vals.length := by
  induction vals generalizing k with
  | nil => rfl
  | cons v vs ih => simp [nodesFrom, ih]

theorem nodesFrom_mem {k a : Nat} {vals : List α} (h : a ∈ (nodesFrom k vals).map Prod.fst) :
    k ≤ a ∧ a < k + vals.length := by
  induction vals generalizing k with
  | nil => simp [nodesFrom] at h
  | cons v vs ih =>
    simp only [nodesFrom, List.map_cons, List.mem_cons] at h
    rcases h with h | h
    · subst h; simp
    · have := ih h
      simp only [List.length_cons]
      omega

theorem nodesFrom_nodup (k : Nat) (vals : List α) : ((nodesFrom k vals).map Prod.fst).Nodup := by
  induction vals generalizing k with
  | nil => simp [nodesFrom]
  | cons v vs ih =>
    simp only [nodesFrom, List.map_cons, List.nodup_cons]
    refine ⟨fun h => ?_, ih (k + 1)⟩
    have := (nodesFrom_mem h).1
    omega

theorem hd_nodesFrom (k : Nat) (vals : List α) :
    hd (nodesFrom k vals) = if vals.length = 0 then none else some k := by
  cases vals <;> simp [nodesFrom, hd]

theorem listWorld_Lseg [Inhabited α] (e : σ) (vals : List α) :
    ∀ (suf pre : List α), vals = pre ++ suf →
      Lseg (listWorld e vals).cells (hd (nodesFrom (pre.length + 1) suf))
        (nodesFrom (pre.length + 1) suf) none := by
  intro suf
  induction suf with
  | nil => intro pre _; rfl
  | cons v vs ih =>
    intro pre hv
    have hnext := ih (pre ++ [v]) (by simp [hv])
    simp only [List.length_append, List.length_singleton] at hnext
    refine ⟨rfl, hd (nodesFrom (pre.length + 1 + 1) vs), ?_, hnext⟩
    have hget : vals[pre.length]? = some v := by
      rw [hv, List.getElem?_append_right (Nat.le_refl _)]
      simp
    have hlen : vals.length = pre.length + (vs.length + 1) := by
      rw [hv]; simp
    simp only [listWorld, Nat.add_one_ne_zero, if_false, Nat.add_sub_cancel, hget,
      hd_nodesFrom]
    congr 2
    by_cases h : vs.length = 0
    · simp [h, hlen]
    · have : pre.length + 1 < vals.length := by omega
      simp [h, this]

theorem listWorld_valid [Inhabited α] (e : σ) (vals : List α) :
    Valid (listWorld e vals : World σ α) 0 (nodesFrom 1 vals) := by
  refine ⟨⟨default, hd (nodesFrom 1 vals), ?_, listWorld_Lseg e vals vals [] rfl⟩, ?_, ?_, ?_⟩
  · simp [listWorld, hd_nodesFrom]
  · simp only [List.nodup_cons]
    refine ⟨fun h => ?_, nodesFrom_nodup 1 vals⟩
    have := (nodesFrom_mem h).1
    omega
  · simp [listWorld, nodesFrom_length]
  · intro a ha
    have h1 : vals.length + 1 ≤ a := ha
    have h0 : a ≠ 0 := by omega
    have hget : vals[a - 1]? = none := List.getElem?_eq_none (by omega)
    simp [listWorld, h0, hget]

theorem Lseg_cell {c : Nat → Option (Node α)} {A post : List (Nat × α)} {p : Option Nat}
    {a : Nat} {x : α} (h : Lseg c p (A ++ (a, x) :: post) none) :
    c a = some ⟨x, hd post⟩ := by
  obtain ⟨m, _, _, nx, hc, hr⟩ := Lseg_append.mp h
  have := Lseg_hd hr
  subst this
  exact hc

theorem Valid.cell {w : World σ α} {l a : Nat} {x : α} {pre post : List (Nat × α)}
    (hv : Valid w l (pre ++ (a, x) :: post)) : w.cells a = some ⟨x, hd post⟩ := by
  obtain ⟨sv, nx, hc, hs⟩ := hv.head
  exact Lseg_cell hs

theorem InsertAfter_at {cp : CopyCtor σ α} {w : World σ α} {l a : Nat}
    {pre post : List (Nat × α)} {x v v2 : α} {e : σ}
    (hv : Valid w l (pre ++ (a, x) :: post)) (hc : cp w.env v = (e, some v2)) :
    ∃ w2, InsertAfter cp l ⟨some a⟩ v w = .ret w2 ⟨some w.brk⟩ ∧
      Valid w2 l (pre ++ (a, x) :: (w.brk, v2) :: post) ∧ Frame [l, a] w w2 ∧ w2.env = e := by
  obtain ⟨sv, hch⟩ := hv.chain
  have hE0 : (l, sv) :: (pre ++ (a, x) :: post) = ((l, sv) :: pre) ++ (a, x) :: post := rfl
  obtain ⟨w2, ns2, hrun, hE, hv2, hfr, henv⟩ := InsertAfter_core hv hch hE0 hc
  have hns2 : ns2 = pre ++ (a, x) :: (w.brk, v2) :: post := by simpa using hE
  subst hns2
  exact ⟨w2, hrun, hv2, hfr, henv⟩

theorem InsertAfter_front {cp : CopyCtor σ α} {w : World σ α} {l : Nat}
    {ns : List (Nat × α)} {v v2 : α} {e : σ}
    (hv : Valid w l ns) (hc : cp w.env v = (e, some v2)) :
    ∃ w2, InsertAfter cp l (before_begin l) v w = .ret w2 ⟨some w.brk⟩ ∧
      Valid w2 l ((w.brk, v2) :: ns) ∧ Frame [l] w w2 ∧ w2.env = e := by
  obtain ⟨sv, hch⟩ := hv.chain
  have hE0 : (l, sv) :: ns = [] ++ (l, sv) :: ns := rfl
  obtain ⟨w2, ns2, hrun, hE, hv2, hfr, henv⟩ := InsertAfter_core hv hch hE0 hc
  have hns2 : ns2 = (w.brk, v2) :: ns := by simpa using hE
  subst hns2
  exact ⟨w2, hrun, hv2, hfr.mono (by simp), henv⟩

theorem EraseAfter_at {w : World σ α} {l a b : Nat} {pre post : List (Nat × α)} {x y : α}
    (hv : Valid w l (pre ++ (a, x) :: (b, y) :: post)) :
    ∃ w2, EraseAfter l ⟨some a⟩ w = .ret w2 ⟨hd post⟩ ∧ Valid w2 l (pre ++ (a, x) :: post) ∧
      Frame (l :: (pre ++ (a, x) :: (b, y) :: post).map Prod.fst) w w2 ∧ w2.env = w.env ∧
      w2.brk = w.brk := by
  obtain ⟨sv, hch⟩ := hv.chain
  have hE0 : (l, sv) :: (pre ++ (a, x) :: (b, y) :: post)
      = ((l, sv) :: pre) ++ (a, x) :: (b, y) :: post := rfl
  obtain ⟨w2, ns2, hrun, hE, hv2, hfr, henv, hbrk⟩ := EraseAfter_core hv hch hE0
  have hns2 : ns2 = pre ++ (a, x) :: post := by simpa using hE
  subst hns2
  exact ⟨w2, hrun, hv2, hfr, henv, hbrk⟩

theorem EraseAfter_front {w : World σ α} {l b : Nat} {post : List (Nat × α)} {y : α}
    (hv : Valid w l ((b, y) :: post)) :
    ∃ w2, EraseAfter l (before_begin l) w = .ret w2 ⟨hd post⟩ ∧ Valid w2 l post ∧
      Frame (l :: ((b, y) :: post).map Prod.fst) w w2 ∧ w2.env = w.env ∧ w2.brk = w.brk := by
  obtain ⟨sv, hch⟩ := hv.chain
  have hE0 : (l, sv) :: (b, y) :: post = [] ++ (l, sv) :: (b, y) :: post := rfl
  obtain ⟨w2, ns2, hrun, hE, hv2, hfr, henv, hbrk⟩ := EraseAfter_core hv hch hE0
  have hns2 : ns2 = post := by simpa using hE
  subst hns2
  exact ⟨w2, hrun, hv2, hfr, henv, hbrk⟩

theorem PopFront_spec {w : World σ α} {l b : Nat} {post : List (Nat × α)} {y : α}
    (hv : Valid w l ((b, y) :: post)) :
    ∃ w2, PopFront l w = .ret w2 () ∧ Valid w2 l post ∧
      Frame (l :: ((b, y) :: post).map Prod.fst) w w2 ∧ w2.env = w.env ∧ w2.brk = w.brk := by
  obtain ⟨w2, hrun, hv2, hfr, henv, hbrk⟩ := EraseAfter_front hv
  obtain ⟨sv, nx, hcell, hs⟩ := hv.head
  obtain ⟨hnx, nx2, hcb, hpost⟩ := hs
  subst hnx
  have hnd := hv.nodup
  simp only [List.map_cons, List.nodup_cons, List.mem_cons, not_or] at hnd
  have hn0 : ((b, y) :: post).length ≠ 0 := by simp
  rw [before_begin, EraseAfter_eq hcell hcb hv.size hn0 hnd.1.1] at hrun
  injection hrun with hw _
  subst hw
  exact ⟨_, PopFront_eq hcell hcb hv.size hn0 hnd.1.1, hv2, hfr, henv, hbrk⟩

theorem nth_iterator {w : World σ α} {l : Nat} {ns : List (Nat × α)} (hv : Valid w l ns)
    {k : Nat} (hk : k < ns.length) :
    nth l k w = .ret w ⟨some ns[k].1⟩ := by
  unfold nth
  obtain ⟨sv, nx, hc, hs⟩ := hv.head
  have hnx := Lseg_hd hs
  subst hnx
  rw [bind_ret (begin_valid hv), advance_Lseg hs (Nat.le_of_lt hk), (Lseg_getElem hs hk).2]

theorem split_at {ns : List (Nat × α)} {k : Nat} (hk : k < ns.length) :
    ns = ns.take k ++ (ns[k].1, ns[k].2) :: ns.drop (k + 1) := by
  rw [List.getElem_cons_drop, List.take_append_drop]

theorem copy_eq_of_snd {cp : CopyCtor σ α} {e : σ} {v v2 : α} (h : (cp e v).2 = some v2) :
    cp e v = ((cp e v).1, some v2) := by
  rw [← h]

/-- C3: for a valid list whose iteration sequence is `xs` (and whose size is
therefore `xs.length`) and a value `v` whose copy succeeds, `PushFront(v)`
returns, and afterwards iteration yields `v` followed by `xs` and `GetSize()`
is one more than before. -/
theorem C3_PushFront_prepends (cp : CopyCtor σ α) (w : World σ α) (l : Nat)
    (ns : List (Nat × α)) (v : α) (fuel : Nat) (hv : Valid w l ns)
    (hc : (cp w.env v).2 = some v) (hf : ns.length + 1 < fuel) :
    observe fuel l w = .ret w (ns.map Prod.snd, ns.length) ∧
    ((PushFront cp l v >>= fun _ => observe fuel l) w).val?
      = some (v :: ns.map Prod.snd, ns.length + 1) := by
  refine ⟨observe_valid hv (by omega), ?_⟩
  obtain ⟨w2, hrun, hv2, _, _, _⟩ := PushFront_spec hv (copy_eq_of_snd hc)
  rw [bind_ret hrun, observe_valid hv2 (by simpa using hf)]
  rfl

theorem C3_PushFront_prepends_witness :
    Valid (listWorld () [1, 2, 3] : World Unit Nat) 0 (nodesFrom 1 [1, 2, 3]) ∧
    observe 9 0 (listWorld () [1, 2, 3] : World Unit Nat)
      = .ret (listWorld () [1, 2, 3]) ([1, 2, 3], 3) ∧
    ((PushFront plainCopy 0 7 >>= fun _ => observe 9 0)
      (listWorld () [1, 2, 3] : World Unit Nat)).val? = some ([7, 1, 2, 3], 4) :=
  ⟨listWorld_valid () [1, 2, 3],
    C3_PushFront_prepends plainCopy (listWorld () [1, 2, 3]) 0 (nodesFrom 1 [1, 2, 3]) 7 9
      (listWorld_valid () [1, 2, 3]) rfl (by decide)⟩

/-- C4: for a valid non-empty list whose iteration sequence is `x :: xs`,
`PopFront()` returns, and afterwards iteration yields exactly `xs` and
`GetSize()` is one less than before. -/
theorem C4_PopFront_removes_first (w : World σ α) (l : Nat) (ns : List (Nat × α)) (x : α)
    (xs : List α) (fuel : Nat) (hv : Valid w l ns) (hx : ns.map Prod.snd = x :: xs)
    (hf : ns.length < fuel) :
    observe fuel l w = .ret w (x :: xs, xs.length + 1) ∧
    ((PopFront l >>= fun _ => observe fuel l) w).val? = some (xs, xs.length) := by
  have hlen : ns.length = xs.length + 1 := by
    have := congrArg List.length hx
    simpa using this
  refine ⟨by rw [observe_valid hv hf, hx, hlen], ?_⟩
  cases ns with
  | nil => simp at hx
  | cons n rest =>
    obtain ⟨b, y⟩ := n
    simp only [List.map_cons, List.cons.injEq] at hx
    obtain ⟨w2, hrun, hv2, _⟩ := PopFront_spec hv
    rw [bind_ret hrun, observe_valid hv2 (by simp at hf; omega), hx.2]
    have : rest.length = xs.length := by
      have := congrArg List.length hx.2
      simpa using this
    rw [this]
    rfl

theorem C4_PopFront_removes_first_witness :
    Valid (listWorld () [3, 14, 15, 92, 6] : World Unit Nat) 0 (nodesFrom 1 [3, 14, 15, 92, 6]) ∧
    observe 9 0 (listWorld () [3, 14, 15, 92, 6] : World Unit Nat)
      = .ret (listWorld () [3, 14, 15, 92, 6]) ([3, 14, 15, 92, 6], 5) ∧
    ((PopFront 0 >>= fun _ => observe 9 0)
      (listWorld () [3, 14, 15, 92, 6] : World Unit Nat)).val? = some ([14, 15, 92, 6], 4) :=
  ⟨listWorld_valid () _,
    C4_PopFront_removes_first (listWorld () [3, 14, 15, 92, 6]) 0 (nodesFrom 1 [3, 14, 15, 92, 6])
      3 [14, 15, 92, 6] 9 (listWorld_valid () _) rfl (by decide)⟩

theorem iter_eq_self (a : Option Nat) : BasicIterator.eq ⟨a⟩ ⟨a⟩ = true := by
  simp [BasicIterator.eq]

/-- C5: `InsertAfter(pos, v)` on a valid list with iteration sequence `xs`,
for a value whose copy succeeds.  At `before_begin()` the sequence becomes
`v :: xs`; at the iterator to the `k`-th element (`k < n`) it becomes
`x0..xk, v, x(k+1)..`.  In both cases `GetSize()` grows by one, the returned
iterator dereferences to `v`, and it equals `pos` advanced once (which is
`begin()` for `before_begin()`). -/
theorem C5_InsertAfter (cp : CopyCtor σ α) (w : World σ α) (l : Nat) (ns : List (Nat × α))
    (v : α) (fuel : Nat) (hv : Valid w l ns) (hc : (cp w.env v).2 = some v)
    (hf : ns.length + 1 < fuel) :
    ((do
        let it ← InsertAfter cp l (before_begin l) v
        let seen ← observe fuel l
        let d ← it.deref
        let nxt ← (before_begin l).incr
        let b ← begin_ l
        pure (seen, d, it.eq nxt, it.eq b)) w).val?
      = some ((v :: ns.map Prod.snd, ns.length + 1), v, true, true) ∧
    ∀ k, k < ns.length →
      ((do
          let pos ← nth l k
          let it ← InsertAfter cp l pos v
          let seen ← observe fuel l
          let d ← it.deref
          let nxt ← pos.incr
          pure (seen, d, it.eq nxt)) w).val?
        = some (((ns.map Prod.snd).take (k + 1) ++ v :: (ns.map Prod.snd).drop (k + 1),
            ns.length + 1), v, true) := by
  constructor
  · obtain ⟨w2, hrun, hv2, _, _⟩ := InsertAfter_front hv (copy_eq_of_snd hc)
    have hcell : w2.cells w.brk = some ⟨v, hd ns⟩ := Valid.cell (show Valid w2 l ([] ++ (w.brk, v) :: ns) from hv2)
    obtain ⟨sv, nx, hhead, hs⟩ := hv2.head
    have hnx := Lseg_hd hs
    subst hnx
    rw [bind_ret hrun, bind_ret (observe_valid hv2 (by simpa using hf)),
      bind_ret (deref_some hcell), before_begin, bind_ret (incr_some hhead),
      bind_ret (begin_valid hv2)]
    simp [Res.val?, hd, iter_eq_self]
  · intro k hk
    have hvk : Valid w l (ns.take k ++ (ns[k].1, ns[k].2) :: ns.drop (k + 1)) := by
      rw [← split_at hk]; exact hv
    obtain ⟨w2, hrun, hv2, _, _⟩ := InsertAfter_at hvk (copy_eq_of_snd hc)
    have hcell : w2.cells w.brk = some ⟨v, hd (ns.drop (k + 1))⟩ :=
      Valid.cell (show Valid w2 l ((ns.take k ++ [(ns[k].1, ns[k].2)])
        ++ (w.brk, v) :: ns.drop (k + 1)) from by rw [List.append_assoc]; exact hv2)
    have hpos : w2.cells ns[k].1 = some ⟨ns[k].2, hd ((w.brk, v) :: ns.drop (k + 1))⟩ :=
      Valid.cell hv2
    have hlen : (ns.take k ++ (ns[k].1, ns[k].2) :: (w.brk, v) :: ns.drop (k + 1)).length
        = ns.length + 1 := by
      have := congrArg List.length (split_at hk)
      simp only [List.length_append, List.length_cons] at this ⊢
      omega
    have hvals : (ns.take k ++ (ns[k].1, ns[k].2) :: (w.brk, v) :: ns.drop (k + 1)).map Prod.snd
        = (ns.map Prod.snd).take (k + 1) ++ v :: (ns.map Prod.snd).drop (k + 1) := by
      rw [List.take_succ, List.getElem?_eq_getElem (by simpa using hk)]
      simp [List.map_take, List.map_drop]
    rw [bind_ret (nth_iterator hv hk), bind_ret hrun,
      bind_ret (observe_valid hv2 (by rw [hlen]; exact hf)), bind_ret (deref_some hcell),
      bind_ret (incr_some hpos), hvals, hlen]
    simp [Res.val?, hd, iter_eq_self]

theorem C5_InsertAfter_witness :
    Valid (listWorld () [1, 2, 3] : World Unit Nat) 0 (nodesFrom 1 [1, 2, 3]) ∧
    ((do
        let it ← InsertAfter plainCopy 0 (before_begin 0) 123
        let seen ← observe 9 0
        let d ← it.deref
        let nxt ← (before_begin 0).incr
        let b ← begin_ 0
        pure (seen, d, it.eq nxt, it.eq b)) (listWorld () [1, 2, 3] : World Unit Nat)).val?
      = some (([123, 1, 2, 3], 4), 123, true, true) ∧
    ((do
        let pos ← nth 0 0
        let it ← InsertAfter plainCopy 0 pos 555
        let seen ← observe 9 0
        let d ← it.deref
        let nxt ← pos.incr
        pure (seen, d, it.eq nxt)) (listWorld () [1, 2, 3] : World Unit Nat)).val?
      = some (([1, 555, 2, 3], 4), 555, true) :=
  ⟨listWorld_valid () _,
    (C5_InsertAfter plainCopy (listWorld () [1, 2, 3]) 0 (nodesFrom 1 [1, 2, 3]) 123 9
      (listWorld_valid () _) rfl (by decide)).1,
    (C5_InsertAfter plainCopy (listWorld () [1, 2, 3]) 0 (nodesFrom 1 [1, 2, 3]) 555 9
      (listWorld_valid () _) rfl (by decide)).2 0 (by decide)⟩

theorem eq_end_drop (ns : List (Nat × α)) (j : Nat) :
    BasicIterator.eq ⟨hd (ns.drop j)⟩ end_ = decide (ns.length ≤ j) := by
  by_cases h : ns.length ≤ j
  · rw [List.drop_eq_nil_of_le h]
    simp [hd, h]
  · have hj : j < ns.length := Nat.lt_of_not_le h
    rw [List.drop_eq_getElem_cons hj]
    simp only [hd, List.head?_cons, Option.map_some', eq_end_some]
    simp [h]

/-- C6: `EraseAfter(pos)` on a valid list with iteration sequence `xs` of
length `n`.  At `before_begin()` (with `n >= 1`) the first element goes; at the
iterator to the `k`-th element (with `k + 1 < n`) the element `k + 1` goes.
All other elements stay in order, `GetSize()` drops by one, and the returned
iterator equals `pos` advanced once in the new list (`begin()` for
`before_begin()`), which is `end()` exactly when nothing follows `pos`. -/
theorem C6_EraseAfter (w : World σ α) (l : Nat) (ns : List (Nat × α)) (fuel : Nat)
    (hv : Valid w l ns) (hf : ns.length < fuel) :
    (0 < ns.length →
      ((do
          let it ← EraseAfter l (before_begin l)
          let seen ← observe fuel l
          let b ← begin_ l
          pure (seen, it.eq b, it.eq end_)) w).val?
        = some (((ns.map Prod.snd).drop 1, ns.length - 1), true, decide (ns.length = 1))) ∧
    ∀ k, k + 1 < ns.length →
      ((do
          let pos ← nth l k
          let it ← EraseAfter l pos
          let seen ← observe fuel l
          let nxt ← pos.incr
          pure (seen, it.eq nxt, it.eq end_)) w).val?
        = some (((ns.map Prod.snd).take (k + 1) ++ (ns.map Prod.snd).drop (k + 2),
            ns.length - 1), true, decide (ns.length = k + 2)) := by
  constructor
  · intro hpos
    cases ns with
    | nil => simp at hpos
    | cons n post =>
      obtain ⟨b, y⟩ := n
      obtain ⟨w2, hrun, hv2, _⟩ := EraseAfter_front hv
      rw [bind_ret hrun, bind_ret (observe_valid hv2 (by simp at hf; omega)),
        bind_ret (begin_valid hv2)]
      have h1 := eq_end_drop post 0
      simp only [List.drop_zero] at h1
      simp only [pure_apply, Res.val?, iter_eq_self, h1, List.map_cons, List.drop_succ_cons,
        List.drop_zero, List.length_cons, Nat.add_sub_cancel]
      congr 3
      simp
  · intro k hk
    have hk0 : k < ns.length := by omega
    have hs1 := split_at hk0
    have hs2 : ns.drop (k + 1) = (ns[k + 1].1, ns[k + 1].2) :: ns.drop (k + 2) :=
      List.drop_eq_getElem_cons hk
    rw [hs2] at hs1
    have hvk : Valid w l
        (ns.take k ++ (ns[k].1, ns[k].2) :: (ns[k + 1].1, ns[k + 1].2) :: ns.drop (k + 2)) := by
      rw [← hs1]; exact hv
    obtain ⟨w2, hrun, hv2, _⟩ := EraseAfter_at hvk
    have hpos : w2.cells ns[k].1 = some ⟨ns[k].2, hd (ns.drop (k + 2))⟩ := Valid.cell hv2
    have hlen : (ns.take k ++ (ns[k].1, ns[k].2) :: ns.drop (k + 2)).length = ns.length - 1 := by
      have := congrArg List.length hs1
      simp only [List.length_append, List.length_cons] at this ⊢
      omega
    have hvals : (ns.take k ++ (ns[k].1, ns[k].2) :: ns.drop (k + 2)).map Prod.snd
        = (ns.map Prod.snd).take (k + 1) ++ (ns.map Prod.snd).drop (k + 2) := by
      rw [List.take_succ, List.getElem?_eq_getElem (by simpa using hk0)]
      simp [List.map_take, List.map_drop]
    rw [bind_ret (nth_iterator hv hk0), bind_ret hrun,
      bind_ret (observe_valid hv2 (by rw [hlen]; omega)), bind_ret (incr_some hpos), hvals, hlen]
    have h1 := eq_end_drop ns (k + 2)
    simp only [pure_apply, Res.val?, iter_eq_self, h1]
    congr 3
    simp only [decide_eq_decide]
    omega

theorem C6_EraseAfter_witness :
    Valid (listWorld () [1, 2, 3, 4] : World Unit Nat) 0 (nodesFrom 1 [1, 2, 3, 4]) ∧
    ((do
        let it ← EraseAfter 0 (before_begin 0)
        let seen ← observe 9 0
        let b ← begin_ 0
        pure (seen, it.eq b, it.eq end_)) (listWorld () [1, 2, 3, 4] : World Unit Nat)).val?
      = some (([2, 3, 4], 3), true, false) ∧
    ((do
        let pos ← nth 0 0
        let it ← EraseAfter 0 pos
        let seen ← observe 9 0
        let nxt ← pos.incr
        pure (seen, it.eq nxt, it.eq end_)) (listWorld () [1, 2, 3, 4] : World Unit Nat)).val?
      = some (([1, 3, 4], 3), true, false) ∧
    ((do
        let pos ← nth 0 2
        let it ← EraseAfter 0 pos
        let seen ← observe 9 0
        let nxt ← pos.incr
        pure (seen, it.eq nxt, it.eq end_)) (listWorld () [1, 2, 3, 4] : World Unit Nat)).val?
      = some (([1, 2, 3], 3), true, true) :=
  ⟨listWorld_valid () _,
    (C6_EraseAfter (listWorld () [1, 2, 3, 4]) 0 (nodesFrom 1 [1, 2, 3, 4]) 9
      (listWorld_valid () _) (by decide)).1 (by decide),
    (C6_EraseAfter (listWorld () [1, 2, 3, 4]) 0 (nodesFrom 1 [1, 2, 3, 4]) 9
      (listWorld_valid () _) (by decide)).2 0 (by decide),
    (C6_EraseAfter (listWorld () [1, 2, 3, 4]) 0 (nodesFrom 1 [1, 2, 3, 4]) 9
      (listWorld_valid () _) (by decide)).2 2 (by decide)⟩

theorem tryCatch_threw {R : Type} {body : M σ α R} {w w1 : World σ α}
    (h : body w = .threw w1) : tryCatch body w = .ret w1 none := by
  simp [tryCatch, h]

theorem tryCatch_ret {R : Type} {body : M σ α R} {w w1 : World σ α} {r : R}
    (h : body w = .ret w1 r) : tryCatch body w = .ret w1 (some r) := by
  simp [tryCatch, h]

theorem Valid.with_env {w : World σ α} {l : Nat} {ns : List (Nat × α)} (hv : Valid w l ns)
    (e : σ) : Valid { w with env := e } l ns :=
  ⟨hv.head, hv.nodup, hv.size, hv.alloc⟩

/-- C7: strong exception safety of `InsertAfter` on a valid list, at
`before_begin()` and at the iterator to any element.  When the copy of `v`
throws, `InsertAfter` throws and leaves every node, link and `size_` exactly
as they were (only the state of the copy constructor may have moved), so the
list shows its old sequence and size.  When the copy succeeds, `InsertAfter`
returns and the size has grown by one.  In the setting of the test
(three `ThrowOnCopy{}` elements, inserting `ThrowOnCopy(copy_counter)` after
`cbegin()`), the insert throws exactly when the countdown is `0`, leaving
`GetSize() == 3`, and otherwise succeeds with `GetSize() == 4`. -/
theorem C7_InsertAfter_strong_guarantee (cp : CopyCtor σ α) (w : World σ α) (l : Nat)
    (ns : List (Nat × α)) (v : α) (fuel : Nat) (hv : Valid w l ns) (hf : ns.length < fuel) :
    ((cp w.env v).2 = none →
      tryCatch (InsertAfter cp l (before_begin l) v) w
        = .ret { w with env := (cp w.env v).1 } none ∧
      (∀ k, k < ns.length →
        (nth l k >>= fun pos => tryCatch (InsertAfter cp l pos v)) w
          = .ret { w with env := (cp w.env v).1 } none) ∧
      observe fuel l { w with env := (cp w.env v).1 }
        = .ret { w with env := (cp w.env v).1 } (ns.map Prod.snd, ns.length)) ∧
    ((cp w.env v).2 ≠ none →
      ((do
          let r ← tryCatch (InsertAfter cp l (before_begin l) v)
          let n ← GetSize l
          pure (r.isSome, n)) w).val? = some (true, ns.length + 1) ∧
      ∀ k, k < ns.length →
        ((do
            let pos ← nth l k
            let r ← tryCatch (InsertAfter cp l pos v)
            let n ← GetSize l
            pure (r.isSome, n)) w).val? = some (true, ns.length + 1)) ∧
    ∀ c : Int,
      ((do
          let pos ← nth 0 0
          let r ← tryCatch (InsertAfter ThrowOnCopy.copy 0 pos ⟨true⟩)
          let n ← GetSize 0
          pure (r.isSome, n))
        (listWorld c [(⟨false⟩ : ThrowOnCopy), ⟨false⟩, ⟨false⟩])).val?
        = some (if c = 0 then (false, 3) else (true, 4)) := by
  obtain ⟨sv, nx, hhead, hs⟩ := hv.head
  refine ⟨fun hc => ⟨?_, ?_, observe_valid (hv.with_env _) hf⟩, fun hc => ⟨?_, ?_⟩, ?_⟩
  · exact tryCatch_threw (InsertAfter_threw hhead (by rw [← hc]))
  · intro k hk
    have hcell : w.cells ns[k].1 = some ⟨ns[k].2, hd (ns.drop (k + 1))⟩ :=
      (Lseg_getElem hs hk).1
    rw [bind_ret (nth_iterator hv hk)]
    exact tryCatch_threw (InsertAfter_threw hcell (by rw [← hc]))
  · obtain ⟨v2, hv2⟩ := Option.ne_none_iff_exists'.mp hc
    obtain ⟨w2, hrun, hval, _⟩ := InsertAfter_front hv (show cp w.env v = (_, some v2) by rw [← hv2])
    rw [bind_ret (tryCatch_ret hrun), bind_ret (GetSize_valid hval)]
    rfl
  · intro k hk
    obtain ⟨v2, hv2⟩ := Option.ne_none_iff_exists'.mp hc
    have hvk : Valid w l (ns.take k ++ (ns[k].1, ns[k].2) :: ns.drop (k + 1)) := by
      rw [← split_at hk]; exact hv
    obtain ⟨w2, hrun, hval, _⟩ := InsertAfter_at hvk
      (show cp w.env v = (_, some v2) by rw [← hv2])
    have hlen : (ns.take k ++ (ns[k].1, ns[k].2) :: (w.brk, v2) :: ns.drop (k + 1)).length
        = ns.length + 1 := by
      have := congrArg List.length (split_at hk)
      simp only [List.length_append, List.length_cons] at this ⊢
      omega
    rw [bind_ret (nth_iterator hv hk), bind_ret (tryCatch_ret hrun),
      bind_ret (GetSize_valid hval), hlen]
    rfl
  · intro c
    have hval := listWorld_valid c [(⟨false⟩ : ThrowOnCopy), ⟨false⟩, ⟨false⟩]
    have hcell : (listWorld c [(⟨false⟩ : ThrowOnCopy), ⟨false⟩, ⟨false⟩]).cells 1
        = some ⟨⟨false⟩, some 2⟩ := rfl
    have hnth : nth 0 0 (listWorld c [(⟨false⟩ : ThrowOnCopy), ⟨false⟩, ⟨false⟩])
        = .ret _ ⟨some 1⟩ := nth_iterator hval (k := 0) (by decide)
    rw [bind_ret hnth]
    by_cases h0 : c = 0
    · have hcp : ThrowOnCopy.copy c ⟨true⟩ = (c, none) := by simp [ThrowOnCopy.copy, h0]
      rw [bind_ret (tryCatch_threw (InsertAfter_threw (e := c) hcell hcp)),
        bind_ret (GetSize_valid (hval.with_env c))]
      simp [Res.val?, h0, nodesFrom]
    · have hcp : ThrowOnCopy.copy c ⟨true⟩ = (c - 1, some ⟨true⟩) := by
        simp [ThrowOnCopy.copy, h0]
      obtain ⟨w2, hrun, hval2, _⟩ := InsertAfter_at
        (show Valid _ 0 ([] ++ (1, (⟨false⟩ : ThrowOnCopy))
          :: [(2, (⟨false⟩ : ThrowOnCopy)), (3, ⟨false⟩)]) from hval) hcp
      rw [bind_ret (tryCatch_ret hrun), bind_ret (GetSize_valid hval2)]
      simp [Res.val?, h0]

theorem C7_InsertAfter_strong_guarantee_witness :
    Valid (listWorld 0 [(⟨false⟩ : ThrowOnCopy), ⟨false⟩, ⟨false⟩]) 0
      (nodesFrom 1 [(⟨false⟩ : ThrowOnCopy), ⟨false⟩, ⟨false⟩]) ∧
    (nth 0 0 >>= fun pos => tryCatch (InsertAfter ThrowOnCopy.copy 0 pos ⟨true⟩))
        (listWorld 0 [(⟨false⟩ : ThrowOnCopy), ⟨false⟩, ⟨false⟩])
      = .ret (listWorld 0 [(⟨false⟩ : ThrowOnCopy), ⟨false⟩, ⟨false⟩]) none :=
  ⟨listWorld_valid 0 _,
    ((C7_InsertAfter_strong_guarantee ThrowOnCopy.copy
      (listWorld 0 [(⟨false⟩ : ThrowOnCopy), ⟨false⟩, ⟨false⟩]) 0 _ ⟨true⟩ 9
      (listWorld_valid 0 _) (by decide)).1 rfl).2.1 0 (by decide)⟩

theorem seqEqual_nil_left [BEq α] (ys : List α) :
    seqEqual ([] : List α) ys = decide (ys.length = 0) := by
  cases ys <;> simp [seqEqual]

theorem seqEqual_cons_nil [BEq α] (x : α) (xs : List α) : seqEqual (x :: xs) [] = false := by
  simp [seqEqual]

theorem seqEqual_cons_cons [BEq α] (x y : α) (xs ys : List α) :
    seqEqual (x :: xs) (y :: ys) = ((x == y) && seqEqual xs ys) := by
  simp only [seqEqual, List.length_cons, List.zip_cons_cons, List.all_cons, Nat.add_right_cancel_iff]
  cases (x == y) <;> simp

theorem std_equal_Lseg [BEq α] {w : World σ α} {ns : List (Nat × α)} :
    ∀ {ms : List (Nat × α)} {p q : Option Nat} {fuel : Nat}, Lseg w.cells p ns none →
      Lseg w.cells q ms none → ns.length < fuel →
      std_equal end_ end_ fuel ⟨p⟩ ⟨q⟩ w
        = .ret w (seqEqual (ns.map Prod.snd) (ms.map Prod.snd)) := by
  induction ns with
  | nil =>
    intro ms p q fuel h1 h2 hf
    have hp : p = none := h1
    subst hp
    have hq := Lseg_hd h2
    subst hq
    cases fuel with
    | zero => omega
    | succ f =>
      cases ms with
      | nil => simp [std_equal, seqEqual, hd]
      | cons m ms2 => simp [std_equal, seqEqual, hd]
  | cons n rest ih =>
    intro ms p q fuel h1 h2 hf
    obtain ⟨hp, nx, hc, hr⟩ := h1
    subst hp
    cases fuel with
    | zero => omega
    | succ f =>
      have hf2 : rest.length < f := by simp at hf; omega
      cases ms with
      | nil =>
        have hq : q = none := h2
        subst hq
        simp [std_equal, seqEqual]
      | cons m ms2 =>
        obtain ⟨hq, nx2, hc2, hr2⟩ := h2
        subst hq
        simp only [List.map_cons, seqEqual_cons_cons]
        by_cases hxy : (n.2 == m.2) = true
        · simp [std_equal, bind_apply, M.bind, deref_some hc, deref_some hc2, incr_some hc,
            incr_some hc2, hxy, ih hr hr2 hf2]
        · simp [std_equal, bind_apply, M.bind, deref_some hc, deref_some hc2, hxy]

theorem op_eq_valid [BEq α] {w : World σ α} {a b : Nat} {ns ms : List (Nat × α)} {fuel : Nat}
    (ha : Valid w a ns) (hb : Valid w b ms) (hf : ns.length < fuel) :
    op_eq fuel a b w = .ret w (seqEqual (ns.map Prod.snd) (ms.map Prod.snd)) := by
  obtain ⟨_, nx, _, hs⟩ := ha.head
  obtain ⟨_, nx2, _, hs2⟩ := hb.head
  have h1 := Lseg_hd hs
  have h2 := Lseg_hd hs2
  subst h1 h2
  unfold op_eq
  rw [bind_ret (begin_valid ha), bind_ret (begin_valid hb)]
  exact std_equal_Lseg hs hs2 hf

theorem seqEqual_iff [BEq α] (xs ys : List α) :
    seqEqual xs ys = true ↔
      xs.length = ys.length ∧
        ∀ (i : Nat) (h1 : i < xs.length) (h2 : i < ys.length), (xs[i] == ys[i]) = true := by
  induction xs generalizing ys with
  | nil =>
    rw [seqEqual_nil_left]
    constructor
    · intro h
      have : ys.length = 0 := by simpa using h
      exact ⟨by simp [this], fun i h1 _ => absurd h1 (by simp)⟩
    · intro h
      have : ys.length = 0 := by simpa using h.1.symm
      simp [this]
  | cons x xs ih =>
    cases ys with
    | nil => simp [seqEqual_cons_nil]
    | cons y ys =>
      rw [seqEqual_cons_cons, Bool.and_eq_true, ih]
      constructor
      · rintro ⟨hxy, hlen, hall⟩
        refine ⟨by simp [hlen], ?_⟩
        intro i h1 h2
        cases i with
        | zero => simpa using hxy
        | succ j =>
          simp only [List.getElem_cons_succ]
          exact hall j (by simpa using h1) (by simpa using h2)
      · rintro ⟨hlen, hall⟩
        refine ⟨by simpa using hall 0 (by simp) (by simp), by simpa using hlen, ?_⟩
        intro i h1 h2
        have := hall (i + 1) (by simpa using h1) (by simpa using h2)
        simpa using this

theorem seqEqual_shorter [BEq α] (xs : List α) (z : α) (t : List α) :
    seqEqual xs (xs ++ z :: t) = false ∧ seqEqual (xs ++ z :: t) xs = false := by
  constructor <;> simp [seqEqual]

/-- C8: for two valid lists `a` and `b` with iteration sequences `xs` and
`ys`, `a == b` returns, and returns `true` exactly when the sequences have the
same number of elements and are pairwise equal (by the element type's `==`)
in iteration order; it returns `false`, in either argument order, when one
sequence is a proper prefix of the other. -/
theorem C8_op_eq [BEq α] (w : World σ α) (a b : Nat) (ns ms : List (Nat × α)) (fuel : Nat)
    (ha : Valid w a ns) (hb : Valid w b ms) (hf : ns.length < fuel) (hf2 : ms.length < fuel) :
    op_eq fuel a b w = .ret w (seqEqual (ns.map Prod.snd) (ms.map Prod.snd)) ∧
    (seqEqual (ns.map Prod.snd) (ms.map Prod.snd) = true ↔
      (ns.map Prod.snd).length = (ms.map Prod.snd).length ∧
        ∀ (i : Nat) (h1 : i < (ns.map Prod.snd).length) (h2 : i < (ms.map Prod.snd).length),
          ((ns.map Prod.snd)[i] == (ms.map Prod.snd)[i]) = true) ∧
    (∀ z t, ms.map Prod.snd = ns.map Prod.snd ++ z :: t →
      op_eq fuel a b w = .ret w false ∧ op_eq fuel b a w = .ret w false) := by
  refine ⟨op_eq_valid ha hb hf, seqEqual_iff _ _, ?_⟩
  intro z t hpre
  rw [op_eq_valid ha hb hf, op_eq_valid hb ha hf2, hpre,
    (seqEqual_shorter _ z t).1, (seqEqual_shorter _ z t).2]
  exact ⟨rfl, rfl⟩

theorem C8_op_eq_witness :
    Valid demoWorld 0 [(4, 1), (3, 2), (2, 3)] ∧
    Valid demoWorld 5 [(9, 1), (8, 2), (7, 4), (6, 8)] ∧
    op_eq 9 0 5 demoWorld = .ret demoWorld false ∧
    op_eq 9 0 0 demoWorld = .ret demoWorld true :=
  ⟨demoWorld_valid_a, demoWorld_valid_b,
    (C8_op_eq demoWorld 0 5 _ _ 9 demoWorld_valid_a demoWorld_valid_b (by decide) (by decide)).1,
    (C8_op_eq demoWorld 0 0 _ _ 9 demoWorld_valid_a demoWorld_valid_a (by decide) (by decide)).1⟩

theorem std_lexicographical_compare_Lseg [LT α] [DecidableRel (α := α) (· < ·)]
    {w : World σ α} {ns : List (Nat × α)} :
    ∀ {ms : List (Nat × α)} {p q : Option Nat} {fuel : Nat}, Lseg w.cells p ns none →
      Lseg w.cells q ms none → ns.length < fuel →
      std_lexicographical_compare end_ end_ fuel ⟨p⟩ ⟨q⟩ w
        = .ret w (lexLess (ns.map Prod.snd) (ms.map Prod.snd)) := by
  induction ns with
  | nil =>
    intro ms p q fuel h1 h2 hf
    have hp : p = none := h1
    subst hp
    have hq := Lseg_hd h2
    subst hq
    cases fuel with
    | zero => omega
    | succ f =>
      cases ms with
      | nil => simp [std_lexicographical_compare, lexLess, hd]
      | cons m ms2 => simp [std_lexicographical_compare, lexLess, hd]
  | cons n rest ih =>
    intro ms p q fuel h1 h2 hf
    obtain ⟨hp, nx, hc, hr⟩ := h1
    subst hp
    cases fuel with
    | zero => omega
    | succ f =>
      have hf2 : rest.length < f := by simp at hf; omega
      cases ms with
      | nil =>
        have hq : q = none := h2
        subst hq
        simp [std_lexicographical_compare, lexLess]
      | cons m ms2 =>
        obtain ⟨hq, nx2, hc2, hr2⟩ := h2
        subst hq
        simp only [List.map_cons, lexLess]
        by_cases hxy : n.2 < m.2
        · simp [std_lexicographical_compare, bind_apply, M.bind, deref_some hc, deref_some hc2,
            hxy]
        · by_cases hyx : m.2 < n.2
          · simp [std_lexicographical_compare, bind_apply, M.bind, deref_some hc,
              deref_some hc2, hxy, hyx]
          · simp [std_lexicographical_compare, bind_apply, M.bind, deref_some hc,
              deref_some hc2, incr_some hc, incr_some hc2, hxy, hyx, ih hr hr2 hf2]

theorem op_lt_valid [LT α] [DecidableRel (α := α) (· < ·)] {w : World σ α} {a b : Nat}
    {ns ms : List (Nat × α)} {fuel : Nat}
    (ha : Valid w a ns) (hb : Valid w b ms) (hf : ns.length < fuel) :
    op_lt fuel a b w = .ret w (lexLess (ns.map Prod.snd) (ms.map Prod.snd)) := by
  obtain ⟨_, nx, _, hs⟩ := ha.head
  obtain ⟨_, nx2, _, hs2⟩ := hb.head
  have h1 := Lseg_hd hs
  have h2 := Lseg_hd hs2
  subst h1 h2
  unfold op_lt
  rw [bind_ret (begin_valid ha), bind_ret (begin_valid hb)]
  exact std_lexicographical_compare_Lseg hs hs2 hf

theorem lexLess_iff [LinearOrder α] (xs ys : List α) :
    lexLess xs ys = true ↔ Precedes xs ys := by
  induction xs generalizing ys with
  | nil =>
    cases ys with
    | nil =>
      simp only [lexLess, Precedes]
      constructor
      · intro h; cases h
      · rintro (⟨y, t, h⟩ | ⟨p, x, s, y, t, h, _⟩)
        · simp at h
        · simp at h
    | cons y ys =>
      simp only [lexLess, Precedes, true_iff]
      exact Or.inl ⟨y, ys, rfl⟩
  | cons x xs ih =>
    cases ys with
    | nil =>
      simp only [lexLess, Precedes]
      constructor
      · intro h; cases h
      · rintro (⟨y, t, h⟩ | ⟨p, x2, s, y, t, _, h, _⟩)
        · simp at h
        · simp at h
    | cons y ys =>
      simp only [lexLess]
      by_cases hxy : x < y
      · simp only [hxy, if_true, true_iff]
        exact Or.inr ⟨[], x, xs, y, ys, rfl, rfl, ne_of_lt hxy, hxy⟩
      · by_cases hyx : y < x
        · simp only [hxy, hyx, if_false, if_true]
          constructor
          · intro h; cases h
          · rintro (⟨y2, t, h⟩ | ⟨p, x2, s, y2, t, h1, h2, hne, hlt⟩)
            · simp only [List.cons_append, List.cons.injEq] at h
              exact absurd hyx (by rw [h.1]; exact lt_irrefl _)
            · cases p with
              | nil =>
                simp only [List.nil_append, List.cons.injEq] at h1 h2
                rw [h1.1, h2.1] at hxy
                exact absurd hlt hxy
              | cons c p2 =>
                simp only [List.cons_append, List.cons.injEq] at h1 h2
                rw [h1.1, h2.1] at hyx
                exact absurd hyx (lt_irrefl _)
        · have heq : x = y := le_antisymm (not_lt.mp hyx) (not_lt.mp hxy)
          subst heq
          simp only [hxy, if_false, ih]
          constructor
          · rintro (⟨y2, t, h⟩ | ⟨p, x2, s, y2, t, h1, h2, hne, hlt⟩)
            · exact Or.inl ⟨y2, t, by rw [h]; rfl⟩
            · exact Or.inr ⟨x :: p, x2, s, y2, t, by rw [h1]; rfl, by rw [h2]; rfl, hne, hlt⟩
          · rintro (⟨y2, t, h⟩ | ⟨p, x2, s, y2, t, h1, h2, hne, hlt⟩)
            · simp only [List.cons_append, List.cons.injEq, true_and] at h
              exact Or.inl ⟨y2, t, h⟩
            · cases p with
              | nil =>
                simp only [List.nil_append, List.cons.injEq] at h1 h2
                exact absurd (h1.1.symm.trans h2.1) hne
              | cons c p2 =>
                simp only [List.cons_append, List.cons.injEq] at h1 h2
                exact Or.inr ⟨p2, x2, s, y2, t, h1.2, h2.2, hne, hlt⟩

/-- A second list built by the initializer-list constructor next to the list
of `listWorld`: both are valid in the resulting memory. -/
theorem second_list [Inhabited α] (e : σ) (vals1 vals2 : List α) (fuel junk : Nat)
    (hn : vals2.length < 2147483648) (hf : vals2.length < fuel) :
    ∃ w2 ms, init_list_ctor plainCopy fuel junk vals2 (listWorld e vals1 : World σ α)
        = .ret w2 (vals1.length + 1) ∧
      Valid w2 0 (nodesFrom 1 vals1) ∧ Valid w2 (vals1.length + 1) ms ∧
      ms.map Prod.snd = vals2 ∧
      (∀ x ∈ 0 :: (nodesFrom 1 vals1).map Prod.fst, x ∉ (vals1.length + 1) :: ms.map Prod.fst) := by
  have hv1 := listWorld_valid (σ := σ) e vals1
  obtain ⟨w2, ms, hrun, hv2, hvals, hfr, hfresh⟩ :=
    init_list_ctor_correct junk plainCopy_faithful hv1.alloc hn hf
  refine ⟨w2, ms, hrun, hv1.frame hfr (by simp) hv2.alloc, hv2, hvals, ?_⟩
  intro x hx h
  have h1 := hv1.lt_brk x hx
  have hb : (listWorld e vals1 : World σ α).brk = vals1.length + 1 := rfl
  simp only [List.mem_cons] at h
  rcases h with h | h
  · omega
  · have := hfresh x h
    omega

/-- C9: for two valid lists `a` and `b` over a linearly ordered element type,
with iteration sequences `xs` and `ys`, `a < b` returns, and returns `true`
exactly when `xs` precedes `ys` in strict lexicographic order: `xs` is a
proper prefix of `ys`, or at the first index where they differ the element of
`xs` is the smaller. -/
theorem C9_op_lt [LinearOrder α] (w : World σ α) (a b : Nat) (ns ms : List (Nat × α))
    (fuel : Nat) (ha : Valid w a ns) (hb : Valid w b ms) (hf : ns.length < fuel) :
    op_lt fuel a b w = .ret w (lexLess (ns.map Prod.snd) (ms.map Prod.snd)) ∧
    (lexLess (ns.map Prod.snd) (ms.map Prod.snd) = true ↔
      Precedes (ns.map Prod.snd) (ms.map Prod.snd)) :=
  ⟨op_lt_valid ha hb hf, lexLess_iff _ _⟩

theorem C9_op_lt_witness :
    ((do
        let b ← init_list_ctor plainCopy 9 0 [1, 2, 4]
        op_lt 9 0 b) (listWorld () [1, 2, 3] : World Unit Nat)).val? = some true ∧
    ((do
        let b ← init_list_ctor plainCopy 9 0 [1, 2, 3]
        op_lt 9 0 b) (listWorld () [1, 2] : World Unit Nat)).val? = some true ∧
    ((do
        let b ← init_list_ctor plainCopy 9 0 [1]
        op_lt 9 0 b) (listWorld () [] : World Unit Nat)).val? = some true ∧
    ((do
        let b ← init_list_ctor plainCopy 9 0 [1, 2, 3]
        op_lt 9 0 b) (listWorld () [1, 2, 3] : World Unit Nat)).val? = some false := by
  refine ⟨?_, ?_, ?_, ?_⟩
  · obtain ⟨w2, ms, hrun, h1, h2, hv, _⟩ :=
      second_list (σ := Unit) () [1, 2, 3] [1, 2, 4] 9 0 (by decide) (by decide)
    rw [bind_ret hrun, (C9_op_lt w2 0 _ _ ms 9 h1 h2 (by decide)).1, hv]
    rfl
  · obtain ⟨w2, ms, hrun, h1, h2, hv, _⟩ :=
      second_list (σ := Unit) () [1, 2] [1, 2, 3] 9 0 (by decide) (by decide)
    rw [bind_ret hrun, (C9_op_lt w2 0 _ _ ms 9 h1 h2 (by decide)).1, hv]
    rfl
  · obtain ⟨w2, ms, hrun, h1, h2, hv, _⟩ :=
      second_list (σ := Unit) () ([] : List Nat) [1] 9 0 (by decide) (by decide)
    rw [bind_ret hrun, (C9_op_lt w2 0 _ _ ms 9 h1 h2 (by decide)).1, hv]
    rfl
  · obtain ⟨w2, ms, hrun, h1, h2, hv, _⟩ :=
      second_list (σ := Unit) () [1, 2, 3] [1, 2, 3] 9 0 (by decide) (by decide)
    rw [bind_ret hrun, (C9_op_lt w2 0 _ _ ms 9 h1 h2 (by decide)).1, hv]
    rfl

theorem advance_inv {w : World σ α} :
    ∀ (k : Nat) {E : List (Nat × α)} {p : Option Nat} {r : Res (World σ α) BasicIterator}
      {w2 : World σ α} {pos : BasicIterator},
      Lseg w.cells p E none → advance ⟨p⟩ k w = r → r = .ret w2 pos → pos.ne end_ = true →
      ∃ A a x post, E = A ++ (a, x) :: post ∧ pos = ⟨some a⟩ := by
  intro k
  induction k with
  | zero =>
    intro E p r w2 pos hs hrun hr hne
    subst hrun
    simp only [advance, pure_apply, Res.ret.injEq] at hr
    obtain ⟨_, hpos⟩ := hr
    subst hpos
    cases E with
    | nil =>
      have : p = none := hs
      subst this
      simp at hne
    | cons n rest =>
      obtain ⟨hp, _⟩ := hs
      exact ⟨[], n.1, n.2, rest, rfl, by rw [hp]⟩
  | succ k ih =>
    intro E p r w2 pos hs hrun hr hne
    cases E with
    | nil =>
      have : p = none := hs
      subst this
      subst hrun
      simp [advance, bind_apply, M.bind, BasicIterator.incr, load] at hr
    | cons n rest =>
      obtain ⟨hp, nx, hc, hrest⟩ := hs
      subst hp
      have hstep : advance ⟨some n.1⟩ (k + 1) w = advance ⟨nx⟩ k w := by
        show (BasicIterator.incr ⟨some n.1⟩ >>= fun nxt => advance nxt k) w = _
        rw [bind_ret (incr_some hc)]
      rw [hstep] at hrun
      obtain ⟨A, a, x, post, hE, hpos⟩ := ih hrest hrun hr hne
      exact ⟨n :: A, a, x, post, by rw [hE]; rfl, hpos⟩

theorem ValidPos.split_pos {w : World σ α} {l : Nat} {ns : List (Nat × α)} {pos : BasicIterator}
    {sv : α} (hch : Lseg w.cells (some l) ((l, sv) :: ns) none) (hp : ValidPos w l pos) :
    ∃ A a x post, (l, sv) :: ns = A ++ (a, x) :: post ∧ pos = ⟨some a⟩ := by
  obtain ⟨k, hrun, hne⟩ := hp
  exact advance_inv k hch hrun rfl hne

theorem HasNext.split_next {w : World σ α} {l : Nat} {ns : List (Nat × α)} {pos : BasicIterator}
    {sv : α} (hch : Lseg w.cells (some l) ((l, sv) :: ns) none) (hp : HasNext w l pos) :
    ∃ A a x b y post, (l, sv) :: ns = A ++ (a, x) :: (b, y) :: post ∧ pos = ⟨some a⟩ := by
  obtain ⟨hvp, nxt, hincr, hne⟩ := hp
  obtain ⟨A, a, x, post, hE, hpos⟩ := hvp.split_pos hch
  subst hpos
  rw [hE] at hch
  have hcell := Lseg_cell hch
  rw [incr_some hcell] at hincr
  injection hincr with _ hn
  subst hn
  cases post with
  | nil => simp [hd] at hne
  | cons m post2 => exact ⟨A, a, x, m.1, m.2, post2, hE, rfl⟩

theorem construct_fault [Inhabited α] {junk : Nat} {body : Nat → M σ α Unit}
    {w w1 : World σ α} {self : Nat} (h1 : rawObject junk w = .ret w1 self)
    (h2 : body self w1 = .fault) : construct junk body w = .fault := by
  simp only [construct, h1, h2]

theorem withCleanup_fault {R : Type} {body : M σ α R} {cleanup : M σ α Unit}
    {w : World σ α} (hb : body w = .fault) : withCleanup body cleanup w = .fault := by
  simp only [withCleanup, hb]

theorem InitializeByIterators_fault [Inhabited α] {ι : Type} {cp : CopyCtor σ α}
    {ops : IterOps σ α ι} {first last : ι} {w : World σ α} {self fuel : Nat} {d : Int}
    (hd1 : ∀ w1 : World σ α, w1.cells = Function.update w.cells w.brk (some ⟨default, none⟩) →
      ops.distance first last w1 = .ret w1 d)
    (h : toInt32 d = -2147483648) :
    InitializeByIterators cp ops fuel self first last w = .fault := by
  unfold InitializeByIterators
  rw [bind_ret (show default_ctor w = .ret _ w.brk from rfl)]
  apply withCleanup_fault
  rw [bind_ret (hd1 _ rfl), if_pos h]
  rfl

theorem init_list_ctor_fault [Inhabited α] (cp : CopyCtor σ α) (fuel junk : Nat)
    (vals : List α) (w : World σ α) (h : toInt32 (vals.length : Int) = -2147483648) :
    init_list_ctor cp fuel junk vals w = .fault := by
  apply construct_fault rfl
  apply InitializeByIterators_fault (d := (vals.length : Int)) _ h
  intro w1 _
  simp [arrayOps]

theorem copy_ctor_fault [Inhabited α] {cp : CopyCtor σ α} {fuel junk other : Nat}
    {ns : List (Nat × α)} {w : World σ α} (ho : Valid w other ns) (hf : ns.length < fuel)
    (h : toInt32 (ns.length : Int) = -2147483648) :
    copy_ctor cp fuel junk other w = .fault := by
  obtain ⟨w1, hraw, hs1, hfr1, _, hbrk1⟩ := rawObject_spec (α := α) junk ho.alloc
  have ho1 : Valid w1 other ns := ho.frame hfr1 (by simp) hs1.alloc
  apply construct_fault hraw
  show (begin_ other >>= fun b =>
    InitializeByIterators cp (listOps fuel) fuel w.brk b end_) w1 = .fault
  rw [bind_ret (begin_valid ho1)]
  apply InitializeByIterators_fault (d := (ns.length : Int)) _ h
  intro w2 hw2
  have hlt := ho1.lt_brk
  obtain ⟨_, nx, _, hs⟩ := ho1.head
  have hnx := Lseg_hd hs
  subst hnx
  have hs2 : Lseg w2.cells (hd ns) ns none := by
    rw [hw2]
    refine Lseg_update ?_ hs
    intro hmem
    have := hlt _ (List.mem_cons_of_mem _ hmem)
    omega
  exact distance_Lseg hs2 hf

theorem assign_fault [Inhabited α] {cp : CopyCtor σ α} {fuel junk self rhs : Nat}
    {ns : List (Nat × α)} {w : World σ α} (hr : Valid w rhs ns) (hne : self ≠ rhs)
    (hf : ns.length < fuel) (h : toInt32 (ns.length : Int) = -2147483648) :
    assign cp fuel junk self rhs w = .fault := by
  unfold assign
  rw [if_pos hne, bind_fault (copy_ctor_fault hr hf h)]

theorem Inv_keep {w w2 : World σ α} {L : List Nat} (hI : Inv w L) (hal : WellAlloc w2)
    (hfr : Frame [] w w2) : Inv w2 L := by
  obtain ⟨_, F, hF, hD⟩ := hI
  exact ⟨hal, F, fun l hl => (hF l hl).frame hfr (by simp) hal, hD⟩

theorem Inv_add {w w2 : World σ α} {L : List Nat} {ms : List (Nat × α)} (hI : Inv w L)
    (hfr : Frame [] w w2) (hv : Valid w2 w.brk ms) (hfresh : ∀ a ∈ ms.map Prod.fst, w.brk < a) :
    Inv w2 (w.brk :: L) := by
  obtain ⟨_, F, hF, hD⟩ := hI
  have hLlt : ∀ l ∈ L, ∀ x ∈ l :: (F l).map Prod.fst, x < w.brk :=
    fun l hl => (hF l hl).lt_brk
  have hLne : ∀ l ∈ L, l ≠ w.brk := fun l hl h => by
    have := hLlt l hl l (by simp)
    omega
  refine ⟨hv.alloc, Function.update F w.brk ms, ?_, ?_⟩
  · intro l hl
    simp only [List.mem_cons] at hl
    rcases hl with rfl | hl
    · simpa [Function.update] using hv
    · simp only [Function.update, hLne l hl, dite_false]
      exact (hF l hl).frame hfr (by simp) hv.alloc
  · intro l hl k hk hne x hx hxk
    simp only [List.mem_cons] at hl hk
    rcases hl with rfl | hl
    · rcases hk with rfl | hk
      · exact hne rfl
      · simp only [Function.update, hLne k hk, dite_false, dite_true] at hx hxk
        have h1 := hLlt k hk x hxk
        simp only [List.mem_cons] at hx
        rcases hx with hx | hx
        · omega
        · have := hfresh x hx
          omega
    · rcases hk with rfl | hk
      · simp only [Function.update, hLne l hl, dite_false, dite_true] at hx hxk
        have h1 := hLlt l hl x hx
        simp only [List.mem_cons] at hxk
        rcases hxk with hxk | hxk
        · omega
        · have := hfresh x hxk
          omega
      · simp only [Function.update, hLne l hl, hLne k hk, dite_false] at hx hxk
        exact hD l hl k hk hne x hx hxk

theorem Inv_modify {w w2 : World σ α} {L : List Nat} {F : Nat → List (Nat × α)} {l : Nat}
    {ns2 : List (Nat × α)} (hF : ∀ l ∈ L, Valid w l (F l))
    (hD : ∀ l ∈ L, ∀ k ∈ L, l ≠ k → ∀ x ∈ l :: (F l).map Prod.fst, x ∉ k :: (F k).map Prod.fst)
    (hl : l ∈ L) (hv2 : Valid w2 l ns2) (hfr : Frame (l :: (F l).map Prod.fst) w w2)
    (hnew : ∀ a ∈ ns2.map Prod.fst, a ∈ (F l).map Prod.fst ∨ w.brk ≤ a) : Inv w2 L := by
  have hLlt : ∀ k ∈ L, ∀ x ∈ k :: (F k).map Prod.fst, x < w.brk :=
    fun k hk => (hF k hk).lt_brk
  have hin : ∀ x ∈ l :: ns2.map Prod.fst, x ∈ l :: (F l).map Prod.fst ∨ w.brk ≤ x := by
    intro x hx
    simp only [List.mem_cons] at hx ⊢
    rcases hx with hx | hx
    · exact Or.inl (Or.inl hx)
    · rcases hnew x hx with h | h
      · exact Or.inl (Or.inr h)
      · exact Or.inr h
  refine ⟨hv2.alloc, Function.update F l ns2, ?_, ?_⟩
  · intro k hk
    by_cases hkl : k = l
    · subst hkl
      simpa [Function.update] using hv2
    · simp only [Function.update, hkl, dite_false]
      refine (hF k hk).frame hfr ?_ hv2.alloc
      intro x hx hxl
      exact hD k hk l hl hkl x hx hxl
  · intro k1 hk1 k2 hk2 hne x hx hxk
    by_cases h1 : k1 = l
    · subst h1
      have h2 : k2 ≠ k1 := fun h => hne h.symm
      simp only [Function.update, h2, dite_false, dite_true] at hx hxk
      rcases hin x hx with h | h
      · exact hD k1 hk1 k2 hk2 hne x h hxk
      · have := hLlt k2 hk2 x hxk
        omega
    · by_cases h2 : k2 = l
      · subst h2
        simp only [Function.update, h1, dite_false, dite_true] at hx hxk
        rcases hin x hxk with h | h
        · exact hD k1 hk1 k2 hk2 hne x hx h
        · have := hLlt k1 hk1 x hx
          omega
      · simp only [Function.update, h1, h2, dite_false] at hx hxk
        exact hD k1 hk1 k2 hk2 hne x hx hxk

theorem swap_self_spec {w : World σ α} {a : Nat} {ns : List (Nat × α)} (ha : Valid w a ns) :
    ∃ w2, swap a a w = .ret w2 () ∧ Valid w2 a ns ∧ Frame [a] w w2 := by
  obtain ⟨sv, nx, hc, hs⟩ := ha.head
  have hnd := ha.nodup
  simp only [List.nodup_cons] at hnd
  refine ⟨{ w with cells := Function.update w.cells a (some ⟨sv, nx⟩),
                   sizes := Function.update w.sizes a (some ns.length) }, ?_, ?_, ?_⟩
  · simp [swap, bind_apply, M.bind, load, storeNext, loadSize, storeSize, hc, ha.size,
      Function.update]
  · refine ⟨⟨sv, nx, by simp [Function.update], Lseg_update hnd.1 hs⟩, ha.nodup,
      by simp [Function.update], ?_⟩
    intro x hx
    have hxa : x ≠ a := by
      intro h; subst h
      have := ha.lt_brk x (by simp)
      simp only at hx; omega
    simp only [Function.update, hxa, dite_false]
    exact ha.alloc x hx
  · refine ⟨Nat.le_refl _, ?_, ?_⟩
    · intro x _ hx
      have : x ≠ a := by simpa using hx
      simp [Function.update, this]
    · intro x _ hx
      have : x ≠ a := by simpa using hx
      simp [Function.update, this]

theorem Inv_swap {w w2 : World σ α} {L : List Nat} {a b : Nat} (hI : Inv w L) (ha : a ∈ L)
    (hb : b ∈ L) (hrun : swap a b w = .ret w2 ()) : Inv w2 L := by
  obtain ⟨hal, F, hF, hD⟩ := hI
  by_cases hab : a = b
  · subst hab
    obtain ⟨w3, hrun3, hv3, hfr3⟩ := swap_self_spec (hF a ha)
    rw [hrun3] at hrun
    injection hrun with hw _
    subst hw
    exact Inv_modify hF hD ha hv3 (hfr3.mono (by simp)) (fun x hx => Or.inl hx)
  · obtain ⟨w3, hrun3, hva, hvb, hfr3, _, hbrk⟩ := swap_spec (hF a ha) (hF b hb) (hD a ha b hb hab)
    rw [hrun3] at hrun
    injection hrun with hw _
    subst hw
    have hba : b ≠ a := fun h => hab h.symm
    refine ⟨hva.alloc, Function.update (Function.update F a (F b)) b (F a), ?_, ?_⟩
    · intro k hk
      by_cases hkb : k = b
      · subst hkb
        simpa [Function.update] using hvb
      · by_cases hka : k = a
        · subst hka
          simpa [Function.update, hkb] using hva
        · simp only [Function.update, hkb, hka, dite_false]
          refine (hF k hk).frame hfr3 ?_ hva.alloc
          intro x hx hxs
          simp only [List.mem_cons, List.mem_singleton, List.not_mem_nil, or_false] at hxs
          rcases hxs with h | h
          · exact hD k hk a ha hka x hx (by simp [h])
          · exact hD k hk b hb hkb x hx (by simp [h])
    · have hnda := (hF a ha).nodup
      have hndb := (hF b hb).nodup
      simp only [List.nodup_cons] at hnda hndb
      -- the footprint of every list after the swap, in terms of the old footprints
      have key : ∀ k ∈ L, ∀ x ∈ k :: (Function.update (Function.update F a (F b)) b (F a) k).map
          Prod.fst, (k = a ∧ (x = a ∨ x ∈ (F b).map Prod.fst)) ∨
            (k = b ∧ (x = b ∨ x ∈ (F a).map Prod.fst)) ∨
            (k ≠ a ∧ k ≠ b ∧ x ∈ k :: (F k).map Prod.fst) := by
        intro k hk x hx
        by_cases hkb : k = b
        · subst hkb
          simp only [Function.update, dite_true, List.mem_cons] at hx
          exact Or.inr (Or.inl ⟨rfl, hx⟩)
        · by_cases hka : k = a
          · subst hka
            simp only [Function.update, hkb, dite_false, dite_true, List.mem_cons] at hx
            exact Or.inl ⟨rfl, hx⟩
          · simp only [Function.update, hkb, hka, dite_false] at hx
            exact Or.inr (Or.inr ⟨hka, hkb, hx⟩)
      intro k1 hk1 k2 hk2 hne x hx hxk
      rcases key k1 hk1 x hx with ⟨h1, hx1⟩ | ⟨h1, hx1⟩ | ⟨h1a, h1b, hx1⟩ <;>
        rcases key k2 hk2 x hxk with ⟨h2, hx2⟩ | ⟨h2, hx2⟩ | ⟨h2a, h2b, hx2⟩
      · exact hne (h1.trans h2.symm)
      · rcases hx1 with hx1 | hx1
        · rcases hx2 with hx2 | hx2
          · exact hab (hx1.symm.trans hx2)
          · exact hnda.1 (hx1 ▸ hx2)
        · rcases hx2 with hx2 | hx2
          · exact hndb.1 (hx2 ▸ hx1)
          · exact hD a ha b hb hab x (by simp [hx2]) (by simp [hx1])
      · rcases hx1 with hx1 | hx1
        · exact hD k2 hk2 a ha h2a x hx2 (by simp [hx1])
        · exact hD k2 hk2 b hb h2b x hx2 (by simp [hx1])
      · rcases hx1 with hx1 | hx1
        · rcases hx2 with hx2 | hx2
          · exact hab (hx2.symm.trans hx1)
          · exact hndb.1 (hx1 ▸ hx2)
        · rcases hx2 with hx2 | hx2
          · exact hnda.1 (hx2 ▸ hx1)
          · exact hD a ha b hb hab x (by simp [hx1]) (by simp [hx2])
      · exact hne (h1.trans h2.symm)
      · rcases hx1 with hx1 | hx1
        · exact hD k2 hk2 b hb h2b x hx2 (by simp [hx1])
        · exact hD k2 hk2 a ha h2a x hx2 (by simp [hx1])
      · rcases hx2 with hx2 | hx2
        · exact hD k1 hk1 a ha h1a x hx1 (by simp [hx2])
        · exact hD k1 hk1 b hb h1b x hx1 (by simp [hx2])
      · rcases hx2 with hx2 | hx2
        · exact hD k1 hk1 b hb h1b x hx1 (by simp [hx2])
        · exact hD k1 hk1 a ha h1a x hx1 (by simp [hx2])
      · exact hD k1 hk1 k2 hk2 hne x hx1 hx2

theorem Fueled.lt {w : World σ α} {l fuel : Nat} {ns : List (Nat × α)} (hf : Fueled w l fuel)
    (hv : Valid w l ns) : ns.length < fuel := by
  obtain ⟨n, hg, hn⟩ := hf
  rw [GetSize_valid hv] at hg
  injection hg with _ h
  omega

theorem core_addrs_insert {l a b : Nat} {sv x v : α} {ns ns2 A post : List (Nat × α)}
    (hE : (l, sv) :: ns = A ++ (a, x) :: post)
    (hE2 : (l, sv) :: ns2 = A ++ (a, x) :: (b, v) :: post) :
    (a ∈ l :: ns.map Prod.fst) ∧ ∀ c ∈ ns2.map Prod.fst, c ∈ ns.map Prod.fst ∨ c = b := by
  cases A with
  | nil =>
    simp only [List.nil_append, List.cons.injEq, Prod.mk.injEq] at hE hE2
    obtain ⟨⟨h1, _⟩, h2⟩ := hE
    obtain ⟨_, h3⟩ := hE2
    subst h1 h2 h3
    refine ⟨by simp, ?_⟩
    intro c hc
    simp only [List.map_cons, List.mem_cons] at hc
    rcases hc with hc | hc
    · exact Or.inr hc
    · exact Or.inl hc
  | cons n A2 =>
    simp only [List.cons_append, List.cons.injEq] at hE hE2
    obtain ⟨_, h2⟩ := hE
    obtain ⟨_, h3⟩ := hE2
    subst h2 h3
    refine ⟨by simp, ?_⟩
    intro c hc
    simp only [List.map_append, List.map_cons, List.mem_append, List.mem_cons] at hc ⊢
    tauto

theorem core_addrs_erase {l a b : Nat} {sv x y : α} {ns ns2 A post : List (Nat × α)}
    (hE : (l, sv) :: ns = A ++ (a, x) :: (b, y) :: post)
    (hE2 : (l, sv) :: ns2 = A ++ (a, x) :: post) :
    ∀ c ∈ ns2.map Prod.fst, c ∈ ns.map Prod.fst := by
  cases A with
  | nil =>
    simp only [List.nil_append, List.cons.injEq] at hE hE2
    obtain ⟨_, h2⟩ := hE
    obtain ⟨_, h3⟩ := hE2
    subst h2 h3
    intro c hc
    simp [hc]
  | cons n A2 =>
    simp only [List.cons_append, List.cons.injEq] at hE hE2
    obtain ⟨_, h2⟩ := hE
    obtain ⟨_, h3⟩ := hE2
    subst h2 h3
    intro c hc
    simp only [List.map_append, List.map_cons, List.mem_append, List.mem_cons] at hc ⊢
    tauto

theorem Step.preserves [Inhabited α] {cp : CopyCtor σ α} {w w2 : World σ α} {L L2 : List Nat}
    (hs : Step cp (w, L) (w2, L2)) (hI : Inv w L) : Inv w2 L2 := by
  cases hs with
  | default_ctor hrun =>
    obtain ⟨hal, _⟩ := id hI
    obtain ⟨w3, hrun3, hv3, hfr3, _, _⟩ := default_ctor_spec (α := α) hal
    rw [hrun3] at hrun
    injection hrun with hw hl
    subst hw hl
    exact Inv_add hI hfr3 hv3 (by simp)
  | init_list fuel junk vals hf hrun =>
    obtain ⟨hal, _⟩ := id hI
    by_cases hsz : toInt32 (vals.length : Int) = -2147483648
    · rw [init_list_ctor_fault cp fuel junk vals _ hsz] at hrun
      cases hrun
    · obtain ⟨w3, hal3, hfr3, hres⟩ := init_list_ctor_spec cp vals fuel junk hal hsz hf
      rcases hres with ⟨hrun3, ms, hv, _, hfresh, _⟩ | ⟨hrun3, _⟩
      · rw [hrun3] at hrun
        injection hrun with hw hl
        subst hw hl
        exact Inv_add hI hfr3 hv hfresh
      · rw [hrun3] at hrun
        cases hrun
  | init_list_threw fuel junk vals hf hrun =>
    obtain ⟨hal, _⟩ := id hI
    by_cases hsz : toInt32 (vals.length : Int) = -2147483648
    · rw [init_list_ctor_fault cp fuel junk vals _ hsz] at hrun
      cases hrun
    · obtain ⟨w3, hal3, hfr3, hres⟩ := init_list_ctor_spec cp vals fuel junk hal hsz hf
      rcases hres with ⟨hrun3, _⟩ | ⟨hrun3, _⟩
      · rw [hrun3] at hrun
        cases hrun
      · rw [hrun3] at hrun
        injection hrun with hw
        subst hw
        exact Inv_keep hI hal3 hfr3
  | copy fuel junk other ho hfu hrun =>
    obtain ⟨hal, F, hF, hD⟩ := id hI
    have hf := hfu.lt (hF other ho)
    by_cases hsz : toInt32 ((F other).length : Int) = -2147483648
    · rw [copy_ctor_fault (hF other ho) hf hsz] at hrun
      cases hrun
    · obtain ⟨w3, hal3, hfr3, _, hres⟩ :=
        copy_ctor_spec cp fuel junk (hF other ho) hsz hf
      rcases hres with ⟨hrun3, ms, hv, _, hfresh, _⟩ | ⟨hrun3, _⟩
      · rw [hrun3] at hrun
        injection hrun with hw hl
        subst hw hl
        exact Inv_add hI hfr3 hv hfresh
      · rw [hrun3] at hrun
        cases hrun
  | copy_threw fuel junk other ho hfu hrun =>
    obtain ⟨hal, F, hF, hD⟩ := id hI
    have hf := hfu.lt (hF other ho)
    by_cases hsz : toInt32 ((F other).length : Int) = -2147483648
    · rw [copy_ctor_fault (hF other ho) hf hsz] at hrun
      cases hrun
    · obtain ⟨w3, hal3, hfr3, _, hres⟩ :=
        copy_ctor_spec cp fuel junk (hF other ho) hsz hf
      rcases hres with ⟨hrun3, _⟩ | ⟨hrun3, _⟩
      · rw [hrun3] at hrun
        cases hrun
      · rw [hrun3] at hrun
        injection hrun with hw
        subst hw
        exact Inv_keep hI hal3 hfr3
  | push l v hl hrun =>
    obtain ⟨hal, F, hF, hD⟩ := id hI
    rcases hcp : cp w.env v with ⟨e, _ | v2⟩
    · obtain ⟨sv, nx, hcell, _⟩ := (hF l hl).head
      rw [PushFront_threw hcell hcp] at hrun
      cases hrun
    · obtain ⟨w3, hrun3, hv3, hfr3, _, _⟩ := PushFront_spec (hF l hl) hcp
      rw [hrun3] at hrun
      injection hrun with hw _
      subst hw
      refine Inv_modify hF hD hl hv3 (hfr3.mono (by simp)) ?_
      intro a ha
      simp only [List.map_cons, List.mem_cons] at ha
      rcases ha with ha | ha
      · exact Or.inr (Nat.le_of_eq ha.symm)
      · exact Or.inl ha
  | push_threw l v hl hrun =>
    obtain ⟨hal, F, hF, hD⟩ := id hI
    rcases hcp : cp w.env v with ⟨e, _ | v2⟩
    · obtain ⟨sv, nx, hcell, _⟩ := (hF l hl).head
      rw [PushFront_threw hcell hcp] at hrun
      injection hrun with hw
      subst hw
      exact Inv_keep hI hal ⟨Nat.le_refl _, fun _ _ _ => rfl, fun _ _ _ => rfl⟩
    · obtain ⟨w3, hrun3, _⟩ := PushFront_spec (hF l hl) hcp
      rw [hrun3] at hrun
      cases hrun
  | pop l hl hne hrun =>
    obtain ⟨hal, F, hF, hD⟩ := id hI
    have hv := hF l hl
    rw [IsEmpty_valid hv] at hne
    injection hne with _ hdec
    cases hns : F l with
    | nil => simp [hns] at hdec
    | cons n rest =>
      rw [hns] at hv
      obtain ⟨w3, hrun3, hv3, hfr3, _, _⟩ := PopFront_spec (b := n.1) (y := n.2) hv
      rw [hrun3] at hrun
      injection hrun with hw _
      subst hw
      refine Inv_modify hF hD hl hv3 (by rw [hns]; exact hfr3) ?_
      intro a ha
      rw [hns]
      exact Or.inl (by simp [ha])
  | insert l pos it v hl hpos hrun =>
    obtain ⟨hal, F, hF, hD⟩ := id hI
    have hv := hF l hl
    obtain ⟨sv, hch⟩ := hv.chain
    obtain ⟨A, a, x, post, hE, hp⟩ := hpos.split_pos hch
    subst hp
    rcases hcp : cp w.env v with ⟨e, _ | v2⟩
    · have hcell : w.cells a = some ⟨x, hd post⟩ := Lseg_cell (hE ▸ hch)
      rw [InsertAfter_threw hcell hcp] at hrun
      cases hrun
    · obtain ⟨w3, ns2, hrun3, hE2, hv3, hfr3, _⟩ := InsertAfter_core hv hch hE hcp
      rw [hrun3] at hrun
      injection hrun with hw _
      subst hw
      have hadr := core_addrs_insert hE hE2
      refine Inv_modify hF hD hl hv3 (hfr3.mono ?_) ?_
      · intro c hc
        simp only [List.mem_cons, List.mem_singleton, List.not_mem_nil, or_false] at hc
        rcases hc with hc | hc
        · simp [hc]
        · exact hc ▸ hadr.1
      · intro c hc
        rcases hadr.2 c hc with h | h
        · exact Or.inl h
        · exact Or.inr (Nat.le_of_eq h.symm)
  | insert_threw l pos v hl hpos hrun =>
    obtain ⟨hal, F, hF, hD⟩ := id hI
    have hv := hF l hl
    obtain ⟨sv, hch⟩ := hv.chain
    obtain ⟨A, a, x, post, hE, hp⟩ := hpos.split_pos hch
    subst hp
    rcases hcp : cp w.env v with ⟨e, _ | v2⟩
    · have hcell : w.cells a = some ⟨x, hd post⟩ := Lseg_cell (hE ▸ hch)
      rw [InsertAfter_threw hcell hcp] at hrun
      injection hrun with hw
      subst hw
      exact Inv_keep hI hal ⟨Nat.le_refl _, fun _ _ _ => rfl, fun _ _ _ => rfl⟩
    · obtain ⟨w3, ns2, hrun3, _⟩ := InsertAfter_core hv hch hE hcp
      rw [hrun3] at hrun
      cases hrun
  | erase l pos it hl hpos hrun =>
    obtain ⟨hal, F, hF, hD⟩ := id hI
    have hv := hF l hl
    obtain ⟨sv, hch⟩ := hv.chain
    obtain ⟨A, a, x, b, y, post, hE, hp⟩ := hpos.split_next hch
    subst hp
    obtain ⟨w3, ns2, hrun3, hE2, hv3, hfr3, _, _⟩ := EraseAfter_core hv hch hE
    rw [hrun3] at hrun
    injection hrun with hw _
    subst hw
    exact Inv_modify hF hD hl hv3 hfr3 (fun c hc => Or.inl (core_addrs_erase hE hE2 c hc))
  | clear fuel l hl hfu hrun =>
    obtain ⟨hal, F, hF, hD⟩ := id hI
    obtain ⟨w3, hrun3, hv3, hfr3, _, _⟩ := Clear_spec (hF l hl) (hfu.lt (hF l hl))
    rw [hrun3] at hrun
    injection hrun with hw _
    subst hw
    exact Inv_modify hF hD hl hv3 hfr3 (by simp)
  | swap a b ha hb hrun => exact Inv_swap hI ha hb hrun
  | assign fuel junk a b ha hb hfa hfb hrun =>
    obtain ⟨hal, F, hF, hD⟩ := id hI
    by_cases hab : a = b
    · subst hab
      rw [assign_self] at hrun
      injection hrun with hw _
      subst hw
      exact hI
    · have hf := hfb.lt (hF b hb)
      by_cases hsz : toInt32 ((F b).length : Int) = -2147483648
      · rw [assign_fault (hF b hb) hab hf hsz] at hrun
        cases hrun
      · obtain ⟨w3, hal3, hfr3, _, hres⟩ := assign_spec cp fuel junk (hF a ha)
          (hF b hb) (hD a ha b hb hab) hsz hf (hfa.lt (hF a ha))
        rcases hres with ⟨hrun3, ms, hv, _, hfresh, _⟩ | ⟨hrun3, _⟩
        · rw [hrun3] at hrun
          injection hrun with hw _
          subst hw
          exact Inv_modify hF hD ha hv hfr3 (fun c hc => Or.inr (Nat.le_of_lt (hfresh c hc)))
        · rw [hrun3] at hrun
          cases hrun
  | assign_threw fuel junk a b ha hb hfa hfb hrun =>
    obtain ⟨hal, F, hF, hD⟩ := id hI
    by_cases hab : a = b
    · subst hab
      rw [assign_self] at hrun
      cases hrun
    · have hf := hfb.lt (hF b hb)
      by_cases hsz : toInt32 ((F b).length : Int) = -2147483648
      · rw [assign_fault (hF b hb) hab hf hsz] at hrun
        cases hrun
      · obtain ⟨w3, hal3, hfr3, _, hres⟩ := assign_spec cp fuel junk (hF a ha)
          (hF b hb) (hD a ha b hb hab) hsz hf (hfa.lt (hF a ha))
        rcases hres with ⟨hrun3, _⟩ | ⟨hrun3, hv, _⟩
        · rw [hrun3] at hrun
          cases hrun
        · rw [hrun3] at hrun
          injection hrun with hw
          subst hw
          exact Inv_modify hF hD ha hv hfr3 (fun c hc => Or.inl hc)

theorem Reachable.inv [Inhabited α] {cp : CopyCtor σ α} {e : σ} {s : World σ α × List Nat}
    (hr : Reachable cp e s) : Inv s.1 s.2 := by
  induction hr with
  | start => exact ⟨fun _ _ => rfl, fun _ => [], by simp, by simp⟩
  | step _ hs ih => exact Step.preserves hs ih

theorem iterate_short {w : World σ α} {ns : List (Nat × α)} :
    ∀ {p : Option Nat} {fuel : Nat}, Lseg w.cells p ns none → fuel ≤ ns.length →
      iterate end_ fuel ⟨p⟩ w = .fault := by
  induction ns with
  | nil =>
    intro p fuel _ hf
    have : fuel = 0 := by simpa using hf
    subst this
    rfl
  | cons n rest ih =>
    intro p fuel h hf
    obtain ⟨hp, nx, hc, hr⟩ := h
    subst hp
    cases fuel with
    | zero => rfl
    | succ f =>
      have hf2 : f ≤ rest.length := by simp at hf; omega
      simp [iterate, bind_apply, M.bind, deref_some hc, incr_some hc, ih hr hf2]

theorem pushedWorld_reachable : Reachable plainCopy () (pushedWorld, [0]) :=
  Reachable.step (Reachable.step Reachable.start (Step.default_ctor rfl))
    (Step.push 0 5 (List.mem_singleton.mpr rfl) rfl)

/-- C2: in every state reachable from the empty memory by constructing lists
(default, from values, by copy) and applying in-contract operations to them
(PushFront, PopFront on a non-empty list, InsertAfter at a valid position,
EraseAfter at a position with a successor, Clear, swap, copy-assignment,
including the operations that throw because an element copy failed), every
live list satisfies: `GetSize()` returns, iterating from `begin()` to `end()`
returns and yields exactly `GetSize()` elements, and `IsEmpty()` is true
exactly when that number is `0`. -/
theorem C2_size_matches_iteration [Inhabited α] (cp : CopyCtor σ α) (e : σ) (w : World σ α)
    (L : List Nat) (l : Nat) (hr : Reachable cp e (w, L)) (hl : l ∈ L) :
    ((do
        let n ← GetSize l
        let xs ← toList (n + 1) l
        let empty ← IsEmpty l
        pure (decide (xs.length = n), decide (empty = true ↔ xs.length = 0))) w).val?
      = some (true, true) ∧
    ∀ (fuel n : Nat) (xs : List α) (w2 w3 : World σ α),
      GetSize l w = .ret w2 n → toList fuel l w = .ret w3 xs → xs.length = n := by
  obtain ⟨_, F, hF, _⟩ := hr.inv
  have hv : Valid w l (F l) := hF l hl
  constructor
  · rw [bind_ret (GetSize_valid hv), bind_ret (toList_valid hv (Nat.lt_succ_self _)),
      bind_ret (IsEmpty_valid hv)]
    simp [Res.val?]
  · intro fuel n xs w2 w3 hg ht
    rw [GetSize_valid hv] at hg
    injection hg with _ hn
    subst hn
    by_cases hf : (F l).length < fuel
    · rw [toList_valid hv hf] at ht
      injection ht with _ hxs
      subst hxs
      simp
    · have hlen : fuel ≤ (F l).length := Nat.le_of_not_lt hf
      obtain ⟨_, nx, hc, hs⟩ := hv.head
      rw [toList, bind_ret (begin_valid hv), ← Lseg_hd hs, iterate_short hs hlen] at ht
      cases ht

theorem C2_size_matches_iteration_witness :
    Reachable plainCopy () (pushedWorld, [0]) ∧
    ((do
        let n ← GetSize 0
        let xs ← toList (n + 1) 0
        let empty ← IsEmpty 0
        pure (decide (xs.length = n), decide (empty = true ↔ xs.length = 0))) pushedWorld).val?
      = some (true, true) :=
  ⟨pushedWorld_reachable,
    (C2_size_matches_iteration plainCopy () pushedWorld [0] 0 pushedWorld_reachable
      (List.mem_singleton.mpr rfl)).1⟩

/-- Within the range of `int` the copy constructor is right: for a copy
constructor of the elements that copies faithfully and a valid list `other`
of at most `2^31 - 1` elements it returns a new valid list with the same
sequence, sharing no node with `other`, and `other` is unchanged. -/
theorem copy_ctor_correct [Inhabited α] {cp : CopyCtor σ α} {w : World σ α} {other : Nat}
    {ns : List (Nat × α)} {fuel junk : Nat} (hfa : Faithful cp) (ho : Valid w other ns)
    (hn : ns.length < 2147483648) (hf : ns.length < fuel) :
    ∃ w2 ms, copy_ctor cp fuel junk other w = .ret w2 w.brk ∧ Valid w2 other ns ∧
      Valid w2 w.brk ms ∧ ms.map Prod.snd = ns.map Prod.snd ∧ Frame [] w w2 ∧
      (∀ x ∈ other :: ns.map Prod.fst, x ∉ w.brk :: ms.map Prod.fst) := by
  have h32 := toInt32_small hn
  obtain ⟨w2, _, hfr, ho2, hres⟩ := copy_ctor_spec cp fuel junk ho
    (by rw [h32]; omega) hf
  rcases hres with ⟨hrun, ms, hv, hlen, hfresh, hvals⟩ | ⟨_, hnf⟩
  · refine ⟨w2, ms, hrun, ho2, hv, ?_, hfr, ?_⟩
    · rw [h32] at hlen
      rw [hvals.faithful hfa, hlen]
      simp
    · intro x hx h
      have h1 := ho.lt_brk x hx
      simp only [List.mem_cons] at h
      rcases h with h | h
      · omega
      · have := hfresh x h
        omega
  · exact absurd hfa hnf.not_faithful

/-- Two valid lists that share no node are independent: `PushFront`,
`PopFront`, `InsertAfter` (at `before_begin()` or at a node), `EraseAfter` (at
`before_begin()` or at a node) and `Clear` applied to `a` leave `b` valid with
the same nodes. -/
theorem mutation_leaves_other {cp : CopyCtor σ α} {w w2 : World σ α} {a b : Nat}
    {ns ms : List (Nat × α)} (ha : Valid w a ns) (hb : Valid w b ms)
    (hdis : ∀ x ∈ a :: ns.map Prod.fst, x ∉ b :: ms.map Prod.fst) :
    (∀ v, PushFront cp a v w = .ret w2 () → Valid w2 b ms) ∧
    (ns ≠ [] → PopFront a w = .ret w2 () → Valid w2 b ms) ∧
    (∀ pos it v, ValidPos w a pos → InsertAfter cp a pos v w = .ret w2 it → Valid w2 b ms) ∧
    (∀ pos it, HasNext w a pos → EraseAfter a pos w = .ret w2 it → Valid w2 b ms) ∧
    (∀ fuel, ns.length < fuel → Clear fuel a w = .ret w2 () → Valid w2 b ms) := by
  have hnot : ∀ x ∈ b :: ms.map Prod.fst, x ∉ a :: ns.map Prod.fst :=
    fun x hx h => hdis x h hx
  refine ⟨?_, ?_, ?_, ?_, ?_⟩
  · intro v hrun
    rcases hcp : cp w.env v with ⟨e, _ | v2⟩
    · obtain ⟨sv, nx, hcell, _⟩ := ha.head
      rw [PushFront_threw hcell hcp] at hrun
      cases hrun
    · obtain ⟨w3, hrun3, hv3, hfr3, _, _⟩ := PushFront_spec ha hcp
      rw [hrun3] at hrun
      injection hrun with hw _
      subst hw
      exact hb.frame (hfr3.mono (by simp)) hnot hv3.alloc
  · intro hne hrun
    cases ns with
    | nil => exact absurd rfl hne
    | cons n rest =>
      obtain ⟨w3, hrun3, hv3, hfr3, _, _⟩ := PopFront_spec (b := n.1) (y := n.2) ha
      rw [hrun3] at hrun
      injection hrun with hw _
      subst hw
      exact hb.frame hfr3 hnot hv3.alloc
  · intro pos it v hpos hrun
    obtain ⟨sv, hch⟩ := ha.chain
    obtain ⟨A, p, x, post, hE, hp⟩ := hpos.split_pos hch
    subst hp
    rcases hcp : cp w.env v with ⟨e, _ | v2⟩
    · have hcell : w.cells p = some ⟨x, hd post⟩ := Lseg_cell (hE ▸ hch)
      rw [InsertAfter_threw hcell hcp] at hrun
      cases hrun
    · obtain ⟨w3, ns2, hrun3, hE2, hv3, hfr3, _⟩ := InsertAfter_core ha hch hE hcp
      rw [hrun3] at hrun
      injection hrun with hw _
      subst hw
      have hadr := core_addrs_insert hE hE2
      refine hb.frame (hfr3.mono ?_) hnot hv3.alloc
      intro c hc
      simp only [List.mem_cons, List.mem_singleton, List.not_mem_nil, or_false] at hc
      rcases hc with hc | hc
      · simp [hc]
      · exact hc ▸ hadr.1
  · intro pos it hpos hrun
    obtain ⟨sv, hch⟩ := ha.chain
    obtain ⟨A, p, x, q, y, post, hE, hp⟩ := hpos.split_next hch
    subst hp
    obtain ⟨w3, ns2, hrun3, _, hv3, hfr3, _, _⟩ := EraseAfter_core ha hch hE
    rw [hrun3] at hrun
    injection hrun with hw _
    subst hw
    exact hb.frame hfr3 hnot hv3.alloc
  · intro fuel hf hrun
    obtain ⟨w3, hrun3, hv3, hfr3, _, _⟩ := Clear_spec ha hf
    rw [hrun3] at hrun
    injection hrun with hw _
    subst hw
    exact hb.frame hfr3 hnot hv3.alloc

theorem seqEqual_nil_right [BEq α] {xs : List α} (h : xs.length ≠ 0) :
    seqEqual xs [] = false := by
  cases xs with
  | nil => simp at h
  | cons x xs => exact seqEqual_cons_nil x xs

theorem copy_ctor_truncates_of_length (vals : List Nat) (hlen : vals.length = 2147483649) :
    ((do
        let b ← copy_ctor plainCopy 2147483650 0 0
        let seen ← observe 1 b
        let same ← op_eq 2147483650 0 b
        pure (seen, same)) (listWorld () vals : World Unit Nat)).val?
      = some (([], 0), false) := by
  have hv := listWorld_valid (σ := Unit) () vals
  have hlen2 : (nodesFrom 1 vals).length = 2147483649 := by
    rw [nodesFrom_length, hlen]
  have h32 : toInt32 ((nodesFrom 1 vals).length : Int) = -2147483647 := by
    rw [hlen2]
    unfold toInt32
    omega
  obtain ⟨w2, _, _, ho2, hres⟩ := copy_ctor_spec (plainCopy : CopyCtor Unit Nat)
    2147483650 0 hv (by rw [h32]; omega) (by rw [hlen2]; omega)
  rcases hres with ⟨hrun, ms, hvb, hl, _, _⟩ | ⟨_, hnf⟩
  · rw [h32] at hl
    have hms : ms = [] := List.length_eq_zero.mp (by simpa using hl)
    subst hms
    have hne : seqEqual ((nodesFrom 1 vals).map Prod.snd) (([] : List (Nat × Nat)).map Prod.snd)
        = false := seqEqual_nil_right (by rw [List.length_map, hlen2]; omega)
    rw [bind_ret hrun, bind_ret (observe_valid hvb (by simp)),
      bind_ret (op_eq_valid ho2 hvb (by rw [hlen2]; omega)), hne]
    rfl
  · exact absurd plainCopy_faithful hnf.not_faithful

/-- C10 (failing input): copy-constructing from a valid list of `2^31 + 1`
elements returns a list whose iteration yields nothing and whose `GetSize()`
is `0`, and the source does not compare equal to its copy: `static_cast<int>`
in `InitializeByIterators` turns the distance into a negative `size`, so the
loop that copies the elements never runs. -/
theorem C10_copy_ctor_truncates :
    ((do
        let b ← copy_ctor plainCopy 2147483650 0 0
        let seen ← observe 1 b
        let same ← op_eq 2147483650 0 b
        pure (seen, same))
      (listWorld () (List.replicate 2147483649 (7 : Nat)) : World Unit Nat)).val?
      = some (([], 0), false) :=
  copy_ctor_truncates_of_length _ (List.length_replicate _ _)

/-- C11: strong guarantee of copy-assignment `lhs = rhs` for two valid lists
that share no node.  Whenever the assignment throws, `lhs` shows exactly the
sequence and size it had before.  It does throw when one of the element
copies made by `InitializeByIterators` throws (`CopyFails`).  And
self-assignment returns without changing anything. -/
theorem C11_assign_strong_guarantee [Inhabited α] (cp : CopyCtor σ α) (w : World σ α)
    (lhs rhs : Nat) (ss ns : List (Nat × α)) (fuel junk : Nat)
    (hs : Valid w lhs ss) (hr : Valid w rhs ns)
    (hdis : ∀ x ∈ lhs :: ss.map Prod.fst, x ∉ rhs :: ns.map Prod.fst)
    (hf : ns.length < fuel) (hf2 : ss.length < fuel) :
    (∀ w2, assign cp fuel junk lhs rhs w = .threw w2 →
      observe fuel lhs w2 = .ret w2 (ss.map Prod.snd, ss.length)) ∧
    (CopyFails cp w.env (ns.map Prod.snd) (toInt32 (ns.length : Int)).toNat →
      ((do
          let r ← tryCatch (assign cp fuel junk lhs rhs)
          let seen ← observe fuel lhs
          pure (r.isSome, seen)) w).val? = some (false, (ss.map Prod.snd, ss.length))) ∧
    assign cp fuel junk lhs lhs w = .ret w () ∧
    ((do
        assign cp fuel junk lhs lhs
        observe fuel lhs) w).val? = some (ss.map Prod.snd, ss.length) := by
  have hne : lhs ≠ rhs := fun h => hdis lhs (by simp) (by simp [h])
  refine ⟨?_, ?_, assign_self cp fuel junk lhs w, ?_⟩
  · intro w2 hrun
    by_cases hsz : toInt32 (ns.length : Int) = -2147483648
    · rw [assign_fault hr hne hf hsz] at hrun
      cases hrun
    · obtain ⟨w3, _, _, _, hres⟩ := assign_spec cp fuel junk hs hr hdis hsz hf hf2
      rcases hres with ⟨hrun3, _⟩ | ⟨hrun3, hv, _⟩
      · rw [hrun3] at hrun
        cases hrun
      · rw [hrun3] at hrun
        have hw : w3 = w2 := Res.threw.inj hrun
        subst hw
        exact observe_valid hv hf2
  · intro hfail
    by_cases hsz : toInt32 (ns.length : Int) = -2147483648
    · have h0 : (toInt32 (ns.length : Int)).toNat = 0 := by omega
      rw [h0] at hfail
      simp [CopyFails, copyAll] at hfail
    · obtain ⟨w3, _, _, _, hres⟩ := assign_spec cp fuel junk hs hr hdis hsz hf hf2
      rcases hres with ⟨_, ms, _, hlen, _, hok⟩ | ⟨hrun3, hv, _⟩
      · rw [hlen] at hok
        unfold Copied at hok
        unfold CopyFails at hfail
        rw [hfail] at hok
        cases hok
      · rw [bind_ret (tryCatch_threw hrun3), bind_ret (observe_valid hv hf2)]
        rfl
  · rw [bind_ret (assign_self cp fuel junk lhs w), observe_valid hs hf2]
    rfl

theorem C11_assign_strong_guarantee_witness :
    ((do
        let b ← init_list_ctor plainCopy 9 0 [1, 2, 4]
        let r ← tryCatch (assign neverCopy 9 0 0 b)
        let seen ← observe 9 0
        pure (r.isSome, seen)) (listWorld () [1, 2, 3] : World Unit Nat)).val?
      = some (false, ([1, 2, 3], 3)) := by
  obtain ⟨w2, ms, hrun, h1, h2, hv, hdis⟩ :=
    second_list (σ := Unit) () [1, 2, 3] [1, 2, 4] 9 0 (by decide) (by decide)
  have hlen : ms.length = 3 := by
    have := congrArg List.length hv
    simpa using this
  rw [bind_ret hrun]
  refine (C11_assign_strong_guarantee neverCopy w2 0 _ _ ms 9 0 h1 h2 hdis
    (by rw [hlen]; decide) (by decide)).2.1 ?_
  rw [hv, hlen]
  rfl

/-- C12: `a.swap(b)` and the free `swap(a, b)` on two valid lists that share
no node: afterwards `a` has exactly the nodes (hence the sequence) and the
size `b` had and `b` those of `a`; the nodes themselves are untouched.
Swapping a list with itself changes nothing. -/
theorem C12_swap_exchanges (w : World σ α) (a b : Nat) (ns ms : List (Nat × α)) (fuel : Nat)
    (ha : Valid w a ns) (hb : Valid w b ms)
    (hdis : ∀ x ∈ a :: ns.map Prod.fst, x ∉ b :: ms.map Prod.fst)
    (hf : ns.length < fuel) (hf2 : ms.length < fuel) :
    ((do
        swap a b
        let x ← observe fuel a
        let y ← observe fuel b
        pure (x, y)) w).val?
      = some ((ms.map Prod.snd, ms.length), (ns.map Prod.snd, ns.length)) ∧
    ((do
        swap_free a b
        let x ← observe fuel a
        let y ← observe fuel b
        pure (x, y)) w).val?
      = some ((ms.map Prod.snd, ms.length), (ns.map Prod.snd, ns.length)) ∧
    (∃ w2, swap a b w = .ret w2 () ∧ Valid w2 a ms ∧ Valid w2 b ns ∧ Frame [a, b] w w2) ∧
    ((do
        swap a a
        observe fuel a) w).val? = some (ns.map Prod.snd, ns.length) := by
  obtain ⟨w2, hrun, hva, hvb, hfr, _, _⟩ := swap_spec ha hb hdis
  obtain ⟨w3, hrun3, hv3, _⟩ := swap_self_spec ha
  refine ⟨?_, ?_, ⟨w2, hrun, hva, hvb, hfr⟩, ?_⟩
  · rw [bind_ret hrun, bind_ret (observe_valid hva hf2), bind_ret (observe_valid hvb hf)]
    rfl
  · rw [bind_ret (show swap_free a b w = .ret w2 () from hrun),
      bind_ret (observe_valid hva hf2), bind_ret (observe_valid hvb hf)]
    rfl
  · rw [bind_ret hrun3, observe_valid hv3 hf]
    rfl

theorem C12_swap_exchanges_witness :
    ((do
        swap 0 5
        let x ← observe 9 0
        let y ← observe 9 5
        pure (x, y)) demoWorld).val? = some (([1, 2, 4, 8], 4), ([1, 2, 3], 3)) :=
  (C12_swap_exchanges demoWorld 0 5 _ _ 9 demoWorld_valid_a demoWorld_valid_b (by decide)
    (by decide) (by decide)).1

theorem ClearLoop_short {l : Nat} {sv : α} {ns : List (Nat × α)} :
    ∀ {w : World σ α} {fuel : Nat}, w.cells l = some ⟨sv, hd ns⟩ → Lseg w.cells (hd ns) ns none →
      (l :: ns.map Prod.fst).Nodup → fuel ≤ ns.length → ClearLoop l fuel w = .fault := by
  induction ns with
  | nil =>
    intro w fuel _ _ _ hf
    have : fuel = 0 := by simpa using hf
    subst this
    rfl
  | cons n rest ih =>
    intro w fuel hc hs hnd hf
    obtain ⟨b, y⟩ := n
    obtain ⟨_, nx, hcb, hr⟩ := hs
    have hnx := Lseg_hd hr
    subst hnx
    simp only [List.map_cons, List.nodup_cons, List.mem_cons, not_or] at hnd
    cases fuel with
    | zero => rfl
    | succ f =>
      have hf2 : f ≤ rest.length := by simp at hf; omega
      have hlb : l ≠ b := hnd.1.1
      have hrec := ih
        (w := ⟨Function.update (Function.update w.cells b none) l (some ⟨sv, hd rest⟩),
          w.sizes, w.brk, w.env⟩)
        (by simp [Function.update]) (Lseg_update hnd.1.2 (Lseg_update hnd.2.1 hr))
        (by simp [hnd.1.2, hnd.2.2]) hf2
      simp only at hcb
      simp [ClearLoop, bind_apply, M.bind, load, deleteNode, storeNext, hc, hcb, hd,
        Function.update, hlb]
      simpa [Function.update, hd] using hrec

/-- C13: on a valid list of `n` elements `Clear()` terminates: its loop makes
exactly `n` removals and one last test (fuel `n + 1` is enough, fuel `n` is
not), every node of the list is released, and afterwards `GetSize()` is `0`,
`IsEmpty()` is true, `begin()` equals `end()` and iteration yields nothing.  A
default-constructed list is in that state from the start. -/
theorem C13_Clear_terminates [Inhabited α] (w : World σ α) (l : Nat) (ns : List (Nat × α))
    (fuel : Nat) (hv : Valid w l ns) (hf : ns.length < fuel) :
    ((do
        Clear fuel l
        let n ← GetSize l
        let e ← IsEmpty l
        let b ← begin_ l
        let xs ← toList 1 l
        pure (n, e, b.eq end_, xs)) w).val? = some (0, true, true, []) ∧
    (∃ w2, Clear fuel l w = .ret w2 () ∧ ∀ a ∈ ns.map Prod.fst, w2.cells a = none) ∧
    Clear ns.length l w = .fault ∧
    ((do
        let k ← default_ctor
        let n ← GetSize k
        let e ← IsEmpty k
        let b ← begin_ k
        let xs ← toList 1 k
        pure (n, e, b.eq end_, xs)) w).val? = some (0, true, true, ([] : List α)) := by
  obtain ⟨sv, nx, hc, hs⟩ := hv.head
  have hnx := Lseg_hd hs
  subst hnx
  obtain ⟨w1, hrun1, _, h2, _, h4, _, _⟩ := ClearLoop_spec hc hs hv.nodup hf
  obtain ⟨w2, hrun, hv2, _, _, _⟩ := Clear_spec hv hf
  refine ⟨?_, ⟨w2, hrun, ?_⟩, ?_, ?_⟩
  · rw [bind_ret hrun, bind_ret (GetSize_valid hv2), bind_ret (IsEmpty_valid hv2),
      bind_ret (begin_valid hv2), bind_ret (toList_valid hv2 (by simp))]
    rfl
  · have hsz : w1.sizes l = some ns.length := by rw [h4]; exact hv.size
    have hw2 : Clear fuel l w
        = .ret { w1 with sizes := Function.update w1.sizes l (some 0) } () := by
      simp [Clear, bind_apply, M.bind, hrun1, storeSize, hsz]
    rw [hw2] at hrun
    injection hrun with hw _
    subst hw
    exact h2
  · unfold Clear
    rw [bind_fault (ClearLoop_short hc hs hv.nodup (Nat.le_refl _))]
  · simp [default_ctor, GetSize, IsEmpty, begin_, toList, iterate, loadSize, load, bind_apply,
      M.bind, Function.update, Res.val?]

theorem C13_Clear_terminates_witness :
    ((do
        Clear 5 0
        let n ← GetSize 0
        let e ← IsEmpty 0
        let b ← begin_ 0
        let xs ← toList 1 0
        pure (n, e, b.eq end_, xs)) (listWorld () [1, 2, 3, 4] : World Unit Nat)).val?
      = some (0, true, true, []) :=
  (C13_Clear_terminates (listWorld () [1, 2, 3, 4]) 0 _ 5 (listWorld_valid () _) (by decide)).1

/-- C14: for every valid list, empty or not, `++before_begin()` equals
`begin()`, `++cbefore_begin()` equals the read-only `begin()`, and
`before_begin()` equals `cbefore_begin()`. -/
theorem C14_before_begin_identity (w : World σ α) (l : Nat) (ns : List (Nat × α))
    (hv : Valid w l ns) :
    ((do
        let i ← (before_begin l).incr
        let b ← begin_ l
        let j ← (cbefore_begin l).incr
        let cb ← cbegin l
        pure (i.eq b, j.eq cb, (before_begin l).eq (cbefore_begin l))) w).val?
      = some (true, true, true) := by
  obtain ⟨sv, nx, hc, _⟩ := hv.head
  have hcb : cbegin l w = .ret w ⟨nx⟩ := by
    simp [cbegin, bind_apply, M.bind, load, hc]
  have hb : begin_ l w = .ret w ⟨nx⟩ := by
    simp [begin_, bind_apply, M.bind, load, hc]
  rw [before_begin, cbefore_begin, bind_ret (incr_some hc), bind_ret hb,
    bind_ret (incr_some hc), bind_ret hcb]
  simp [Res.val?, iter_eq_self]

theorem C14_before_begin_identity_witness :
    ((do
        let i ← (before_begin 0).incr
        let b ← begin_ 0
        let j ← (cbefore_begin 0).incr
        let cb ← cbegin 0
        pure (i.eq b, j.eq cb, (before_begin 0).eq (cbefore_begin 0)))
      (listWorld () [1, 2, 3, 4] : World Unit Nat)).val? = some (true, true, true) ∧
    ((do
        let i ← (before_begin 0).incr
        let b ← begin_ 0
        let j ← (cbefore_begin 0).incr
        let cb ← cbegin 0
        pure (i.eq b, j.eq cb, (before_begin 0).eq (cbefore_begin 0)))
      (listWorld () [] : World Unit Nat)).val? = some (true, true, true) :=
  ⟨C14_before_begin_identity (listWorld () [1, 2, 3, 4]) 0 _ (listWorld_valid () _),
    C14_before_begin_identity (listWorld () ([] : List Nat)) 0 _ (listWorld_valid () _)⟩

/-- C15: on a valid list, `InsertAfter(before_begin(), v)` and `PushFront(v)`
have the same outcome and leave the very same memory (whether the copy of `v`
succeeds or throws), and on a non-empty valid list so do
`EraseAfter(before_begin())` and `PopFront()`; in particular the list shows
the same sequence and size after either. -/
theorem C15_front_needs_no_special_case (cp : CopyCtor σ α) (w : World σ α) (l : Nat)
    (ns : List (Nat × α)) (v : α) (fuel : Nat) (hv : Valid w l ns) :
    discard (InsertAfter cp l (before_begin l) v) w = PushFront cp l v w ∧
    (discard (InsertAfter cp l (before_begin l) v) >>= fun _ => observe fuel l) w
      = (PushFront cp l v >>= fun _ => observe fuel l) w ∧
    (ns ≠ [] →
      discard (EraseAfter l (before_begin l)) w = PopFront l w ∧
      (discard (EraseAfter l (before_begin l)) >>= fun _ => observe fuel l) w
        = (PopFront l >>= fun _ => observe fuel l) w) := by
  obtain ⟨sv, nx, hc, hs⟩ := hv.head
  have hl : l ≠ w.brk := Nat.ne_of_lt (hv.lt_brk l (by simp))
  have h1 : discard (InsertAfter cp l (before_begin l) v) w = PushFront cp l v w := by
    rcases hcp : cp w.env v with ⟨e, _ | v2⟩
    · rw [PushFront_threw hc hcp, discard, before_begin,
        bind_threw (InsertAfter_threw hc hcp)]
    · rw [PushFront_eq hc hv.size hl hcp, discard, before_begin,
        bind_ret (InsertAfter_eq hc hv.size hl hcp)]
      rfl
  refine ⟨h1, ?_, ?_⟩
  · show M.bind _ _ w = M.bind _ _ w
    simp only [M.bind, h1]
  · intro hne
    cases ns with
    | nil => exact absurd rfl hne
    | cons n rest =>
      obtain ⟨hnx, nx2, hcb, _⟩ := hs
      subst hnx
      have hnd := hv.nodup
      simp only [List.map_cons, List.nodup_cons, List.mem_cons, not_or] at hnd
      have hn0 : (n :: rest).length ≠ 0 := by simp
      have h2 : discard (EraseAfter l (before_begin l)) w = PopFront l w := by
        rw [PopFront_eq hc hcb hv.size hn0 hnd.1.1, discard, before_begin,
          bind_ret (EraseAfter_eq hc hcb hv.size hn0 hnd.1.1)]
        rfl
      refine ⟨h2, ?_⟩
      show M.bind _ _ w = M.bind _ _ w
      simp only [M.bind, h2]

theorem C15_front_needs_no_special_case_witness :
    discard (InsertAfter plainCopy 0 (before_begin 0) 7) (listWorld () [1, 2, 3] : World Unit Nat)
      = PushFront plainCopy 0 7 (listWorld () [1, 2, 3]) ∧
    discard (EraseAfter 0 (before_begin 0)) (listWorld () [1, 2, 3] : World Unit Nat)
      = PopFront 0 (listWorld () [1, 2, 3]) :=
  ⟨(C15_front_needs_no_special_case plainCopy (listWorld () [1, 2, 3]) 0 _ 7 9
      (listWorld_valid () _)).1,
    ((C15_front_needs_no_special_case plainCopy (listWorld () [1, 2, 3]) 0 _ 7 9
      (listWorld_valid () _)).2.2 (by decide)).1⟩

theorem EraseAfter_main_eq {w : World σ α} {l a b : Nat} {x y : α} {nx : Option Nat} {n : Nat}
    (hcell : w.cells a = some ⟨x, some b⟩) (hb : w.cells b = some ⟨y, nx⟩)
    (hn : w.sizes l = some n) (hpos : n ≠ 0) (hne : a ≠ b) :
    Main.EraseAfter l ⟨some a⟩ w = .ret
      { w with cells := Function.update (Function.update w.cells b none) a (some ⟨x, nx⟩),
               sizes := Function.update w.sizes l (some (n - 1)) } ⟨nx⟩ := by
  simp [Main.EraseAfter, IsEmpty, bind_apply, M.bind, load, deleteNode, storeNext, loadSize,
    storeSize, hcell, hb, hn, Function.update, hne, hpos]

theorem EraseAfter_last {w : World σ α} {l a : Nat} {x : α} {n : Nat}
    (hcell : w.cells a = some ⟨x, none⟩) (hn : w.sizes l = some n) :
    EraseAfter l ⟨some a⟩ w = .fault := by
  by_cases h0 : n = 0
  · simp [EraseAfter, IsEmpty, assert_, bind_apply, M.bind, loadSize, hn, h0, fault]
  · simp [EraseAfter, IsEmpty, assert_, bind_apply, M.bind, load, loadSize, hcell, hn, h0]

theorem EraseAfter_main_last {w : World σ α} {l a : Nat} {x : α} {n : Nat}
    (hcell : w.cells a = some ⟨x, none⟩) (hn : w.sizes l = some n) (h0 : n ≠ 0) :
    Main.EraseAfter l ⟨some a⟩ w = .fault := by
  simp [Main.EraseAfter, IsEmpty, bind_apply, M.bind, load, loadSize, hcell, hn, h0]

theorem HasNext_of_split {w : World σ α} {l a b : Nat} {x y sv : α}
    {ns A post : List (Nat × α)} (hch : Lseg w.cells (some l) ((l, sv) :: ns) none)
    (hE : (l, sv) :: ns = A ++ (a, x) :: (b, y) :: post) (hp : ValidPos w l ⟨some a⟩) :
    HasNext w l ⟨some a⟩ := by
  rw [hE] at hch
  have hcell := Lseg_cell hch
  exact ⟨hp, ⟨some b⟩, incr_some hcell, by simp⟩

/-- C16: on a valid list and at a valid position `pos`, `EraseAfter(pos)`
returns (it does not trip the `assert` and does not read through a null
pointer) exactly when `pos` has a successor; the same holds for the copy in
main.cpp on a non-empty list.  The guard `!IsEmpty()` alone is not enough: at
the last element of a non-empty list `IsEmpty()` is false, `++pos` is `end()`,
and both versions of `EraseAfter` read the successor of a null pointer. -/
theorem C16_EraseAfter_needs_successor (w : World σ α) (l : Nat) (ns : List (Nat × α))
    (pos : BasicIterator) (hv : Valid w l ns) (hp : ValidPos w l pos) :
    ((EraseAfter l pos w).isRet = true ↔ HasNext w l pos) ∧
    (ns ≠ [] → ((Main.EraseAfter l pos w).isRet = true ↔ HasNext w l pos)) ∧
    (ns ≠ [] → pos.incr w = .ret w end_ →
      IsEmpty l w = .ret w false ∧ EraseAfter l pos w = .fault ∧
        Main.EraseAfter l pos w = .fault) := by
  obtain ⟨sv, hch⟩ := hv.chain
  obtain ⟨A, a, x, post, hE, hpos⟩ := hp.split_pos hch
  subst hpos
  have hcell : w.cells a = some ⟨x, hd post⟩ := Lseg_cell (hE ▸ hch)
  have hnd : a ∉ post.map Prod.fst := by
    have h1 := hv.nodup
    have h2 : l :: ns.map Prod.fst = (A ++ (a, x) :: post).map Prod.fst := by
      have := congrArg (List.map Prod.fst) hE
      simpa using this
    rw [h2] at h1
    simp only [List.map_append, List.map_cons, List.nodup_append, List.nodup_cons] at h1
    exact h1.2.1.1
  cases post with
  | nil =>
    have hlast : w.cells a = some ⟨x, none⟩ := hcell
    have hno : ¬ HasNext w l ⟨some a⟩ := by
      rintro ⟨_, nxt, hincr, hne⟩
      rw [incr_some hlast] at hincr
      injection hincr with _ hn
      subst hn
      simp at hne
    have he : EraseAfter l ⟨some a⟩ w = .fault := EraseAfter_last hlast hv.size
    refine ⟨?_, ?_, ?_⟩
    · rw [he]
      simp [Res.isRet, hno]
    · intro hne
      have h0 : ns.length ≠ 0 := fun h => hne (List.length_eq_zero.mp h)
      rw [EraseAfter_main_last hlast hv.size h0]
      simp [Res.isRet, hno]
    · intro hne _
      have h0 : ns.length ≠ 0 := fun h => hne (List.length_eq_zero.mp h)
      refine ⟨?_, he, EraseAfter_main_last hlast hv.size h0⟩
      rw [IsEmpty_valid hv]
      simp [h0]
  | cons m post2 =>
    obtain ⟨b, y⟩ := m
    have hyes : HasNext w l ⟨some a⟩ := HasNext_of_split hch hE hp
    have hcb : w.cells b = some ⟨y, hd post2⟩ := by
      have h3 : Lseg w.cells (some l) ((A ++ [(a, x)]) ++ (b, y) :: post2) none := by
        rw [List.append_assoc]
        exact hE ▸ hch
      exact Lseg_cell h3
    have hab : a ≠ b := by
      intro h
      exact hnd (by simp [h])
    have h0 : ns.length ≠ 0 := by
      have := congrArg List.length hE
      simp at this
      omega
    refine ⟨?_, ?_, ?_⟩
    · rw [EraseAfter_eq hcell hcb hv.size h0 hab]
      simp [Res.isRet, hyes]
    · intro _
      rw [EraseAfter_main_eq hcell hcb hv.size h0 hab]
      simp [Res.isRet, hyes]
    · intro _ hincr
      rw [incr_some hcell] at hincr
      injection hincr with _ hn
      simp [hd, end_] at hn

theorem C16_EraseAfter_needs_successor_witness :
    Valid (listWorld () [1, 2, 3] : World Unit Nat) 0 (nodesFrom 1 [1, 2, 3]) ∧
    ValidPos (listWorld () [1, 2, 3] : World Unit Nat) 0 ⟨some 3⟩ ∧
    IsEmpty 0 (listWorld () [1, 2, 3] : World Unit Nat) = .ret (listWorld () [1, 2, 3]) false ∧
    EraseAfter 0 ⟨some 3⟩ (listWorld () [1, 2, 3] : World Unit Nat) = .fault ∧
    Main.EraseAfter 0 ⟨some 3⟩ (listWorld () [1, 2, 3] : World Unit Nat) = .fault :=
  ⟨listWorld_valid () _, ⟨3, rfl, rfl⟩,
    (C16_EraseAfter_needs_successor (listWorld () [1, 2, 3]) 0 _ ⟨some 3⟩
      (listWorld_valid () _) ⟨3, rfl, rfl⟩).2.2 (by decide) rfl⟩

theorem lex_trichotomy [LinearOrder α] (xs ys : List α) :
    (lexLess xs ys = true ∧ seqEqual xs ys = false ∧ lexLess ys xs = false) ∨
    (lexLess xs ys = false ∧ seqEqual xs ys = true ∧ lexLess ys xs = false) ∨
    (lexLess xs ys = false ∧ seqEqual xs ys = false ∧ lexLess ys xs = true) := by
  induction xs generalizing ys with
  | nil =>
    cases ys with
    | nil => exact Or.inr (Or.inl ⟨rfl, by simp [seqEqual], rfl⟩)
    | cons y ys => exact Or.inl ⟨rfl, by simp [seqEqual], rfl⟩
  | cons x xs ih =>
    cases ys with
    | nil => exact Or.inr (Or.inr ⟨rfl, by simp [seqEqual], rfl⟩)
    | cons y ys =>
      rw [seqEqual_cons_cons]
      simp only [lexLess]
      rcases lt_trichotomy x y with h | h | h
      · have h2 : ¬ y < x := not_lt.mpr (le_of_lt h)
        have h3 : (x == y) = false := by simpa using ne_of_lt h
        exact Or.inl ⟨by simp [h], by simp [h3], by simp [h, h2]⟩
      · subst h
        have h1 : ¬ x < x := lt_irrefl x
        simpa [h1] using ih ys
      · have h2 : ¬ x < y := not_lt.mpr (le_of_lt h)
        have h3 : (x == y) = false := by simpa using (ne_of_lt h).symm
        exact Or.inr (Or.inr ⟨by simp [h, h2], by simp [h3], by simp [h]⟩)

/-- C18: the six comparison operators on two valid lists over a linearly
ordered element type (with `==` the equality of that type) all return, and
their results are consistent: exactly one of `a < b`, `a == b`, `b < a` is
true; `a != b` is the negation of `a == b`; `a > b` is `b < a`; `a <= b` is
`a < b || a == b`; `a >= b` is `a > b || a == b`.  The same holds for the
`!=` and `>` of main.cpp, which are written out instead of delegating. -/
theorem C18_comparisons_consistent [LinearOrder α] (w : World σ α) (a b : Nat)
    (ns ms : List (Nat × α)) (fuel : Nat) (ha : Valid w a ns) (hb : Valid w b ms)
    (hf : ns.length < fuel) (hf2 : ms.length < fuel) :
    ∃ lt eq gt : Bool,
      op_lt fuel a b w = .ret w lt ∧ op_eq fuel a b w = .ret w eq ∧
      op_lt fuel b a w = .ret w gt ∧
      ((lt = true ∧ eq = false ∧ gt = false) ∨ (lt = false ∧ eq = true ∧ gt = false) ∨
        (lt = false ∧ eq = false ∧ gt = true)) ∧
      op_ne fuel a b w = .ret w (!eq) ∧ Main.op_ne fuel a b w = .ret w (!eq) ∧
      op_gt fuel a b w = .ret w gt ∧ Main.op_gt fuel a b w = .ret w gt ∧
      op_le fuel a b w = .ret w (lt || eq) ∧ op_ge fuel a b w = .ret w (gt || eq) := by
  have hlt := op_lt_valid ha hb hf
  have hgt := op_lt_valid hb ha hf2
  have heq := op_eq_valid ha hb hf
  have htri := lex_trichotomy (ns.map Prod.snd) (ms.map Prod.snd)
  refine ⟨_, _, _, hlt, heq, hgt, htri, ?_, ?_, hgt, ?_, ?_, ?_⟩
  · unfold op_ne
    rw [bind_ret heq]
    rfl
  · obtain ⟨_, nx, _, hs⟩ := ha.head
    obtain ⟨_, nx2, _, hs2⟩ := hb.head
    have h1 := Lseg_hd hs
    have h2 := Lseg_hd hs2
    subst h1 h2
    unfold Main.op_ne
    rw [bind_ret (begin_valid ha), bind_ret (begin_valid hb),
      bind_ret (std_equal_Lseg hs hs2 hf)]
    rfl
  · obtain ⟨_, nx, _, hs⟩ := ha.head
    obtain ⟨_, nx2, _, hs2⟩ := hb.head
    have h1 := Lseg_hd hs
    have h2 := Lseg_hd hs2
    subst h1 h2
    unfold Main.op_gt
    rw [bind_ret (begin_valid hb), bind_ret (begin_valid ha)]
    exact std_lexicographical_compare_Lseg hs2 hs hf2
  · unfold op_le
    rw [bind_ret hgt]
    rcases htri with ⟨h1, h2, h3⟩ | ⟨h1, h2, h3⟩ | ⟨h1, h2, h3⟩ <;> simp [h1, h2, h3]
  · unfold op_ge
    rw [bind_ret hlt]
    rcases htri with ⟨h1, h2, h3⟩ | ⟨h1, h2, h3⟩ | ⟨h1, h2, h3⟩ <;> simp [h1, h2, h3]

theorem C18_comparisons_consistent_witness :
    op_lt 9 0 5 demoWorld = .ret demoWorld true ∧ op_eq 9 0 5 demoWorld = .ret demoWorld false ∧
    op_lt 9 5 0 demoWorld = .ret demoWorld false ∧ op_ne 9 0 5 demoWorld = .ret demoWorld true ∧
    op_le 9 0 5 demoWorld = .ret demoWorld true ∧ op_ge 9 0 5 demoWorld = .ret demoWorld false := by
  obtain ⟨lt, eq, gt, h1, h2, h3, _, h5, _, _, _, h9, h10⟩ :=
    C18_comparisons_consistent demoWorld 0 5 _ _ 9 demoWorld_valid_a demoWorld_valid_b
      (by decide) (by decide)
  have a1 : op_lt 9 0 5 demoWorld = _ :=
    op_lt_valid demoWorld_valid_a demoWorld_valid_b (by decide)
  have a2 : op_eq 9 0 5 demoWorld = _ :=
    op_eq_valid demoWorld_valid_a demoWorld_valid_b (by decide)
  have a3 : op_lt 9 5 0 demoWorld = _ :=
    op_lt_valid demoWorld_valid_b demoWorld_valid_a (by decide)
  have e1 := a1.symm.trans h1
  have e2 := a2.symm.trans h2
  have e3 := a3.symm.trans h3
  injection e1 with _ e1
  injection e2 with _ e2
  injection e3 with _ e3
  subst e1 e2 e3
  exact ⟨h1, h2, h3, h5, h9, h10⟩

/-- C19: insertion and removal are inverse on a valid list, for a value `v`
whose copy succeeds.  `PushFront(v)` then `PopFront()` leaves the old
iteration sequence and `GetSize()`.  `InsertAfter(pos, v)` then
`EraseAfter(pos)` does the same, at `before_begin()` and at the iterator to
any element, and the iterator `EraseAfter` returns equals the one that
followed `pos` before the insertion (`begin()` for `before_begin()`, `++pos`
otherwise, which is `end()` when `pos` was last).  The very same nodes are
linked in the same order afterwards. -/
theorem C19_insert_then_erase (cp : CopyCtor σ α) (w : World σ α) (l : Nat)
    (ns : List (Nat × α)) (v v2 : α) (e : σ) (fuel : Nat)
    (hv : Valid w l ns) (hc : cp w.env v = (e, some v2)) (hf : ns.length < fuel) :
    (∃ w3, (PushFront cp l v >>= fun _ => PopFront l) w = .ret w3 () ∧ Valid w3 l ns ∧
      observe fuel l w3 = .ret w3 (ns.map Prod.snd, ns.length)) ∧
    ((do
        let b0 ← begin_ l
        let _ ← InsertAfter cp l (before_begin l) v
        let r ← EraseAfter l (before_begin l)
        let seen ← observe fuel l
        pure (seen, r.eq b0)) w).val? = some ((ns.map Prod.snd, ns.length), true) ∧
    ∀ k, k < ns.length →
      ((do
          let pos ← nth l k
          let nxt0 ← pos.incr
          let _ ← InsertAfter cp l pos v
          let r ← EraseAfter l pos
          let seen ← observe fuel l
          pure (seen, r.eq nxt0, nxt0.eq end_)) w).val?
        = some ((ns.map Prod.snd, ns.length), true, decide (ns.length = k + 1)) := by
  refine ⟨?_, ?_, ?_⟩
  · obtain ⟨w2, hrun, hv2, _⟩ := PushFront_spec hv hc
    obtain ⟨w3, hrun3, hv3, _⟩ := PopFront_spec hv2
    refine ⟨w3, ?_, hv3, observe_valid hv3 hf⟩
    rw [bind_ret hrun]
    exact hrun3
  · obtain ⟨w2, hrun, hv2, _⟩ := InsertAfter_front hv hc
    obtain ⟨w3, hrun3, hv3, _⟩ := EraseAfter_front hv2
    rw [bind_ret (begin_valid hv), bind_ret hrun, bind_ret hrun3,
      bind_ret (observe_valid hv3 hf)]
    simp only [pure_apply, Res.val?, iter_eq_self]
  · intro k hk
    have hs1 := split_at hk
    have hvk : Valid w l (ns.take k ++ (ns[k].1, ns[k].2) :: ns.drop (k + 1)) := by
      rw [← hs1]; exact hv
    have hcell : w.cells ns[k].1 = some ⟨ns[k].2, hd (ns.drop (k + 1))⟩ := Valid.cell hvk
    obtain ⟨w2, hrun, hv2, _⟩ := InsertAfter_at hvk hc
    obtain ⟨w3, hrun3, hv3, _⟩ := EraseAfter_at hv2
    have hv3b : Valid w3 l ns := by
      rw [hs1]; exact hv3
    rw [bind_ret (nth_iterator hv hk), bind_ret (incr_some hcell), bind_ret hrun,
      bind_ret hrun3, bind_ret (observe_valid hv3b hf)]
    have h1 := eq_end_drop ns (k + 1)
    simp only [pure_apply, Res.val?, iter_eq_self, h1]
    congr 3
    simp only [decide_eq_decide]
    omega

theorem C19_insert_then_erase_witness :
    Valid (listWorld () [1, 2, 3] : World Unit Nat) 0 (nodesFrom 1 [1, 2, 3]) ∧
    ((do
        let b0 ← begin_ 0
        let _ ← InsertAfter plainCopy 0 (before_begin 0) 7
        let r ← EraseAfter 0 (before_begin 0)
        let seen ← observe 9 0
        pure (seen, r.eq b0)) (listWorld () [1, 2, 3] : World Unit Nat)).val?
      = some (([1, 2, 3], 3), true) ∧
    ((do
        let pos ← nth 0 2
        let nxt0 ← pos.incr
        let _ ← InsertAfter plainCopy 0 pos 7
        let r ← EraseAfter 0 pos
        let seen ← observe 9 0
        pure (seen, r.eq nxt0, nxt0.eq end_)) (listWorld () [1, 2, 3] : World Unit Nat)).val?
      = some (([1, 2, 3], 3), true, true) :=
  ⟨listWorld_valid () _,
    (C19_insert_then_erase plainCopy (listWorld () [1, 2, 3]) 0 (nodesFrom 1 [1, 2, 3]) 7 7 ()
      9 (listWorld_valid () _) rfl (by decide)).2.1,
    (C19_insert_then_erase plainCopy (listWorld () [1, 2, 3]) 0 (nodesFrom 1 [1, 2, 3]) 7 7 ()
      9 (listWorld_valid () _) rfl (by decide)).2.2 2 (by decide)⟩

theorem PopFront_empty {w : World σ α} {l : Nat} (hv : Valid w l []) :
    PopFront l w = .fault := by
  have hs := hv.size
  simp only [List.length_nil] at hs
  simp [PopFront, IsEmpty, assert_, bind_apply, M.bind, loadSize, hs, fault]

theorem EraseAfter_empty {w : World σ α} {l : Nat} (hv : Valid w l [])
    (pos : BasicIterator) : EraseAfter l pos w = .fault := by
  have hs := hv.size
  simp only [List.length_nil] at hs
  simp [EraseAfter, IsEmpty, assert_, bind_apply, M.bind, loadSize, hs, fault]

/-- C20: in the main.cpp copy of the container, on a valid empty list
`PopFront()` and `EraseAfter(before_begin())` return without touching the
memory: no node is read or freed, `size_` is not decremented (so it cannot
wrap below zero), the list still iterates as the empty sequence with
`GetSize() == 0` and `IsEmpty()`, and `EraseAfter` returns `end()`. -/
theorem C20_main_empty_noop (w : World σ α) (l : Nat) (fuel : Nat) (hv : Valid w l [])
    (hf : 0 < fuel) :
    Main.PopFront l w = .ret w () ∧
    Main.EraseAfter l (before_begin l) w = .ret w end_ ∧
    (do
        Main.PopFront l
        let r ← Main.EraseAfter l (before_begin l)
        let seen ← observe fuel l
        let emp ← IsEmpty l
        pure (seen, emp, r.eq end_)) w = .ret w (([], 0), true, true) := by
  have hs := hv.size
  simp only [List.length_nil] at hs
  obtain ⟨sv, nx, hcell, hseg⟩ := hv.head
  have hnx : nx = none := hseg
  subst hnx
  have h1 : Main.PopFront l w = .ret w () := by
    simp [Main.PopFront, IsEmpty, bind_apply, M.bind, loadSize, hs]
  have h2 : Main.EraseAfter l (before_begin l) w = .ret w end_ := by
    simp [Main.EraseAfter, IsEmpty, bind_apply, M.bind, loadSize, load, hs, before_begin,
      hcell, end_]
  refine ⟨h1, h2, ?_⟩
  rw [bind_ret h1, bind_ret h2, bind_ret (observe_valid hv hf), bind_ret (IsEmpty_valid hv)]
  rfl

theorem C20_main_empty_noop_witness :
    Valid (listWorld () [] : World Unit Nat) 0 [] ∧
    Main.PopFront 0 (listWorld () [] : World Unit Nat) = .ret (listWorld () []) () ∧
    Main.EraseAfter 0 (before_begin 0) (listWorld () [] : World Unit Nat)
      = .ret (listWorld () []) end_ :=
  ⟨listWorld_valid () [],
    (C20_main_empty_noop (listWorld () []) 0 1 (listWorld_valid () []) (by decide)).1,
    (C20_main_empty_noop (listWorld () []) 0 1 (listWorld_valid () []) (by decide)).2.1⟩

theorem pushArray_spec {cp : CopyCtor σ α} (hfa : Faithful cp) {l : Nat} :
    ∀ (vals : List α) {w : World σ α} {ns : List (Nat × α)}, Valid w l ns →
      ∃ w2 ms, Main.pushArray cp l vals w = .ret w2 () ∧ Valid w2 l (ms ++ ns) ∧
        ms.map Prod.snd = vals.reverse ∧ Frame [l] w w2 ∧ (∀ a ∈ ms.map Prod.fst, w.brk ≤ a) := by
  intro vals
  induction vals with
  | nil =>
    intro w ns hv
    exact ⟨w, [], rfl, hv, rfl, Frame.refl _ _, by simp⟩
  | cons v vs ih =>
    intro w ns hv
    obtain ⟨w1, hrun, hv1, hfr1, _, hbrk1⟩ := PushFront_spec hv (copy_eq_of_snd (hfa w.env v))
    obtain ⟨w2, ms, hrun2, hv2, hvals, hfr2, hfresh⟩ := ih hv1
    refine ⟨w2, ms ++ [(w.brk, v)], ?_, ?_, ?_, hfr1.trans hfr2, ?_⟩
    · show (PushFront cp l v >>= fun _ => Main.pushArray cp l vs) w = _
      rw [bind_ret hrun]
      exact hrun2
    · rw [List.append_assoc]
      exact hv2
    · simp [hvals]
    · intro a ha
      simp only [List.map_append, List.map_cons, List.map_nil, List.mem_append,
        List.mem_singleton] at ha
      rcases ha with ha | ha
      · have := hfresh a ha
        omega
      · omega

theorem pushList_spec {cp : CopyCtor σ α} (hfa : Faithful cp) {l2 : Nat} :
    ∀ (src : List (Nat × α)) {w : World σ α} {p : Option Nat} {ns : List (Nat × α)} {fuel : Nat},
      Lseg w.cells p src none → (∀ a ∈ src.map Prod.fst, a ≠ l2 ∧ a < w.brk) →
      Valid w l2 ns → src.length < fuel →
      ∃ w2 ms, Main.pushList cp l2 fuel ⟨p⟩ w = .ret w2 () ∧ Valid w2 l2 (ms ++ ns) ∧
        ms.map Prod.snd = (src.map Prod.snd).reverse ∧ Frame [l2] w w2 ∧
        (∀ a ∈ ms.map Prod.fst, w.brk ≤ a) := by
  intro src
  induction src with
  | nil =>
    intro w p ns fuel hs _ hv hf
    have hp : p = none := hs
    subst hp
    cases fuel with
    | zero => simp at hf
    | succ fuel =>
      refine ⟨w, [], ?_, hv, rfl, Frame.refl _ _, by simp⟩
      simp [Main.pushList]
  | cons n rest ih =>
    intro w p ns fuel hs hsrc hv hf
    obtain ⟨a, x⟩ := n
    obtain ⟨hp, nx, hc, hr⟩ := hs
    subst hp
    cases fuel with
    | zero => simp at hf
    | succ fuel =>
      have ha := hsrc a (by simp)
      obtain ⟨w1, hrun, hv1, hfr1, _, hbrk1⟩ := PushFront_spec hv (copy_eq_of_snd (hfa w.env x))
      have hc1 : w1.cells a = some ⟨x, nx⟩ := by
        rw [hfr1.cells a ha.2 (by simpa using ha.1), hc]
      have hr1 : Lseg w1.cells nx rest none := by
        refine Lseg_congr (fun b hb => ?_) hr
        have hb2 := hsrc b (by simp [hb])
        exact hfr1.cells b hb2.2 (by simpa using hb2.1)
      have hsrc1 : ∀ b ∈ rest.map Prod.fst, b ≠ l2 ∧ b < w1.brk := by
        intro b hb
        have hb2 := hsrc b (by simp [hb])
        exact ⟨hb2.1, Nat.lt_of_lt_of_le hb2.2 hfr1.brk⟩
      obtain ⟨w2, ms, hrun2, hv2, hvals, hfr2, hfresh⟩ :=
        ih hr1 hsrc1 hv1 (Nat.lt_of_succ_lt_succ hf)
      refine ⟨w2, ms ++ [(w.brk, x)], ?_, ?_, ?_, hfr1.trans hfr2, ?_⟩
      · simp only [Main.pushList, ne_end_some, if_true]
        rw [bind_ret (deref_some hc), bind_ret hrun, bind_ret (incr_some hc1)]
        exact hrun2
      · rw [List.append_assoc]
        exact hv2
      · simp [hvals]
      · intro b hb
        simp only [List.map_append, List.map_cons, List.map_nil, List.mem_append,
          List.mem_singleton] at hb
        rcases hb with hb | hb
        · have := hfresh b hb
          omega
        · omega

/-- The second half of the main.cpp constructors: with `l1` filled, push its
elements onto the empty `l2`, swap `l2` into the object under construction
and destroy `l2` and `l1`. -/
theorem main_ctor_finish {cp : CopyCtor σ α} (hfa : Faithful cp) {w : World σ α}
    {self l1 l2 junk fuel : Nat} {ms1 : List (Nat × α)}
    (hself : Shaped w self [] junk) (h1 : Valid w l1 ms1) (h2 : Valid w l2 [])
    (hs1 : self ≠ l1) (hs2 : self ≠ l2) (h12 : l1 ≠ l2)
    (hm : ∀ a ∈ ms1.map Prod.fst, a ≠ self ∧ a ≠ l2) (hf : ms1.length < fuel) :
    ∃ w6 w7 w8 ms,
      (begin_ l1 >>= fun b => Main.pushList cp l2 fuel b >>= fun _ => swap self l2) w
        = .ret w6 () ∧
      dtor fuel l2 w6 = .ret w7 () ∧ dtor fuel l1 w7 = .ret w8 () ∧
      Valid w8 self ms ∧ ms.map Prod.snd = (ms1.map Prod.snd).reverse := by
  obtain ⟨sv, nx, hc, hseg⟩ := h1.head
  have hnx := Lseg_hd hseg
  subst hnx
  have hlt1 := h1.lt_brk
  obtain ⟨w5, ms, hrun5, hv5, hvals, hfr5, hfresh⟩ := pushList_spec hfa ms1 hseg
    (fun a ha => ⟨(hm a ha).2, hlt1 a (by simp [ha])⟩) h2 hf
  rw [List.append_nil] at hv5
  have hself5 : Shaped w5 self [] junk :=
    hself.frame hfr5 (by simpa using hs2) hv5.alloc
  have h15 : Valid w5 l1 ms1 := by
    refine Shaped.frame h1 hfr5 ?_ hv5.alloc
    intro a ha
    simp only [List.mem_cons] at ha
    rcases ha with ha | ha
    · subst ha; simpa using h12
    · simpa using (hm a ha).2
  have hselflt := hself.lt_brk self (by simp)
  have hl1lt := hlt1 l1 (by simp)
  have hl2lt := h2.lt_brk l2 (by simp)
  have hdis : ∀ x ∈ self :: ([] : List (Nat × α)).map Prod.fst, x ∉ l2 :: ms.map Prod.fst := by
    intro x hx
    simp only [List.map_nil, List.mem_singleton] at hx
    subst hx
    simp only [List.mem_cons, not_or]
    refine ⟨hs2, fun h => ?_⟩
    have := hfresh x h
    omega
  obtain ⟨w6, hrun6, hself6, hl26, hfr6, _, _⟩ := swap_spec hself5 hv5 hdis
  have h16 : Valid w6 l1 ms1 := by
    refine Shaped.frame h15 hfr6 ?_ hself6.alloc
    intro a ha
    simp only [List.mem_cons] at ha
    simp only [List.mem_cons, List.mem_singleton, List.not_mem_nil, or_false, not_or]
    rcases ha with ha | ha
    · subst ha; exact ⟨Ne.symm hs1, h12⟩
    · exact hm a ha
  obtain ⟨w7, hrun7, hal7, hfr7, _, _⟩ := dtor_spec hl26 (Nat.lt_of_le_of_lt (Nat.zero_le _) hf)
  have hself7 : Valid w7 self ms := by
    refine Shaped.frame hself6 hfr7 ?_ hal7
    intro a ha
    simp only [List.mem_cons] at ha
    simp only [List.map_nil, List.mem_singleton]
    rcases ha with ha | ha
    · subst ha; exact hs2
    · have := hfresh a ha
      omega
  have h17 : Valid w7 l1 ms1 := by
    refine Shaped.frame h16 hfr7 ?_ hal7
    intro a ha
    simp only [List.mem_cons] at ha
    simp only [List.map_nil, List.mem_singleton]
    rcases ha with ha | ha
    · subst ha; exact h12
    · exact (hm a ha).2
  obtain ⟨w8, hrun8, hal8, hfr8, _, _⟩ := dtor_spec h17 hf
  have hself8 : Valid w8 self ms := by
    refine Shaped.frame hself7 hfr8 ?_ hal8
    intro a ha
    simp only [List.mem_cons] at ha
    simp only [List.mem_cons, not_or]
    rcases ha with ha | ha
    · subst ha
      exact ⟨hs1, fun h => (hm a h).1 rfl⟩
    · have hge := hfresh a ha
      refine ⟨by omega, fun h => ?_⟩
      have := hlt1 a (by simp [h])
      omega
  refine ⟨w6, w7, w8, ms, ?_, hrun7, hrun8, hself8, hvals⟩
  rw [bind_ret (begin_valid h1), bind_ret hrun5]
  exact hrun6

/-- The first half of the main.cpp constructors: storage for the object and
the two empty locals `l1`, `l2`. -/
theorem main_ctor_setup [Inhabited α] {w : World σ α} (junk : Nat) (hw : WellAlloc w) :
    ∃ w1 w2 w3, rawObject junk w = .ret w1 w.brk ∧ default_ctor w1 = .ret w2 (w.brk + 1) ∧
      default_ctor w2 = .ret w3 (w.brk + 2) ∧ Shaped w3 w.brk [] junk ∧
      Valid w3 (w.brk + 1) [] ∧ Valid w3 (w.brk + 2) [] ∧ Frame [] w w3 ∧
      w3.brk = w.brk + 3 := by
  obtain ⟨w1, hraw, hs1, hfr1, _, hbrk1⟩ := rawObject_spec (α := α) junk hw
  obtain ⟨w2, hd1, hv2, hfr2, _, hbrk2⟩ := default_ctor_spec hs1.alloc
  obtain ⟨w3, hd2, hv3, hfr3, _, hbrk3⟩ := default_ctor_spec hv2.alloc
  rw [hbrk1] at hd1 hv2
  rw [hbrk2, hbrk1] at hd2 hv3
  refine ⟨w1, w2, w3, hraw, hd1, hd2, ?_, ?_, hv3, (hfr1.trans hfr2).trans hfr3, ?_⟩
  · exact (hs1.frame hfr2 (by simp) hv2.alloc).frame hfr3 (by simp) hv3.alloc
  · exact hv2.frame hfr3 (by simp) hv3.alloc
  · omega

/-- The initializer-list constructor of main.cpp is right for every length:
for a copy constructor that copies faithfully it returns a valid list holding
exactly the values, in order. -/
theorem main_init_list_ctor_correct [Inhabited α] {cp : CopyCtor σ α} {vals : List α}
    {w : World σ α} {fuel : Nat} (junk : Nat) (hfa : Faithful cp) (hw : WellAlloc w)
    (hf : vals.length < fuel) :
    ∃ w2 ms, Main.init_list_ctor cp fuel junk vals w = .ret w2 w.brk ∧ Valid w2 w.brk ms ∧
      ms.map Prod.snd = vals := by
  obtain ⟨w1, w2, w3, hraw, hd1, hd2, hself3, h13, h23, hfr3, hbrk3⟩ := main_ctor_setup junk hw
  obtain ⟨w4, ms1, hrun4, hv4, hvals4, hfr4, hfresh4⟩ := pushArray_spec hfa vals h13
  rw [List.append_nil] at hv4
  have hlen1 : ms1.length = vals.length := by
    have := congrArg List.length hvals4
    simpa using this
  have hself4 : Shaped w4 w.brk [] junk := hself3.frame hfr4 (by simp) hv4.alloc
  have h24 : Valid w4 (w.brk + 2) [] := h23.frame hfr4 (by simp) hv4.alloc
  obtain ⟨w6, w7, w8, ms, hrun6, hrun7, hrun8, hv8, hvals8⟩ :=
    main_ctor_finish hfa hself4 hv4 h24 (by omega) (by omega) (by omega)
      (fun a ha => by
        have := hfresh4 a ha
        constructor <;> omega) (by rw [hlen1]; exact hf)
  refine ⟨w8, ms, ?_, hv8, ?_⟩
  · refine construct_ret hraw ?_
    rw [bind_ret hd1]
    refine withCleanup_ret ?_ hrun8
    rw [bind_ret hd2]
    refine withCleanup_ret ?_ hrun7
    rw [bind_ret hrun4]
    exact hrun6
  · rw [hvals8, hvals4, List.reverse_reverse]

/-- The copy constructor of main.cpp is right for every length: for a copy
constructor that copies faithfully it returns a valid list with the sequence
of `other`. -/
theorem main_copy_ctor_correct [Inhabited α] {cp : CopyCtor σ α} {w : World σ α} {other : Nat}
    {ns : List (Nat × α)} {fuel : Nat} (junk : Nat) (hfa : Faithful cp) (ho : Valid w other ns)
    (hf : ns.length < fuel) :
    ∃ w2 ms, Main.copy_ctor cp fuel junk other w = .ret w2 w.brk ∧ Valid w2 w.brk ms ∧
      ms.map Prod.snd = ns.map Prod.snd := by
  obtain ⟨w1, w2, w3, hraw, hd1, hd2, hself3, h13, h23, hfr3, hbrk3⟩ :=
    main_ctor_setup junk ho.alloc
  have hlt := ho.lt_brk
  have ho3 : Valid w3 other ns := ho.frame hfr3 (by simp) h13.alloc
  obtain ⟨sv, nx, hc, hseg⟩ := ho3.head
  have hnx := Lseg_hd hseg
  subst hnx
  obtain ⟨w4, ms1, hrun4, hv4, hvals4, hfr4, hfresh4⟩ := pushList_spec hfa ns hseg
    (fun a ha => by
      have := hlt a (by simp [ha])
      constructor <;> omega) h13 hf
  rw [List.append_nil] at hv4
  have hlen1 : ms1.length = ns.length := by
    have := congrArg List.length hvals4
    simpa using this
  have hself4 : Shaped w4 w.brk [] junk := hself3.frame hfr4 (by simp) hv4.alloc
  have h24 : Valid w4 (w.brk + 2) [] := h23.frame hfr4 (by simp) hv4.alloc
  obtain ⟨w6, w7, w8, ms, hrun6, hrun7, hrun8, hv8, hvals8⟩ :=
    main_ctor_finish hfa hself4 hv4 h24 (by omega) (by omega) (by omega)
      (fun a ha => by
        have := hfresh4 a ha
        constructor <;> omega) (by rw [hlen1]; exact hf)
  refine ⟨w8, ms, ?_, hv8, ?_⟩
  · refine construct_ret hraw ?_
    rw [bind_ret hd1]
    refine withCleanup_ret ?_ hrun8
    rw [bind_ret hd2]
    refine withCleanup_ret ?_ hrun7
    rw [bind_ret (begin_valid ho3), bind_ret hrun4]
    exact hrun6
  · rw [hvals8, hvals4, List.reverse_reverse]

/-- Within the range of `int` the two construction strategies agree: built
from the same values by a copy constructor that copies faithfully, the list of
main.cpp and the list of the header both hold exactly the values, in order. -/
theorem ctor_strategies_agree [Inhabited α] {cp : CopyCtor σ α} {vals : List α}
    {w : World σ α} {fuel : Nat} (junk : Nat) (hfa : Faithful cp) (hw : WellAlloc w)
    (hn : vals.length < 2147483648) (hf : vals.length < fuel) :
    ∃ w2 w3 ms1 ms2, Main.init_list_ctor cp fuel junk vals w = .ret w2 w.brk ∧
      init_list_ctor cp fuel junk vals w2 = .ret w3 w2.brk ∧
      Valid w3 w.brk ms1 ∧ Valid w3 w2.brk ms2 ∧
      ms1.map Prod.snd = vals ∧ ms2.map Prod.snd = vals := by
  obtain ⟨w2, ms1, hrun, hv, hvals⟩ := main_init_list_ctor_correct junk hfa hw hf
  obtain ⟨w3, ms2, hrun2, hv2, hvals2, hfr, _⟩ := init_list_ctor_correct junk hfa hv.alloc hn hf
  exact ⟨w2, w3, ms1, ms2, hrun, hrun2, hv.frame hfr (by simp) hv2.alloc, hv2, hvals, hvals2⟩

theorem strategies_differ_of_length (vals : List Nat) (hlen : vals.length = 2147483649) :
    ((do
        let a ← Main.init_list_ctor plainCopy 2147483650 0 vals
        let b ← init_list_ctor plainCopy 2147483650 0 vals
        let sa ← observe 2147483650 a
        let sb ← observe 1 b
        let same ← op_eq 2147483650 a b
        pure (sa, sb, same)) (World.empty () : World Unit Nat)).val?
      = some ((vals, 2147483649), ([], 0), false) := by
  have h32 : toInt32 (vals.length : Int) = -2147483647 := by
    rw [hlen]
    unfold toInt32
    omega
  have hmain : ∃ w2 ms, Main.init_list_ctor (plainCopy : CopyCtor Unit Nat) 2147483650 0 vals
      (World.empty ()) = .ret w2 (World.empty () : World Unit Nat).brk ∧
      Valid w2 (World.empty () : World Unit Nat).brk ms ∧ ms.map Prod.snd = vals :=
    main_init_list_ctor_correct 0 plainCopy_faithful (WellAlloc_empty ()) (by omega)
  obtain ⟨w2, ms1, hrun, hv, hvals⟩ := hmain
  have hlen1 : ms1.length = 2147483649 := by
    rw [← hlen, ← hvals, List.length_map]
  obtain ⟨w3, _, hfr, hres⟩ := init_list_ctor_spec (plainCopy : CopyCtor Unit Nat)
    vals 2147483650 0 hv.alloc (by rw [h32]; omega) (by omega)
  rcases hres with ⟨hrun2, ms, hvb, hl, _, _⟩ | ⟨_, hnf⟩
  · rw [h32] at hl
    have hms : ms = [] := List.length_eq_zero.mp (by simpa using hl)
    subst hms
    have hva : Valid w3 (World.empty () : World Unit Nat).brk ms1 :=
      hv.frame hfr (by simp) hvb.alloc
    have hne : seqEqual (ms1.map Prod.snd) (([] : List (Nat × Nat)).map Prod.snd)
        = false := seqEqual_nil_right (by rw [List.length_map, hlen1]; omega)
    rw [bind_ret hrun, bind_ret hrun2, bind_ret (observe_valid hva (by rw [hlen1]; omega)),
      bind_ret (observe_valid hvb (by simp)),
      bind_ret (op_eq_valid hva hvb (by rw [hlen1]; omega)), hne, hvals, hlen1]
    rfl
  · exact absurd plainCopy_faithful hnf.not_faithful

/-- C17 (failing input): built from the same `2^31 + 1` values, the
constructor of main.cpp (double reversal) returns a list that iterates as the
input, with `GetSize()` equal to `2^31 + 1`, while the constructor of the
header (`InitializeByIterators`) returns an empty list, and the two lists do
not compare equal: `static_cast<int>` turns the distance into a negative
`size`, so the header pushes nothing. -/
theorem C17_strategies_disagree :
    ((do
        let a ← Main.init_list_ctor plainCopy 2147483650 0 (List.replicate 2147483649 (7 : Nat))
        let b ← init_list_ctor plainCopy 2147483650 0 (List.replicate 2147483649 (7 : Nat))
        let sa ← observe 2147483650 a
        let sb ← observe 1 b
        let same ← op_eq 2147483650 a b
        pure (sa, sb, same)) (World.empty () : World Unit Nat)).val?
      = some ((List.replicate 2147483649 (7 : Nat), 2147483649), ([], 0), false) :=
  strategies_differ_of_length _ (List.length_replicate _ _)

end SLL
